import Mathlib

/-!
Verification of the goldengraphs graph-algorithms engine.

This file shallowly embeds the Python sources
(`graph.py`, `union_find.py`, `utils.py`, `shortest_path.py`,
`topological.py`, `minimum_spanning_tree.py`) into Lean and proves the
specification's claims about them.

Modelling conventions:
- Python `float` edge weights and distances become `ℚ`; `float("inf")`
  becomes the `none` case of `Option ℚ`.
- Python `dict`s become insertion-ordered association lists
  (`List (α × β)`) with the helpers `dlookup` / `dinsert` / `dmodify`
  below, mirroring dict lookup, `d[k] = v` assignment, and in-place
  value modification; or, for the algorithm-internal maps whose
  iteration order is never observed, plain functions `α → Option β`.
- A `dict[...]` read that can raise `KeyError` is modelled by an
  `Option`-valued lookup whose `none` case propagates as a `none`
  overall result (an error outcome).
- Unbounded `while` loops and unbounded recursion take an explicit
  fuel argument; exhausting the fuel yields `none`.  Theorems either
  hypothesise a successful run or prove a concrete fuel sufficient.
- `heapq` heaps of `(priority, counter, node)` tuples are modelled as
  the multiset of their entries (a list) with `popMin` extracting the
  entry with the lexicographically least `(priority, counter)` key.
  Since the counter is unique per push, the key order is total and
  strict, so a correct binary heap pops entries in exactly this order;
  the node component is never inspected by the comparison.
-/

/-- Lookup in an association list modelling a Python dict read. -/
def dlookup {α β : Type} [DecidableEq α] : List (α × β) → α → Option β
  | [], _ => none
  | (k, v) :: l, x => if x = k then some v else dlookup l x

/-- Dict assignment `d[k] = v`: replaces the value in place if the key
is present (keeping its position, like CPython dicts) and appends the
binding otherwise. -/
def dinsert {α β : Type} [DecidableEq α] : List (α × β) → α → β → List (α × β)
  | [], x, v => [(x, v)]
  | (k, w) :: l, x, v => if x = k then (k, v) :: l else (k, w) :: dinsert l x v

/-- Modify the value stored at a key, leaving the list unchanged when
the key is absent. -/
def dmodify {α β : Type} [DecidableEq α] : List (α × β) → α → (β → β) → List (α × β)
  | [], _, _ => []
  | (k, w) :: l, x, f => if x = k then (k, f w) :: l else (k, w) :: dmodify l x f

/-- Membership test `k in d` on a Python dict. -/
def dcontains {α β : Type} [DecidableEq α] (l : List (α × β)) (x : α) : Bool :=
  (dlookup l x).isSome

/-- Update one point of a function-represented map, modelling
`d[k] = v` on a dict whose iteration order is never observed. -/
def updf {α β : Type} [DecidableEq α] (f : α → Option β) (x : α) (v : β) : α → Option β :=
  fun y => if y = x then some v else f y

/-! ## Graph model (`graph.py`) -/

/-- The `DirectedGraph` class: `self.adjs` is a dict from node to a
dict from neighbor to weight. -/
structure DirectedGraph (Node : Type) where
  adjs : List (Node × List (Node × ℚ))

variable {Node : Type} [DecidableEq Node]

/-- A `DirectedGraph()` constructed with no nodes and no edges. -/
def DirectedGraph.empty : DirectedGraph Node := ⟨[]⟩

/-- `DirectedGraph.add_edge`: implicitly creates both endpoints, then
sets `self.adjs[src][dst] = weight`. -/
def DirectedGraph.add_edge (g : DirectedGraph Node) (src dst : Node) (w : ℚ) :
    DirectedGraph Node :=
  let a1 := if dcontains g.adjs src then g.adjs else g.adjs ++ [(src, [])]
  let a2 := if dcontains a1 dst then a1 else a1 ++ [(dst, [])]
  ⟨dmodify a2 src (fun inner => dinsert inner dst w)⟩

/-- `DirectedGraph.get_adjs`: `self.adjs[node].items()`.  The lookup
raises `KeyError` when the node is absent, modelled by `none`. -/
def DirectedGraph.get_adjs (g : DirectedGraph Node) (node : Node) :
    Option (List (Node × ℚ)) :=
  dlookup g.adjs node

/-- `DirectedGraph.get_nodes`: the keys of `self.adjs`. -/
def DirectedGraph.get_nodes (g : DirectedGraph Node) : List Node :=
  g.adjs.map Prod.fst

/-- `DirectedGraph.has_edge`. -/
def DirectedGraph.has_edge (g : DirectedGraph Node) (src dst : Node) : Bool :=
  match dlookup g.adjs src with
  | none => false
  | some inner => dcontains inner dst

/-- `DirectedGraph.get_edges`: one `(src, dst, weight)` triple per
stored directed edge, in storage order. -/
def DirectedGraph.get_edges (g : DirectedGraph Node) : List (Node × Node × ℚ) :=
  g.adjs.flatMap (fun p => p.2.map (fun e => (p.1, e.1, e.2)))

/-- `DirectedGraph.num_edges`: the total number of stored directed
edges. -/
def DirectedGraph.num_edges (g : DirectedGraph Node) : ℕ :=
  (g.adjs.map (fun p => p.2.length)).sum

/-- The undirected `Graph` subclass override of `add_edge`: mirrors the
edge in both directions. -/
def Graph.add_edge (g : DirectedGraph Node) (src dst : Node) (w : ℚ) :
    DirectedGraph Node :=
  (g.add_edge src dst w).add_edge dst src w

/-- The undirected `Graph` subclass override of `num_edges`: halves the
symmetric directed count with floor division. -/
def Graph.num_edges (g : DirectedGraph Node) : ℕ :=
  DirectedGraph.num_edges g / 2

/-! ## Claim C10: undirected self-loops -/

/-- C10: on an otherwise empty undirected graph, `add_edge(a, a, w)`
stores a single adjacency entry (`has_edge(a, a)` holds, and the inner
dict for `a` is exactly `{a: w}`), yet `num_edges()` returns `0`
because the floor halving of the directed count drops the lone
self-loop entry. -/
theorem Graph.self_loop_stored_but_uncounted (a : Node) (w : ℚ) :
    (Graph.add_edge DirectedGraph.empty a a w).has_edge a a = true ∧
    (Graph.add_edge DirectedGraph.empty a a w).get_adjs a = some [(a, w)] ∧
    Graph.num_edges (Graph.add_edge DirectedGraph.empty a a w) = 0 := by
  simp [Graph.add_edge, DirectedGraph.add_edge, DirectedGraph.empty, dcontains,
    dlookup, dmodify, dinsert, DirectedGraph.has_edge, DirectedGraph.get_adjs,
    Graph.num_edges, DirectedGraph.num_edges]

/-! ## Claim C8: neighbor query on an absent node -/

/-- C8 counterexample: on the empty graph the node `0` is absent, and
`get_adjs` produces the error outcome `none` (a `KeyError` in the
source), not the empty sequence `some []` the claim asserts. -/
theorem get_adjs_absent_errors_counterexample :
    (DirectedGraph.empty : DirectedGraph ℕ).get_adjs 0 = none ∧
    ¬ (DirectedGraph.empty : DirectedGraph ℕ).get_adjs 0 = some [] := by
  constructor
  · rfl
  · intro h
    simp [DirectedGraph.get_adjs, DirectedGraph.empty, dlookup] at h

/-- C8 amended: for every graph and every node absent from the node
set, `get_adjs` raises `KeyError` (the `none` outcome) rather than
returning an empty adjacency sequence. -/
theorem get_adjs_absent_raises (g : DirectedGraph Node) (n : Node)
    (h : n ∉ g.get_nodes) : g.get_adjs n = none := by
  obtain ⟨l⟩ := g
  simp only [DirectedGraph.get_nodes, DirectedGraph.get_adjs] at h ⊢
  induction l with
  | nil => rfl
  | cons p l ih =>
    simp only [List.map_cons, List.mem_cons] at h
    push_neg at h
    simp only [dlookup, if_neg h.1]
    exact ih h.2

/-- Witness for the amended C8 theorem at a concrete graph and node. -/
theorem get_adjs_absent_raises_witness :
    (0 : ℕ) ∉ (DirectedGraph.empty : DirectedGraph ℕ).get_nodes ∧
    (DirectedGraph.empty : DirectedGraph ℕ).get_adjs 0 = none :=
  ⟨by simp [DirectedGraph.empty, DirectedGraph.get_nodes],
   get_adjs_absent_raises DirectedGraph.empty 0
     (by simp [DirectedGraph.empty, DirectedGraph.get_nodes])⟩

/-! ## Shortest-path engine (`shortest_path.py`, `utils.py`) -/

/-- A frontier entry `(priority, counter, node)` as pushed onto the
`heapq` heap. -/
abbrev Entry (Node : Type) := ℚ × ℕ × Node

/-- The tuple order actually exercised by the heap: lexicographic on
`(priority, counter)`.  The node component is never inspected, because
counters are unique so no comparison ever reaches it. -/
def entryLe (a b : Entry Node) : Prop :=
  a.1 < b.1 ∨ (a.1 = b.1 ∧ a.2.1 ≤ b.2.1)

instance (a b : Entry Node) : Decidable (entryLe a b) := by
  unfold entryLe; infer_instance

/-- Extraction of the least entry by `(priority, counter)`: the
observable behaviour of `heappop` on a heap whose keys are pairwise
distinct. -/
def popMin : List (Entry Node) → Option (Entry Node × List (Entry Node))
  | [] => none
  | e :: es =>
    match popMin es with
    | none => some (e, [])
    | some (m, rest) => if entryLe e m then some (e, es) else some (m, e :: rest)

/-- The comparison `dist < dists.get(adj, float("inf"))`. -/
def ltInf (x : ℚ) : Option ℚ → Bool
  | none => true
  | some d => decide (x < d)

/-- The mutable state of one shortest-path search: the `dists` and
`parent` dicts, the `visited` set (kept in insertion order), the tie
counter, and the heap contents `q`. -/
structure SPState (Node : Type) where
  dists : Node → Option ℚ
  parent : Node → Option Node
  visited : List Node
  counter : ℕ
  q : List (Entry Node)

/-- The state snapshot passed to an `on_step` callback: the node just
marked visited, the visited set, the `dists` and `parent` dicts, and
the remaining frontier as `(priority, node)` pairs. -/
structure Snapshot (Node : Type) where
  curr : Node
  visited : List Node
  dists : Node → Option ℚ
  parent : Node → Option Node
  queueView : List (ℚ × Node)

/-- One iteration of the Dijkstra relaxation loop body for a single
neighbor `(adj, adj_dist)` of `curr`: re-reads `dists[curr]`, and on a
strict improvement updates `dists`, increments the counter, pushes
`(dists[adj], counter, adj)`, and sets `parent[adj]`.  The `none`
branch of the `dists[curr]` read models a `KeyError` that cannot occur
in any run (every popped node has its distance set). -/
def relaxD (curr : Node) (s : SPState Node) (e : Node × ℚ) : SPState Node :=
  match s.dists curr with
  | none => s
  | some dc =>
    let dist := dc + e.2
    if ltInf dist (s.dists e.1) then
      { dists := updf s.dists e.1 dist
        parent := updf s.parent e.1 curr
        visited := s.visited
        counter := s.counter + 1
        q := s.q ++ [(dist, s.counter + 1, e.1)] }
    else s

/-- One iteration of the A* relaxation loop body: as `relaxD`, but the
pushed priority is `dists[adj] + h(adj)`. -/
def relaxA (h : Node → ℚ) (curr : Node) (s : SPState Node) (e : Node × ℚ) :
    SPState Node :=
  match s.dists curr with
  | none => s
  | some dc =>
    let dist := dc + e.2
    if ltInf dist (s.dists e.1) then
      { dists := updf s.dists e.1 dist
        parent := updf s.parent e.1 curr
        visited := s.visited
        counter := s.counter + 1
        q := s.q ++ [(dist + h e.1, s.counter + 1, e.1)] }
    else s

/-- The `reconstruct_path` walk: follow `parent` links backward from
`curr` until `source`, collecting nodes, then reverse.  A missing
parent link is the source's `KeyError`; the fuel models the unbounded
`while` loop. -/
def reconstructAux (parent : Node → Option Node) (source : Node) :
    ℕ → Node → List Node → Option (List Node)
  | fuel, curr, path =>
    if curr = source then some path.reverse
    else
      match fuel with
      | 0 => none
      | fuel + 1 =>
        match parent curr with
        | none => none
        | some p => reconstructAux parent source fuel p (path ++ [p])

/-- The function `reconstruct_path(source, target, parent)`. -/
def reconstruct_path (source target : Node) (parent : Node → Option Node)
    (fuel : ℕ) : Option (List Node) :=
  reconstructAux parent source fuel target [target]

/-- The main loop of `dijkstra`: pop the least entry, skip it if
already visited, otherwise mark visited, snapshot for the `on_step`
callback, return the reconstructed path on goal, else relax all
neighbors.  Returns the result (or `none` on fuel exhaustion or a
`KeyError`) together with the chronological list of callback
snapshots. -/
def dijkstraLoop (source : Node) (isGoal : Node → ℚ → Bool)
    (adjs : Node → List (Node × ℚ)) :
    ℕ → SPState Node → Option (List Node × Option ℚ) × List (Snapshot Node)
  | 0, _ => (none, [])
  | fuel + 1, s =>
    match popMin s.q with
    | none => (some ([], none), [])
    | some (e, q') =>
      if e.2.2 ∈ s.visited then
        dijkstraLoop source isGoal adjs fuel { s with q := q' }
      else
        let visited' := s.visited ++ [e.2.2]
        let snap : Snapshot Node :=
          ⟨e.2.2, visited', s.dists, s.parent, q'.map (fun x => (x.1, x.2.2))⟩
        match s.dists e.2.2 with
        | none => (none, [snap])
        | some dcurr =>
          if isGoal e.2.2 dcurr then
            (match reconstruct_path source e.2.2 s.parent visited'.length with
             | none => none
             | some pth => some (pth, some dcurr), [snap])
          else
            let s' := (adjs e.2.2).foldl (relaxD e.2.2)
              { s with visited := visited', q := q' }
            let r := dijkstraLoop source isGoal adjs fuel s'
            (r.1, snap :: r.2)

/-- The initial state of `dijkstra`: `dists = {source: 0}`, empty
`parent` and `visited`, counter `0`, and the single heap entry
`(0, 0, source)`. -/
def dijkstraInit (source : Node) : SPState Node :=
  { dists := updf (fun _ => none) source 0
    parent := fun _ => none
    visited := []
    counter := 0
    q := [(0, 0, source)] }

/-- The function `dijkstra(source, is_goal, adjs, on_step)`.  The
second component is the trace of `on_step` snapshots. -/
def dijkstra (source : Node) (isGoal : Node → ℚ → Bool)
    (adjs : Node → List (Node × ℚ)) (fuel : ℕ) :
    Option (List Node × Option ℚ) × List (Snapshot Node) :=
  dijkstraLoop source isGoal adjs fuel (dijkstraInit source)

/-- The main loop of `dijkstra_all_paths`: as `dijkstraLoop` but with
no goal test; on frontier exhaustion it returns the full `dists` and
`parent` maps. -/
def allPathsLoop (adjs : Node → List (Node × ℚ)) :
    ℕ → SPState Node →
    Option ((Node → Option ℚ) × (Node → Option Node)) × List (Snapshot Node)
  | 0, _ => (none, [])
  | fuel + 1, s =>
    match popMin s.q with
    | none => (some (s.dists, s.parent), [])
    | some (e, q') =>
      if e.2.2 ∈ s.visited then
        allPathsLoop adjs fuel { s with q := q' }
      else
        let visited' := s.visited ++ [e.2.2]
        let snap : Snapshot Node :=
          ⟨e.2.2, visited', s.dists, s.parent, q'.map (fun x => (x.1, x.2.2))⟩
        let s' := (adjs e.2.2).foldl (relaxD e.2.2)
          { s with visited := visited', q := q' }
        let r := allPathsLoop adjs fuel s'
        (r.1, snap :: r.2)

/-- The function `dijkstra_all_paths(source, adjs, on_step)`. -/
def dijkstra_all_paths (source : Node) (adjs : Node → List (Node × ℚ))
    (fuel : ℕ) :
    Option ((Node → Option ℚ) × (Node → Option Node)) × List (Snapshot Node) :=
  allPathsLoop adjs fuel (dijkstraInit source)

/-- The main loop of `a_star`: as `dijkstraLoop` but relaxing with the
heuristic-augmented push priority. -/
def aStarLoop (source : Node) (isGoal : Node → ℚ → Bool)
    (adjs : Node → List (Node × ℚ)) (h : Node → ℚ) :
    ℕ → SPState Node → Option (List Node × Option ℚ) × List (Snapshot Node)
  | 0, _ => (none, [])
  | fuel + 1, s =>
    match popMin s.q with
    | none => (some ([], none), [])
    | some (e, q') =>
      if e.2.2 ∈ s.visited then
        aStarLoop source isGoal adjs h fuel { s with q := q' }
      else
        let visited' := s.visited ++ [e.2.2]
        let snap : Snapshot Node :=
          ⟨e.2.2, visited', s.dists, s.parent, q'.map (fun x => (x.1, x.2.2))⟩
        match s.dists e.2.2 with
        | none => (none, [snap])
        | some dcurr =>
          if isGoal e.2.2 dcurr then
            (match reconstruct_path source e.2.2 s.parent visited'.length with
             | none => none
             | some pth => some (pth, some dcurr), [snap])
          else
            let s' := (adjs e.2.2).foldl (relaxA h e.2.2)
              { s with visited := visited', q := q' }
            let r := aStarLoop source isGoal adjs h fuel s'
            (r.1, snap :: r.2)

/-- The initial state of `a_star`: like `dijkstraInit` except that the
initial heap entry carries priority `h(start)`. -/
def aStarInit (source : Node) (h : Node → ℚ) : SPState Node :=
  { dists := updf (fun _ => none) source 0
    parent := fun _ => none
    visited := []
    counter := 0
    q := [(h source, 0, source)] }

/-- The function `a_star(source, is_goal, adjs, h, on_step)`. -/
def a_star (source : Node) (isGoal : Node → ℚ → Bool)
    (adjs : Node → List (Node × ℚ)) (h : Node → ℚ) (fuel : ℕ) :
    Option (List Node × Option ℚ) × List (Snapshot Node) :=
  aStarLoop source isGoal adjs h fuel (aStarInit source h)

/-! ## Claim C2: A* with the zero heuristic is Dijkstra -/

/-- With the constant-zero heuristic the A* relaxation body coincides
with the Dijkstra relaxation body. -/
theorem relaxA_zero_eq_relaxD (curr : Node) (s : SPState Node) (e : Node × ℚ) :
    relaxA (fun _ => 0) curr s e = relaxD curr s e := by
  unfold relaxA relaxD
  cases s.dists curr with
  | none => rfl
  | some dc => simp

/-- Folding the zero-heuristic A* relaxation equals folding the
Dijkstra relaxation. -/
theorem foldl_relaxA_zero (curr : Node) (s : SPState Node) (l : List (Node × ℚ)) :
    l.foldl (relaxA (fun _ => 0) curr) s = l.foldl (relaxD curr) s := by
  induction l generalizing s with
  | nil => rfl
  | cons e l ih => simp only [List.foldl_cons, relaxA_zero_eq_relaxD, ih]

/-- With the constant-zero heuristic the A* main loop coincides with
the Dijkstra main loop on every state and fuel. -/
theorem aStarLoop_zero_eq_dijkstraLoop (source : Node) (isGoal : Node → ℚ → Bool)
    (adjs : Node → List (Node × ℚ)) (fuel : ℕ) (s : SPState Node) :
    aStarLoop source isGoal adjs (fun _ => 0) fuel s =
      dijkstraLoop source isGoal adjs fuel s := by
  induction fuel generalizing s with
  | zero => rfl
  | succ fuel ih =>
    rw [aStarLoop, dijkstraLoop]
    cases popMin s.q with
    | none => rfl
    | some p =>
      simp only
      by_cases hv : p.1.2.2 ∈ s.visited
      · simp only [if_pos hv, ih]
      · simp only [if_neg hv]
        cases s.dists p.1.2.2 with
        | none => rfl
        | some dcurr =>
          by_cases hg : isGoal p.1.2.2 dcurr = true
          · simp only [hg, if_pos]
          · simp only [hg, Bool.false_eq_true, if_false, foldl_relaxA_zero, ih]

/-- C2: for every source, goal predicate, adjacency function, and fuel,
`a_star` run with the constant-zero heuristic returns exactly the same
result as `dijkstra` — the same `(path, distance)` pair (and even the
same callback snapshots). -/
theorem a_star_zero_heuristic_eq_dijkstra (source : Node)
    (isGoal : Node → ℚ → Bool) (adjs : Node → List (Node × ℚ)) (fuel : ℕ) :
    a_star source isGoal adjs (fun _ => 0) fuel = dijkstra source isGoal adjs fuel := by
  unfold a_star dijkstra
  have hinit : aStarInit source (fun _ => (0 : ℚ)) = dijkstraInit source := rfl
  rw [hinit, aStarLoop_zero_eq_dijkstraLoop]

/-! ## Claim C3: deterministic tie-breaking via the insertion counter -/

/-- Reflexivity of the heap key order. -/
theorem entryLe_refl (a : Entry Node) : entryLe a a := Or.inr ⟨rfl, le_refl _⟩

/-- Totality of the heap key order. -/
theorem entryLe_total (a b : Entry Node) : entryLe a b ∨ entryLe b a := by
  unfold entryLe
  rcases lt_trichotomy a.1 b.1 with h | h | h
  · exact Or.inl (Or.inl h)
  · rcases le_total a.2.1 b.2.1 with h2 | h2
    · exact Or.inl (Or.inr ⟨h, h2⟩)
    · exact Or.inr (Or.inr ⟨h.symm, h2⟩)
  · exact Or.inr (Or.inl h)

/-- Transitivity of the heap key order. -/
theorem entryLe_trans {a b c : Entry Node} (hab : entryLe a b) (hbc : entryLe b c) :
    entryLe a c := by
  rcases hab with h | ⟨h, h'⟩ <;> rcases hbc with g | ⟨g, g'⟩
  · exact Or.inl (h.trans g)
  · exact Or.inl (g ▸ h)
  · exact Or.inl (h ▸ g)
  · exact Or.inr ⟨h.trans g, h'.trans g'⟩

/-- `popMin` returns `none` exactly on the empty frontier. -/
theorem popMin_none_iff (l : List (Entry Node)) : popMin l = none ↔ l = [] := by
  cases l with
  | nil => simp [popMin]
  | cons e es =>
    simp only [popMin]
    cases popMin es with
    | none => simp
    | some p => by_cases h : entryLe e p.1 <;> simp [h]

/-- The extracted entry together with the remaining list are a
permutation of the original frontier. -/
theorem popMin_perm :
    ∀ {l rest : List (Entry Node)} {m : Entry Node},
      popMin l = some (m, rest) → l.Perm (m :: rest) := by
  intro l
  induction l with
  | nil => intro rest m h; simp [popMin] at h
  | cons e es ih =>
    intro rest m h
    cases hes : popMin es with
    | none =>
      simp only [popMin, hes, Option.some.injEq, Prod.mk.injEq] at h
      obtain ⟨rfl, rfl⟩ := h
      rw [(popMin_none_iff es).mp hes]
    | some p =>
      obtain ⟨me, re⟩ := p
      by_cases hle : entryLe e me
      · simp only [popMin, hes, if_pos hle, Option.some.injEq, Prod.mk.injEq] at h
        obtain ⟨rfl, rfl⟩ := h
        exact List.Perm.refl _
      · simp only [popMin, hes, if_neg hle, Option.some.injEq, Prod.mk.injEq] at h
        obtain ⟨rfl, rfl⟩ := h
        exact ((ih hes).cons e).trans (List.Perm.swap _ _ _)

/-- The extracted entry is least in the `(priority, counter)` order
among all frontier entries. -/
theorem popMin_le :
    ∀ {l rest : List (Entry Node)} {m : Entry Node},
      popMin l = some (m, rest) → ∀ x ∈ l, entryLe m x := by
  intro l
  induction l with
  | nil => intro rest m h; simp [popMin] at h
  | cons e es ih =>
    intro rest m h x hx
    cases hes : popMin es with
    | none =>
      simp only [popMin, hes, Option.some.injEq, Prod.mk.injEq] at h
      obtain ⟨rfl, rfl⟩ := h
      rw [(popMin_none_iff es).mp hes] at hx
      simp only [List.mem_singleton] at hx
      exact hx ▸ entryLe_refl _
    | some p =>
      obtain ⟨me, re⟩ := p
      by_cases hle : entryLe e me
      · simp only [popMin, hes, if_pos hle, Option.some.injEq, Prod.mk.injEq] at h
        obtain ⟨rfl, rfl⟩ := h
        rcases List.mem_cons.mp hx with rfl | hx
        · exact entryLe_refl _
        · exact entryLe_trans hle (ih hes _ hx)
      · simp only [popMin, hes, if_neg hle, Option.some.injEq, Prod.mk.injEq] at h
        obtain ⟨rfl, rfl⟩ := h
        rcases List.mem_cons.mp hx with rfl | hx
        · exact (entryLe_total _ me).resolve_left hle
        · exact ih hes _ hx

/-- Relabelling of the node component of an entry. -/
def emap {Node' : Type} (f : Node → Node') (e : Entry Node) : Entry Node' :=
  (e.1, e.2.1, f e.2.2)

/-- The extraction never compares node values: it commutes with any
relabelling of the node component, even a non-injective one. -/
theorem popMin_map_node {Node' : Type} (f : Node → Node') :
    ∀ l : List (Entry Node),
      popMin (l.map (emap f)) =
        (popMin l).map (fun p => (emap f p.1, p.2.map (emap f))) := by
  intro l
  induction l with
  | nil => rfl
  | cons e es ih =>
    simp only [List.map_cons, popMin, ih]
    cases popMin es with
    | none => rfl
    | some p =>
      obtain ⟨me, re⟩ := p
      by_cases h : entryLe e me
      · have hc : entryLe (emap f e) (emap f me) := h
        simp [Option.map, h, hc]
      · have hc : ¬ entryLe (emap f e) (emap f me) := h
        simp [Option.map, h, hc]

/-- The counters currently present in a frontier. -/
def qCounters (q : List (Entry Node)) : List ℕ := q.map (fun e => e.2.1)

/-- The counter invariant of the search loops: frontier counters are
pairwise distinct (each push used a fresh counter value) and bounded by
the current counter. -/
def CounterInv (s : SPState Node) : Prop :=
  (qCounters s.q).Nodup ∧ ∀ e ∈ s.q, e.2.1 ≤ s.counter

/-- Popping any entry preserves the counter invariant. -/
theorem counterInv_pop {s : SPState Node} {m : Entry Node} {q' : List (Entry Node)}
    (hinv : CounterInv s) (hpop : popMin s.q = some (m, q')) :
    ∀ visited', CounterInv { s with q := q', visited := visited' } := by
  intro visited'
  have hperm := popMin_perm hpop
  have hcperm : (qCounters s.q).Perm (qCounters (m :: q')) := hperm.map _
  constructor
  · exact ((hcperm.nodup_iff).mp hinv.1).of_cons
  · intro e he
    exact hinv.2 e (hperm.mem_iff.mpr (List.mem_cons_of_mem m he))

/-- A push of a fresh counter onto a frontier keeps counters distinct
and bounded. -/
theorem counterInv_push {s : SPState Node} (hinv : CounterInv s) (p : ℚ) (n : Node)
    {dists' : Node → Option ℚ} {parent' : Node → Option Node} :
    CounterInv (SPState.mk dists' parent' s.visited (s.counter + 1)
      (s.q ++ [(p, s.counter + 1, n)])) := by
  constructor
  · simp only [qCounters, List.map_append, List.map_cons, List.map_nil]
    rw [List.nodup_append]
    refine ⟨hinv.1, List.nodup_singleton _, ?_⟩
    intro c hc hc2
    simp only [List.mem_singleton] at hc2
    subst hc2
    obtain ⟨x, hx, hxc⟩ := List.mem_map.mp hc
    have := hinv.2 x hx
    omega
  · intro x hx
    rcases List.mem_append.mp hx with hx | hx
    · exact le_trans (hinv.2 x hx) (Nat.le_succ _)
    · simp only [List.mem_singleton] at hx
      subst hx
      exact le_refl _

/-- A single Dijkstra relaxation preserves the counter invariant. -/
theorem counterInv_relaxD {s : SPState Node} (curr : Node) (e : Node × ℚ)
    (hinv : CounterInv s) : CounterInv (relaxD curr s e) := by
  unfold relaxD
  cases s.dists curr with
  | none => exact hinv
  | some dc =>
    simp only
    by_cases hlt : ltInf (dc + e.2) (s.dists e.1) = true
    · simp only [hlt, if_true]
      exact counterInv_push hinv _ _
    · simp only [hlt, Bool.false_eq_true, if_false]
      exact hinv

/-- A single A* relaxation preserves the counter invariant. -/
theorem counterInv_relaxA {s : SPState Node} (h : Node → ℚ) (curr : Node)
    (e : Node × ℚ) (hinv : CounterInv s) : CounterInv (relaxA h curr s e) := by
  unfold relaxA
  cases s.dists curr with
  | none => exact hinv
  | some dc =>
    simp only
    by_cases hlt : ltInf (dc + e.2) (s.dists e.1) = true
    · simp only [hlt, if_true]
      exact counterInv_push hinv _ _
    · simp only [hlt, Bool.false_eq_true, if_false]
      exact hinv

/-- The whole relaxation pass of either algorithm preserves the counter
invariant. -/
theorem counterInv_foldl_relaxD {s : SPState Node} (curr : Node)
    (l : List (Node × ℚ)) (hinv : CounterInv s) :
    CounterInv (l.foldl (relaxD curr) s) := by
  induction l generalizing s with
  | nil => exact hinv
  | cons e l ih => exact ih (counterInv_relaxD curr e hinv)

/-- The A* relaxation pass preserves the counter invariant. -/
theorem counterInv_foldl_relaxA {s : SPState Node} (h : Node → ℚ) (curr : Node)
    (l : List (Node × ℚ)) (hinv : CounterInv s) :
    CounterInv (l.foldl (relaxA h curr) s) := by
  induction l generalizing s with
  | nil => exact hinv
  | cons e l ih => exact ih (counterInv_relaxA h curr e hinv)

/-- C3: in `dijkstra`, `dijkstra_all_paths`, and `a_star` the frontier
counters are pairwise distinct (each push uses a fresh sequence number)
throughout every run, and extraction breaks priority ties by insertion
order, never by comparing nodes.  Concretely: (1) both initial states
satisfy the counter invariant; (2) popping preserves it (this covers
the stale-skip and the visit transition); (3) the Dijkstra relaxation
pass (shared with `dijkstra_all_paths`) preserves it; (4) the A*
relaxation pass preserves it; (5) among entries of equal priority the
extracted entry carries a strictly smaller sequence number than every
other such entry, i.e. the first-inserted wins; and (6) extraction
commutes with arbitrary relabelling of the node component, so node
values are never consulted. -/
theorem frontier_tie_break_fifo (source : Node) (h : Node → ℚ) :
    (CounterInv (dijkstraInit source) ∧ CounterInv (aStarInit source h)) ∧
    (∀ (s : SPState Node) (m : Entry Node) (q' : List (Entry Node)),
      CounterInv s → popMin s.q = some (m, q') →
      ∀ visited', CounterInv { s with q := q', visited := visited' }) ∧
    (∀ (s : SPState Node) (curr : Node) (l : List (Node × ℚ)),
      CounterInv s → CounterInv (l.foldl (relaxD curr) s)) ∧
    (∀ (s : SPState Node) (curr : Node) (l : List (Node × ℚ)),
      CounterInv s → CounterInv (l.foldl (relaxA h curr) s)) ∧
    (∀ (s : SPState Node) (m : Entry Node) (q' : List (Entry Node)),
      CounterInv s → popMin s.q = some (m, q') →
      ∀ e ∈ s.q, e.1 = m.1 → e ≠ m → m.2.1 < e.2.1) ∧
    (∀ (Node' : Type) (f : Node → Node') (l : List (Entry Node)),
      popMin (l.map (emap f)) =
        (popMin l).map (fun p => (emap f p.1, p.2.map (emap f)))) := by
  refine ⟨⟨⟨by simp [dijkstraInit, qCounters], by simp [dijkstraInit]⟩,
    ⟨by simp [aStarInit, qCounters], by simp [aStarInit]⟩⟩,
    fun s m q' hinv hpop visited' => counterInv_pop hinv hpop visited',
    fun s curr l hinv => counterInv_foldl_relaxD curr l hinv,
    fun s curr l hinv => counterInv_foldl_relaxA h curr l hinv,
    ?_,
    fun Node' f l => popMin_map_node f l⟩
  intro s m q' hinv hpop e he hpri hne
  have hm : m ∈ s.q := (popMin_perm hpop).mem_iff.mpr (List.mem_cons_self _ _)
  have hle := popMin_le hpop e he
  have hle2 : m.2.1 ≤ e.2.1 := by
    rcases hle with hlt | ⟨_, hc⟩
    · rw [hpri] at hlt
      exact absurd hlt (lt_irrefl _)
    · exact hc
  have hcne : m.2.1 ≠ e.2.1 := by
    intro hc
    exact hne (List.inj_on_of_nodup_map hinv.1 he hm (by simp [hc]))
  exact lt_of_le_of_ne hle2 (fun hc => hcne hc)

/-- Witness for the tie-break theorem on a concrete two-entry frontier
with equal priorities: the earlier-pushed entry (counter 1) is
extracted before the later one (counter 2). -/
theorem frontier_tie_break_fifo_witness :
    CounterInv (SPState.mk (fun _ => (none : Option ℚ))
      (fun _ => (none : Option ℕ)) ([] : List ℕ) 5 [(1, 2, 7), (1, 1, 8)]) ∧
    popMin [((1 : ℚ), 2, (7 : ℕ)), (1, 1, 8)] = some ((1, 1, 8), [(1, 2, 7)]) ∧
    ((1 : ℚ), (1 : ℕ), (8 : ℕ)).2.1 < ((1 : ℚ), (2 : ℕ), (7 : ℕ)).2.1 := by
  refine ⟨⟨by decide, by decide⟩, by decide, ?_⟩
  exact (frontier_tie_break_fifo (0 : ℕ) (fun _ => 0)).2.2.2.2.1
    (SPState.mk (fun _ => none) (fun _ => none) [] 5 [(1, 2, 7), (1, 1, 8)])
    (1, 1, 8) [(1, 2, 7)] ⟨by decide, by decide⟩ (by decide)
    (1, 2, 7) (by decide) (by decide) (by decide)

/-! ## Claim C4: callback timing and uniqueness -/

/-- A Dijkstra relaxation never changes the visited set. -/
theorem relaxD_visited (curr : Node) (s : SPState Node) (e : Node × ℚ) :
    (relaxD curr s e).visited = s.visited := by
  unfold relaxD
  cases s.dists curr with
  | none => rfl
  | some dc =>
    simp only
    by_cases hlt : ltInf (dc + e.2) (s.dists e.1) = true
    · simp only [hlt, if_true]
    · simp only [hlt, Bool.false_eq_true, if_false]

/-- An A* relaxation never changes the visited set. -/
theorem relaxA_visited (h : Node → ℚ) (curr : Node) (s : SPState Node)
    (e : Node × ℚ) : (relaxA h curr s e).visited = s.visited := by
  unfold relaxA
  cases s.dists curr with
  | none => rfl
  | some dc =>
    simp only
    by_cases hlt : ltInf (dc + e.2) (s.dists e.1) = true
    · simp only [hlt, if_true]
    · simp only [hlt, Bool.false_eq_true, if_false]

/-- The whole Dijkstra relaxation pass keeps the visited set. -/
theorem foldl_relaxD_visited (curr : Node) (s : SPState Node)
    (l : List (Node × ℚ)) : (l.foldl (relaxD curr) s).visited = s.visited := by
  induction l generalizing s with
  | nil => rfl
  | cons e l ih => rw [List.foldl_cons, ih, relaxD_visited]

/-- The whole A* relaxation pass keeps the visited set. -/
theorem foldl_relaxA_visited (h : Node → ℚ) (curr : Node) (s : SPState Node)
    (l : List (Node × ℚ)) : (l.foldl (relaxA h curr) s).visited = s.visited := by
  induction l generalizing s with
  | nil => rfl
  | cons e l ih => rw [List.foldl_cons, ih, relaxA_visited]

/-- Parent links only ever point at visited nodes: preservation through
one Dijkstra relaxation of a neighbor of a visited node. -/
theorem relaxD_parent_visited {curr : Node} {s : SPState Node} (e : Node × ℚ)
    (hcurr : curr ∈ s.visited)
    (hpar : ∀ v u, s.parent v = some u → u ∈ s.visited) :
    ∀ v u, (relaxD curr s e).parent v = some u → u ∈ (relaxD curr s e).visited := by
  rw [relaxD_visited]
  unfold relaxD
  cases s.dists curr with
  | none => exact hpar
  | some dc =>
    simp only
    by_cases hlt : ltInf (dc + e.2) (s.dists e.1) = true
    · simp only [hlt, if_true]
      intro v u hvu
      unfold updf at hvu
      by_cases hv : v = e.1
      · rw [if_pos hv] at hvu
        cases hvu
        exact hcurr
      · rw [if_neg hv] at hvu
        exact hpar v u hvu
    · simp only [hlt, Bool.false_eq_true, if_false]
      exact hpar

/-- Parent links only ever point at visited nodes: preservation through
one A* relaxation of a neighbor of a visited node. -/
theorem relaxA_parent_visited (h : Node → ℚ) {curr : Node} {s : SPState Node}
    (e : Node × ℚ) (hcurr : curr ∈ s.visited)
    (hpar : ∀ v u, s.parent v = some u → u ∈ s.visited) :
    ∀ v u, (relaxA h curr s e).parent v = some u → u ∈ (relaxA h curr s e).visited := by
  rw [relaxA_visited]
  unfold relaxA
  cases s.dists curr with
  | none => exact hpar
  | some dc =>
    simp only
    by_cases hlt : ltInf (dc + e.2) (s.dists e.1) = true
    · simp only [hlt, if_true]
      intro v u hvu
      unfold updf at hvu
      by_cases hv : v = e.1
      · rw [if_pos hv] at hvu
        cases hvu
        exact hcurr
      · rw [if_neg hv] at hvu
        exact hpar v u hvu
    · simp only [hlt, Bool.false_eq_true, if_false]
      exact hpar

/-- Parent links point at visited nodes after a full Dijkstra
relaxation pass from a visited node. -/
theorem foldl_relaxD_parent_visited {curr : Node} {s : SPState Node}
    (l : List (Node × ℚ)) (hcurr : curr ∈ s.visited)
    (hpar : ∀ v u, s.parent v = some u → u ∈ s.visited) :
    ∀ v u, (l.foldl (relaxD curr) s).parent v = some u →
      u ∈ (l.foldl (relaxD curr) s).visited := by
  induction l generalizing s with
  | nil => exact hpar
  | cons e l ih =>
    rw [List.foldl_cons]
    exact ih (by rw [relaxD_visited]; exact hcurr)
      (relaxD_parent_visited e hcurr hpar)

/-- Parent links point at visited nodes after a full A* relaxation
pass from a visited node. -/
theorem foldl_relaxA_parent_visited (h : Node → ℚ) {curr : Node} {s : SPState Node}
    (l : List (Node × ℚ)) (hcurr : curr ∈ s.visited)
    (hpar : ∀ v u, s.parent v = some u → u ∈ s.visited) :
    ∀ v u, (l.foldl (relaxA h curr) s).parent v = some u →
      u ∈ (l.foldl (relaxA h curr) s).visited := by
  induction l generalizing s with
  | nil => exact hpar
  | cons e l ih =>
    rw [List.foldl_cons]
    exact ih (by rw [relaxA_visited]; exact hcurr)
      (relaxA_parent_visited h e hcurr hpar)

/-- Appending a fresh element keeps a list duplicate-free. -/
theorem nodup_append_singleton {α : Type} {l : List α} {a : α}
    (hnd : l.Nodup) (ha : a ∉ l) : (l ++ [a]).Nodup := by
  rw [List.nodup_append]
  exact ⟨hnd, List.nodup_singleton _, by
    intro x hx hxa
    simp only [List.mem_singleton] at hxa
    exact ha (hxa ▸ hx)⟩

/-- Trace contract of the Dijkstra loop: starting from any state whose
visited list is duplicate-free and whose parent links point into it,
(1) the visited prefix extended by the snapshot nodes stays
duplicate-free — so no node is snapshotted twice; (2) the visited set
recorded in the k-th snapshot is exactly the starting visited list
followed by the snapshot nodes up to and including the k-th — so each
snapshot happens just after its node is marked visited; and (3) at the
moment of each snapshot no parent link points at the snapshot's node —
so none of its neighbors have been relaxed yet. -/
theorem dijkstraLoop_trace (source : Node) (isGoal : Node → ℚ → Bool)
    (adjs : Node → List (Node × ℚ)) :
    ∀ (fuel : ℕ) (s : SPState Node), s.visited.Nodup →
      (∀ v u, s.parent v = some u → u ∈ s.visited) →
      (s.visited ++ ((dijkstraLoop source isGoal adjs fuel s).2.map Snapshot.curr)).Nodup ∧
      (∀ (k : ℕ) (e : Snapshot Node),
        (dijkstraLoop source isGoal adjs fuel s).2[k]? = some e →
        e.visited =
          s.visited ++
            (((dijkstraLoop source isGoal adjs fuel s).2.take (k + 1)).map Snapshot.curr)) ∧
      (∀ e ∈ (dijkstraLoop source isGoal adjs fuel s).2,
        ∀ v, e.parent v ≠ some e.curr) := by
  intro fuel
  induction fuel with
  | zero =>
    intro s hnd hpar
    refine ⟨by simpa [dijkstraLoop] using hnd, ?_, ?_⟩
    · intro k e he
      simp [dijkstraLoop] at he
    · intro e he
      simp [dijkstraLoop] at he
  | succ fuel ih =>
    intro s hnd hpar
    rw [dijkstraLoop]
    cases popMin s.q with
    | none =>
      refine ⟨by simpa using hnd, ?_, ?_⟩
      · intro k e he
        simp at he
      · intro e he
        simp at he
    | some p =>
      obtain ⟨m, q'⟩ := p
      simp only
      by_cases hv : m.2.2 ∈ s.visited
      · simp only [if_pos hv]
        exact ih { s with q := q' } hnd hpar
      · simp only [if_neg hv]
        cases hd : s.dists m.2.2 with
        | none =>
          refine ⟨?_, ?_, ?_⟩
          · simpa using nodup_append_singleton hnd hv
          · intro k e he
            cases k with
            | zero =>
              simp only [List.getElem?_cons_zero, Option.some.injEq] at he
              subst he
              simp
            | succ k =>
              simp only [List.getElem?_cons_succ, List.getElem?_nil] at he
              cases he
          · intro e he v
            simp only [List.mem_singleton] at he
            subst he
            intro hc
            exact hv (hpar v _ hc)
        | some dcurr =>
          by_cases hg : isGoal m.2.2 dcurr = true
          · simp only [hg, if_true]
            refine ⟨?_, ?_, ?_⟩
            · simpa using nodup_append_singleton hnd hv
            · intro k e he
              cases k with
              | zero =>
                simp only [List.getElem?_cons_zero, Option.some.injEq] at he
                subst he
                simp
              | succ k =>
                simp only [List.getElem?_cons_succ, List.getElem?_nil] at he
                cases he
            · intro e he v
              simp only [List.mem_singleton] at he
              subst he
              intro hc
              exact hv (hpar v _ hc)
          · simp only [hg, Bool.false_eq_true, if_false]
            have hcurr' : m.2.2 ∈ s.visited ++ [m.2.2] :=
              List.mem_append_right _ (List.mem_singleton_self _)
            have hpar0 : ∀ v u,
                (SPState.mk s.dists s.parent (s.visited ++ [m.2.2]) s.counter q').parent v
                  = some u →
                u ∈ (SPState.mk s.dists s.parent (s.visited ++ [m.2.2]) s.counter q').visited :=
              fun v u hvu => List.mem_append_left _ (hpar v u hvu)
            have hvis' := foldl_relaxD_visited m.2.2
              (SPState.mk s.dists s.parent (s.visited ++ [m.2.2]) s.counter q') (adjs m.2.2)
            have hnd' : ((adjs m.2.2).foldl (relaxD m.2.2)
                (SPState.mk s.dists s.parent (s.visited ++ [m.2.2]) s.counter q')).visited.Nodup := by
              rw [hvis']
              exact nodup_append_singleton hnd hv
            have hpar' := foldl_relaxD_parent_visited (adjs m.2.2) hcurr' hpar0
            obtain ⟨ihnd, ihget, ihpar⟩ := ih _ hnd' hpar'
            rw [hvis'] at ihnd ihget
            refine ⟨?_, ?_, ?_⟩
            · simpa only [List.map_cons, List.append_assoc, List.cons_append,
                List.nil_append] using ihnd
            · intro k e he
              cases k with
              | zero =>
                simp only [List.getElem?_cons_zero, Option.some.injEq] at he
                subst he
                simp only [List.take_succ_cons, List.take_zero, List.map_cons,
                  List.map_nil]
              | succ k =>
                simp only [List.getElem?_cons_succ] at he
                simp only [List.take_succ_cons, List.map_cons]
                rw [ihget k e he, List.append_assoc]
                rfl
            · intro e he v
              rcases List.mem_cons.mp he with rfl | he
              · intro hc
                exact hv (hpar v _ hc)
              · exact ihpar e he v

/-- Trace contract of the `dijkstra_all_paths` loop, as in
`dijkstraLoop_trace`. -/
theorem allPathsLoop_trace (adjs : Node → List (Node × ℚ)) :
    ∀ (fuel : ℕ) (s : SPState Node), s.visited.Nodup →
      (∀ v u, s.parent v = some u → u ∈ s.visited) →
      (s.visited ++ ((allPathsLoop adjs fuel s).2.map Snapshot.curr)).Nodup ∧
      (∀ (k : ℕ) (e : Snapshot Node),
        (allPathsLoop adjs fuel s).2[k]? = some e →
        e.visited =
          s.visited ++
            (((allPathsLoop adjs fuel s).2.take (k + 1)).map Snapshot.curr)) ∧
      (∀ e ∈ (allPathsLoop adjs fuel s).2,
        ∀ v, e.parent v ≠ some e.curr) := by
  intro fuel
  induction fuel with
  | zero =>
    intro s hnd hpar
    refine ⟨by simpa [allPathsLoop] using hnd, ?_, ?_⟩
    · intro k e he
      simp [allPathsLoop] at he
    · intro e he
      simp [allPathsLoop] at he
  | succ fuel ih =>
    intro s hnd hpar
    rw [allPathsLoop]
    cases popMin s.q with
    | none =>
      refine ⟨by simpa using hnd, ?_, ?_⟩
      · intro k e he
        simp at he
      · intro e he
        simp at he
    | some p =>
      obtain ⟨m, q'⟩ := p
      simp only
      by_cases hv : m.2.2 ∈ s.visited
      · simp only [if_pos hv]
        exact ih { s with q := q' } hnd hpar
      · simp only [if_neg hv]
        have hcurr' : m.2.2 ∈ s.visited ++ [m.2.2] :=
          List.mem_append_right _ (List.mem_singleton_self _)
        have hpar0 : ∀ v u,
            (SPState.mk s.dists s.parent (s.visited ++ [m.2.2]) s.counter q').parent v
              = some u →
            u ∈ (SPState.mk s.dists s.parent (s.visited ++ [m.2.2]) s.counter q').visited :=
          fun v u hvu => List.mem_append_left _ (hpar v u hvu)
        have hvis' := foldl_relaxD_visited m.2.2
          (SPState.mk s.dists s.parent (s.visited ++ [m.2.2]) s.counter q') (adjs m.2.2)
        have hnd' : ((adjs m.2.2).foldl (relaxD m.2.2)
            (SPState.mk s.dists s.parent (s.visited ++ [m.2.2]) s.counter q')).visited.Nodup := by
          rw [hvis']
          exact nodup_append_singleton hnd hv
        have hpar' := foldl_relaxD_parent_visited (adjs m.2.2) hcurr' hpar0
        obtain ⟨ihnd, ihget, ihpar⟩ := ih _ hnd' hpar'
        rw [hvis'] at ihnd ihget
        refine ⟨?_, ?_, ?_⟩
        · simpa only [List.map_cons, List.append_assoc, List.cons_append,
            List.nil_append] using ihnd
        · intro k e he
          cases k with
          | zero =>
            simp only [List.getElem?_cons_zero, Option.some.injEq] at he
            subst he
            simp only [List.take_succ_cons, List.take_zero, List.map_cons,
              List.map_nil]
          | succ k =>
            simp only [List.getElem?_cons_succ] at he
            simp only [List.take_succ_cons, List.map_cons]
            rw [ihget k e he, List.append_assoc]
            rfl
        · intro e he v
          rcases List.mem_cons.mp he with rfl | he
          · intro hc
            exact hv (hpar v _ hc)
          · exact ihpar e he v

/-- Trace contract of the A* loop, as in `dijkstraLoop_trace`. -/
theorem aStarLoop_trace (source : Node) (isGoal : Node → ℚ → Bool)
    (adjs : Node → List (Node × ℚ)) (h : Node → ℚ) :
    ∀ (fuel : ℕ) (s : SPState Node), s.visited.Nodup →
      (∀ v u, s.parent v = some u → u ∈ s.visited) →
      (s.visited ++ ((aStarLoop source isGoal adjs h fuel s).2.map Snapshot.curr)).Nodup ∧
      (∀ (k : ℕ) (e : Snapshot Node),
        (aStarLoop source isGoal adjs h fuel s).2[k]? = some e →
        e.visited =
          s.visited ++
            (((aStarLoop source isGoal adjs h fuel s).2.take (k + 1)).map Snapshot.curr)) ∧
      (∀ e ∈ (aStarLoop source isGoal adjs h fuel s).2,
        ∀ v, e.parent v ≠ some e.curr) := by
  intro fuel
  induction fuel with
  | zero =>
    intro s hnd hpar
    refine ⟨by simpa [aStarLoop] using hnd, ?_, ?_⟩
    · intro k e he
      simp [aStarLoop] at he
    · intro e he
      simp [aStarLoop] at he
  | succ fuel ih =>
    intro s hnd hpar
    rw [aStarLoop]
    cases popMin s.q with
    | none =>
      refine ⟨by simpa using hnd, ?_, ?_⟩
      · intro k e he
        simp at he
      · intro e he
        simp at he
    | some p =>
      obtain ⟨m, q'⟩ := p
      simp only
      by_cases hv : m.2.2 ∈ s.visited
      · simp only [if_pos hv]
        exact ih { s with q := q' } hnd hpar
      · simp only [if_neg hv]
        cases hd : s.dists m.2.2 with
        | none =>
          refine ⟨?_, ?_, ?_⟩
          · simpa using nodup_append_singleton hnd hv
          · intro k e he
            cases k with
            | zero =>
              simp only [List.getElem?_cons_zero, Option.some.injEq] at he
              subst he
              simp
            | succ k =>
              simp only [List.getElem?_cons_succ, List.getElem?_nil] at he
              cases he
          · intro e he v
            simp only [List.mem_singleton] at he
            subst he
            intro hc
            exact hv (hpar v _ hc)
        | some dcurr =>
          by_cases hg : isGoal m.2.2 dcurr = true
          · simp only [hg, if_true]
            refine ⟨?_, ?_, ?_⟩
            · simpa using nodup_append_singleton hnd hv
            · intro k e he
              cases k with
              | zero =>
                simp only [List.getElem?_cons_zero, Option.some.injEq] at he
                subst he
                simp
              | succ k =>
                simp only [List.getElem?_cons_succ, List.getElem?_nil] at he
                cases he
            · intro e he v
              simp only [List.mem_singleton] at he
              subst he
              intro hc
              exact hv (hpar v _ hc)
          · simp only [hg, Bool.false_eq_true, if_false]
            have hcurr' : m.2.2 ∈ s.visited ++ [m.2.2] :=
              List.mem_append_right _ (List.mem_singleton_self _)
            have hpar0 : ∀ v u,
                (SPState.mk s.dists s.parent (s.visited ++ [m.2.2]) s.counter q').parent v
                  = some u →
                u ∈ (SPState.mk s.dists s.parent (s.visited ++ [m.2.2]) s.counter q').visited :=
              fun v u hvu => List.mem_append_left _ (hpar v u hvu)
            have hvis' := foldl_relaxA_visited h m.2.2
              (SPState.mk s.dists s.parent (s.visited ++ [m.2.2]) s.counter q') (adjs m.2.2)
            have hnd' : ((adjs m.2.2).foldl (relaxA h m.2.2)
                (SPState.mk s.dists s.parent (s.visited ++ [m.2.2]) s.counter q')).visited.Nodup := by
              rw [hvis']
              exact nodup_append_singleton hnd hv
            have hpar' := foldl_relaxA_parent_visited h (adjs m.2.2) hcurr' hpar0
            obtain ⟨ihnd, ihget, ihpar⟩ := ih _ hnd' hpar'
            rw [hvis'] at ihnd ihget
            refine ⟨?_, ?_, ?_⟩
            · simpa only [List.map_cons, List.append_assoc, List.cons_append,
                List.nil_append] using ihnd
            · intro k e he
              cases k with
              | zero =>
                simp only [List.getElem?_cons_zero, Option.some.injEq] at he
                subst he
                simp only [List.take_succ_cons, List.take_zero, List.map_cons,
                  List.map_nil]
              | succ k =>
                simp only [List.getElem?_cons_succ] at he
                simp only [List.take_succ_cons, List.map_cons]
                rw [ihget k e he, List.append_assoc]
                rfl
            · intro e he v
              rcases List.mem_cons.mp he with rfl | he
              · intro hc
                exact hv (hpar v _ hc)
              · exact ihpar e he v

/-- The callback contract a snapshot trace satisfies: (1) no node is
snapshotted twice; (2) each snapshot's visited set is exactly the nodes
snapshotted so far, its own node last — so the callback runs once per
node marked visited, right after the marking; (3) each snapshot's node
is already in its visited set; (4) no parent link points at the
snapshot's node, i.e. none of its neighbors have been relaxed yet. -/
def TraceOK (tr : List (Snapshot Node)) : Prop :=
  (tr.map Snapshot.curr).Nodup ∧
  (∀ (k : ℕ) (e : Snapshot Node), tr[k]? = some e →
    e.visited = (tr.take (k + 1)).map Snapshot.curr) ∧
  (∀ e ∈ tr, e.curr ∈ e.visited) ∧
  (∀ e ∈ tr, ∀ v, e.parent v ≠ some e.curr)

/-- Conditions (1), (2) and (4) from a loop-trace contract imply the
full `TraceOK` package. -/
theorem traceOK_of_contract {tr : List (Snapshot Node)}
    (h1 : ([] ++ tr.map Snapshot.curr).Nodup)
    (h2 : ∀ (k : ℕ) (e : Snapshot Node), tr[k]? = some e →
      e.visited = [] ++ (tr.take (k + 1)).map Snapshot.curr)
    (h4 : ∀ e ∈ tr, ∀ v, e.parent v ≠ some e.curr) : TraceOK tr := by
  refine ⟨by simpa using h1, fun k e he => by simpa using h2 k e he, ?_, h4⟩
  intro e he
  obtain ⟨k, hk⟩ := List.getElem?_of_mem he
  have hvis := h2 k e hk
  have htk : (tr.take (k + 1))[k]? = some e := by
    rw [List.getElem?_take, if_pos (Nat.lt_succ_self k), hk]
  have : e ∈ tr.take (k + 1) := List.getElem?_mem htk
  rw [hvis]
  simpa using List.mem_map_of_mem Snapshot.curr this

/-- C4: in every run of `dijkstra`, `dijkstra_all_paths`, and `a_star`,
the `on_step` callback fires exactly once per node marked visited
(snapshot nodes are pairwise distinct and enumerate the visited set in
order), each snapshot is taken after its node has been added to the
visited set, and before any of the node's neighbors are relaxed (at
snapshot time no distance or predecessor update from that node has
happened: no parent link points at it yet). -/
theorem on_step_snapshot_contract (source : Node) (isGoal : Node → ℚ → Bool)
    (adjs : Node → List (Node × ℚ)) (h : Node → ℚ) (fuel : ℕ) :
    TraceOK ((dijkstra source isGoal adjs fuel).2) ∧
    TraceOK ((dijkstra_all_paths source adjs fuel).2) ∧
    TraceOK ((a_star source isGoal adjs h fuel).2) := by
  have hnd : (dijkstraInit source : SPState Node).visited.Nodup := List.nodup_nil
  have hpar : ∀ v u, (dijkstraInit source : SPState Node).parent v = some u →
      u ∈ (dijkstraInit source : SPState Node).visited := by
    intro v u hvu
    simp [dijkstraInit] at hvu
  have hnd2 : (aStarInit source h : SPState Node).visited.Nodup := List.nodup_nil
  have hpar2 : ∀ v u, (aStarInit source h : SPState Node).parent v = some u →
      u ∈ (aStarInit source h : SPState Node).visited := by
    intro v u hvu
    simp [aStarInit] at hvu
  obtain ⟨d1, d2, d3⟩ := dijkstraLoop_trace source isGoal adjs fuel _ hnd hpar
  obtain ⟨p1, p2, p3⟩ := allPathsLoop_trace adjs fuel _ hnd hpar
  obtain ⟨a1, a2, a3⟩ := aStarLoop_trace source isGoal adjs h fuel _ hnd2 hpar2
  exact ⟨traceOK_of_contract d1 d2 d3, traceOK_of_contract p1 p2 p3,
    traceOK_of_contract a1 a2 a3⟩

/-- Witness: a concrete two-node run of `dijkstra` produces the
snapshot nodes `[0, 1]`, and the contract theorem applies to it. -/
theorem on_step_snapshot_contract_witness :
    ((dijkstra (0 : ℕ) (fun _ _ => false)
        (fun n => if n = 0 then [((1 : ℕ), (1 : ℚ))] else []) 5).2.map
          Snapshot.curr) = [0, 1] ∧
    ((dijkstra (0 : ℕ) (fun _ _ => false)
        (fun n => if n = 0 then [((1 : ℕ), (1 : ℚ))] else []) 5).2.map
          Snapshot.curr).Nodup :=
  ⟨by rfl,
   (on_step_snapshot_contract (0 : ℕ) (fun _ _ => false)
      (fun n => if n = 0 then [((1 : ℕ), (1 : ℚ))] else []) (fun _ => 0) 5).1.1⟩

/-! ## Topological sort (`topological.py`) -/

/-- A point increment or decrement on a `defaultdict(int)`: missing
keys read as `0`. -/
def bump (f : Node → ℤ) (x : Node) (d : ℤ) : Node → ℤ :=
  fun y => if y = x then f y + d else f y

/-- The in-degree computation at the top of `kahn`: for each node, for
each of its adjacencies, `in_degree[adj] += 1`. -/
def computeInDegree (nodes : List Node) (adjs : Node → List Node) : Node → ℤ :=
  nodes.foldl (fun f n => (adjs n).foldl (fun g a => bump g a 1) f) (fun _ => 0)

/-- The body of the inner `for adj in adjs(node)` loop of `kahn`:
decrement the in-degree and enqueue the neighbor if it reached zero. -/
def kahnStep (st : (Node → ℤ) × List Node) (a : Node) : (Node → ℤ) × List Node :=
  let f := bump st.1 a (-1)
  if f a = 0 then (f, st.2 ++ [a]) else (f, st.2)

/-- The `while q` loop of `kahn`: pop from the left, append to the
order, then run the decrement pass.  Fuel models the unbounded loop. -/
def kahnLoop (adjs : Node → List Node) :
    ℕ → (Node → ℤ) → List Node → List Node → Option (List Node)
  | fuel, indeg, q, order =>
    match q with
    | [] => some order
    | node :: q' =>
      match fuel with
      | 0 => none
      | fuel + 1 =>
        let order' := order ++ [node]
        let st := (adjs node).foldl kahnStep (indeg, q')
        kahnLoop adjs fuel st.1 st.2 order'

/-- The function `kahn(nodes, adjs, on_step)`: compute in-degrees, seed
the queue with the zero-in-degree nodes in input order, and run the
loop. -/
def kahn (nodes : List Node) (adjs : Node → List Node) (fuel : ℕ) :
    Option (List Node) :=
  let indeg := computeInDegree nodes adjs
  kahnLoop adjs fuel indeg (nodes.filter (fun n => indeg n = 0)) []

/-- The edge relation presented to `kahn`: `u → v` when `u` is an input
node and `v` one of its adjacencies. -/
def kahnEdge (nodes : List Node) (adjs : Node → List Node) (u v : Node) : Prop :=
  u ∈ nodes ∧ v ∈ adjs u

/-- The number of input edges into `v` from nodes outside `order`,
i.e. the in-degree still pending once the nodes of `order` have been
processed. -/
def pendingInDegree (nodes : List Node) (adjs : Node → List Node)
    (order : List Node) (v : Node) : ℤ :=
  (((nodes.filter (fun u => decide (u ∉ order))).map
    (fun u => ((adjs u).count v : ℤ))).sum)

/-- The loop invariant of `kahn`: placed nodes (`order ++ q`) are
distinct input nodes; the in-degree map counts exactly the edges from
unprocessed input nodes; a node is placed exactly when all its
in-neighbors are processed; and no processed node has an edge to an
earlier processed node. -/
def KahnInv (nodes : List Node) (adjs : Node → List Node)
    (indeg : Node → ℤ) (q order : List Node) : Prop :=
  (order ++ q).Nodup ∧
  (∀ v ∈ order ++ q, v ∈ nodes) ∧
  (∀ v, indeg v = pendingInDegree nodes adjs order v) ∧
  (∀ v ∈ nodes, (v ∈ order ++ q ↔ ∀ u ∈ nodes, v ∈ adjs u → u ∈ order)) ∧
  order.Pairwise (fun x y => x ∉ adjs y) ∧
  (∀ v ∈ order, v ∉ adjs v)

/-- Repeated increments add the occurrence count. -/
theorem foldl_bump_one (l : List Node) (g : Node → ℤ) (v : Node) :
    (l.foldl (fun g a => bump g a 1) g) v = g v + l.count v := by
  induction l generalizing g with
  | nil => simp
  | cons a l ih =>
    rw [List.foldl_cons, ih]
    by_cases hv : v = a
    · subst hv
      simp [bump, List.count_cons]
      ring
    · have : (a == v) = false := by simpa using fun hc => hv hc.symm
      simp [bump, List.count_cons, this, if_neg hv]

/-- The computed in-degree of `v` is the number of input edges into
`v`. -/
theorem computeInDegree_sum (nodes : List Node) (adjs : Node → List Node)
    (v : Node) :
    computeInDegree nodes adjs v =
      ((nodes.map (fun u => ((adjs u).count v : ℤ))).sum) := by
  unfold computeInDegree
  induction nodes using List.reverseRecOn with
  | nil => simp
  | append_singleton ns n ih =>
    rw [List.foldl_append, List.foldl_cons, List.foldl_nil, foldl_bump_one, ih]
    simp

/-- The computed in-degree map agrees with the pending in-degree for an
empty processed list. -/
theorem computeInDegree_spec (nodes : List Node) (adjs : Node → List Node)
    (v : Node) :
    computeInDegree nodes adjs v = pendingInDegree nodes adjs [] v := by
  rw [computeInDegree_sum]
  unfold pendingInDegree
  have hfilter : nodes.filter (fun u => decide (u ∉ ([] : List Node))) = nodes := by
    simp
  rw [hfilter]

/-- Splitting one unprocessed node out of a pending-edge sum. -/
theorem filter_sum_split (g : Node → ℤ) (nodes : List Node) (hnd : nodes.Nodup)
    (order : List Node) (node : Node) (hmem : node ∈ nodes) (hnot : node ∉ order) :
    ((nodes.filter (fun u => decide (u ∉ order))).map g).sum =
      ((nodes.filter (fun u => decide (u ∉ (order ++ [node])))).map g).sum + g node := by
  induction nodes with
  | nil => cases hmem
  | cons a ns ih =>
    rcases List.mem_cons.mp hmem with rfl | hmem2
    · have hna : node ∉ ns := (List.nodup_cons.mp hnd).1
      have hcong : ns.filter (fun u => decide (u ∉ (order ++ [node]))) =
          ns.filter (fun u => decide (u ∉ order)) := by
        apply List.filter_congr
        intro u hu
        have hua : u ≠ node := fun hc => hna (hc ▸ hu)
        simp [hua]
      simp only [List.filter_cons, hcong]
      have h1 : (decide (node ∉ order)) = true := by simpa using hnot
      have h2 : (decide (node ∉ (order ++ [node]))) = false := by simp
      rw [h1, h2]
      simp only [if_true, Bool.false_eq_true, if_false, List.map_cons, List.sum_cons]
      ring
    · have hnd2 : ns.Nodup := (List.nodup_cons.mp hnd).2
      rw [List.filter_cons, List.filter_cons]
      by_cases ha : a ∈ order
      · have h1 : (decide (a ∉ order)) = false := by simpa using ha
        have h2 : (decide (a ∉ (order ++ [node]))) = false := by
          simp [List.mem_append, ha]
        rw [h1, h2]
        simp only [Bool.false_eq_true, if_false]
        exact ih hnd2 hmem2
      · by_cases han : a = node
        · subst han
          exact absurd hmem2 (List.nodup_cons.mp hnd).1
        · have h1 : (decide (a ∉ order)) = true := by simpa using ha
          have h2 : (decide (a ∉ (order ++ [node]))) = true := by
            simp [List.mem_append, ha, han]
          rw [h1, h2]
          simp only [if_true, List.map_cons, List.sum_cons]
          rw [ih hnd2 hmem2]
          ring

/-- Characterization of the decrement pass of `kahn`: every occurrence
in the adjacency list decrements once, and exactly the nodes whose
count reaches zero mid-pass (those with `1 ≤ f v ≤ occurrences`) are
appended to the queue, each at most once. -/
theorem kahnFold (l : List Node) (f : Node → ℤ) (qq : List Node) :
    (∀ v, ((l.foldl kahnStep (f, qq)).1) v = f v - l.count v) ∧
    ∃ newl : List Node, (l.foldl kahnStep (f, qq)).2 = qq ++ newl ∧ newl.Nodup ∧
      (∀ v, v ∈ newl ↔ 1 ≤ f v ∧ f v ≤ l.count v) := by
  induction l generalizing f qq with
  | nil =>
    refine ⟨fun v => by simp, [], by simp, List.nodup_nil, fun v => ?_⟩
    simp only [List.not_mem_nil, List.count_nil, Nat.cast_zero, false_iff]
    omega
  | cons a l ih =>
    have hba : bump f a (-1) a = f a - 1 := by
      unfold bump
      rw [if_pos rfl]
      omega
    have hbv : ∀ v, v ≠ a → bump f a (-1) v = f v := by
      intro v hv
      unfold bump
      rw [if_neg hv]
    have hca : ((a :: l).count a : ℤ) = (l.count a : ℤ) + 1 := by
      have hvv : (a == a) = true := by simp
      simp [List.count_cons, hvv]
    have hcv : ∀ v, v ≠ a → ((a :: l).count v : ℤ) = (l.count v : ℤ) := by
      intro v hv
      have hw : (a == v) = false := by
        simp only [beq_eq_false_iff_ne, ne_eq]
        exact fun hc => hv hc.symm
      simp [List.count_cons, hw]
    rw [List.foldl_cons]
    have hstep : kahnStep (f, qq) a =
        (bump f a (-1), if f a - 1 = 0 then qq ++ [a] else qq) := by
      unfold kahnStep
      simp only [hba]
      by_cases hz : f a - 1 = 0
      · rw [if_pos hz, if_pos hz]
      · rw [if_neg hz, if_neg hz]
    rw [hstep]
    obtain ⟨ih1, newl, ihq, ihnd, ihmem⟩ :=
      ih (bump f a (-1)) (if f a - 1 = 0 then qq ++ [a] else qq)
    constructor
    · intro v
      rw [ih1 v]
      by_cases hv : v = a
      · subst hv
        rw [hba, hca]
        ring
      · rw [hbv v hv, hcv v hv]
    · by_cases hz : f a - 1 = 0
      · rw [if_pos hz] at ihq ⊢
        refine ⟨a :: newl, by rw [ihq, List.append_assoc]; rfl, ?_, ?_⟩
        · rw [List.nodup_cons]
          refine ⟨fun hc => ?_, ihnd⟩
          have hm := (ihmem a).mp hc
          rw [hba] at hm
          omega
        · intro v
          by_cases hv : v = a
          · subst hv
            rw [hca]
            simp only [List.mem_cons, true_or, true_iff]
            have hcnt : (0 : ℤ) ≤ (l.count v : ℤ) := Int.natCast_nonneg _
            omega
          · rw [List.mem_cons, ihmem v, hbv v hv, hcv v hv]
            simp [hv]
      · rw [if_neg hz] at ihq ⊢
        refine ⟨newl, ihq, ihnd, ?_⟩
        intro v
        rw [ihmem v]
        by_cases hv : v = a
        · subst hv
          rw [hba, hca]
          omega
        · rw [hbv v hv, hcv v hv]

/-- Processing the head of the queue preserves the Kahn loop
invariant. -/
theorem kahnInv_step (nodes : List Node) (adjs : Node → List Node)
    (hnd : nodes.Nodup) (hclosed : ∀ u ∈ nodes, ∀ a ∈ adjs u, a ∈ nodes)
    {indeg : Node → ℤ} {node : Node} {q' order : List Node}
    (hinv : KahnInv nodes adjs indeg (node :: q') order) :
    KahnInv nodes adjs ((adjs node).foldl kahnStep (indeg, q')).1
      ((adjs node).foldl kahnStep (indeg, q')).2 (order ++ [node]) := by
  obtain ⟨hnodup, hmem, hdeg, hplace, hpair, hself⟩ := hinv
  have hnode_nodes : node ∈ nodes :=
    hmem node (List.mem_append_right _ (List.mem_cons_self _ _))
  have hnode_order : node ∉ order := by
    intro hc
    exact (List.nodup_append.mp hnodup).2.2 hc (List.mem_cons_self _ _)
  have placedZero : ∀ v, v ∈ order ++ node :: q' → indeg v = 0 := by
    intro v hv
    rw [hdeg v]
    apply List.sum_eq_zero
    intro x hx
    obtain ⟨u, hu, rfl⟩ := List.mem_map.mp hx
    obtain ⟨hun, huo⟩ := List.mem_filter.mp hu
    by_contra hne
    have hcnt : 0 < (adjs u).count v := by
      by_contra hc
      exact hne (by simp [Nat.eq_zero_of_not_pos hc])
    have hsrc : v ∈ adjs u := List.count_pos_iff.mp hcnt
    have := (hplace v (hmem v hv)).mp hv u hun hsrc
    simp only [decide_eq_true_eq] at huo
    exact huo this
  obtain ⟨hf1, newl, hq2, hnewnd, hnewmem⟩ := kahnFold (adjs node) indeg q'
  have hsplit : ∀ v, pendingInDegree nodes adjs order v =
      pendingInDegree nodes adjs (order ++ [node]) v + ((adjs node).count v : ℤ) :=
    fun v => filter_sum_split (fun u => ((adjs u).count v : ℤ)) nodes hnd order node
      hnode_nodes hnode_order
  have hpend_nonneg : ∀ ord v, 0 ≤ pendingInDegree nodes adjs ord v := by
    intro ord v
    apply List.sum_nonneg
    intro x hx
    obtain ⟨u, hu, rfl⟩ := List.mem_map.mp hx
    exact Int.natCast_nonneg _
  have hdeg' : ∀ v, ((adjs node).foldl kahnStep (indeg, q')).1 v =
      pendingInDegree nodes adjs (order ++ [node]) v := by
    intro v
    rw [hf1 v, hdeg v, hsplit v]
    ring
  have hnew_unplaced : ∀ v ∈ newl, v ∉ order ++ node :: q' := by
    intro v hv hc
    have h1 := (hnewmem v).mp hv
    have h0 := placedZero v hc
    omega
  have hnew_nodes : ∀ v ∈ newl, v ∈ nodes := by
    intro v hv
    have h1 := (hnewmem v).mp hv
    have hcnt : 0 < (adjs node).count v := by
      have := h1.2
      have := h1.1
      omega
    exact hclosed node hnode_nodes v (List.count_pos_iff.mp (by exact_mod_cast hcnt))
  rw [hq2]
  refine ⟨?_, ?_, ?_, ?_, ?_, ?_⟩
  · have hassoc : (order ++ [node]) ++ (q' ++ newl) =
        ((order ++ [node]) ++ q') ++ newl := by
      simp [List.append_assoc]
    rw [hassoc]
    rw [List.nodup_append]
    refine ⟨?_, hnewnd, ?_⟩
    · have : (order ++ [node]) ++ q' = order ++ node :: q' := by
        rw [List.append_assoc]
        rfl
      rw [this]
      exact hnodup
    · intro v hv hvn
      have : (order ++ [node]) ++ q' = order ++ node :: q' := by
        rw [List.append_assoc]
        rfl
      rw [this] at hv
      exact hnew_unplaced v hvn hv
  · intro v hv
    rcases List.mem_append.mp hv with hv | hv
    · rcases List.mem_append.mp hv with hv | hv
      · exact hmem v (List.mem_append_left _ hv)
      · simp only [List.mem_singleton] at hv
        exact hv ▸ hnode_nodes
    · rcases List.mem_append.mp hv with hv | hv
      · exact hmem v (List.mem_append_right _ (List.mem_cons_of_mem _ hv))
      · exact hnew_nodes v hv
  · exact hdeg'
  · intro v hvnodes
    constructor
    · intro hv u hu hsrc
      rcases List.mem_append.mp hv with hv | hv
      · have hvold : v ∈ order ++ node :: q' := by
          rcases List.mem_append.mp hv with hv | hv
          · exact List.mem_append_left _ hv
          · simp only [List.mem_singleton] at hv
            exact hv ▸ List.mem_append_right _ (List.mem_cons_self _ _)
        have := (hplace v hvnodes).mp hvold u hu hsrc
        exact List.mem_append_left _ this
      · rcases List.mem_append.mp hv with hv | hv
        · have hvold : v ∈ order ++ node :: q' :=
            List.mem_append_right _ (List.mem_cons_of_mem _ hv)
          have := (hplace v hvnodes).mp hvold u hu hsrc
          exact List.mem_append_left _ this
        · by_contra hc
          simp only [List.mem_append, List.mem_singleton, not_or] at hc
          have h1 := (hnewmem v).mp hv
          have hterm : ((adjs u).count v : ℤ) ≤
              pendingInDegree nodes adjs (order ++ [node]) v := by
            apply List.single_le_sum
            · intro x hx
              obtain ⟨w, hw, rfl⟩ := List.mem_map.mp hx
              exact Int.natCast_nonneg _
            · apply List.mem_map_of_mem
              apply List.mem_filter.mpr
              refine ⟨hu, ?_⟩
              simp only [decide_eq_true_eq, List.mem_append, List.mem_singleton]
              exact fun hor => hor.elim hc.1 hc.2
          have hcnt : 0 < (adjs u).count v := List.count_pos_iff.mpr hsrc
          have hpend := hdeg' v
          rw [hf1 v, hdeg v, hsplit v] at hpend
          have h2 := h1.2
          have h3 := h1.1
          have := hsplit v
          rw [hdeg v] at h2 h3
          omega
    · intro hall
      by_cases hallord : ∀ u ∈ nodes, v ∈ adjs u → u ∈ order
      · have hvold := (hplace v hvnodes).mpr hallord
        rcases List.mem_append.mp hvold with hv | hv
        · exact List.mem_append_left _ (List.mem_append_left _ hv)
        · rcases List.mem_cons.mp hv with rfl | hv
          · exact List.mem_append_left _ (List.mem_append_right _
              (List.mem_singleton_self _))
          · exact List.mem_append_right _ (List.mem_append_left _ hv)
      · push_neg at hallord
        obtain ⟨u, hu, hsrc, huord⟩ := hallord
        have hunode : u = node := by
          have := hall u hu hsrc
          rcases List.mem_append.mp this with hv2 | hv2
          · exact absurd hv2 huord
          · simpa using hv2
        subst hunode
        have hsrccnt : 0 < (adjs u).count v := List.count_pos_iff.mpr hsrc
        have hpend0 : pendingInDegree nodes adjs (order ++ [u]) v = 0 := by
          apply List.sum_eq_zero
          intro x hx
          obtain ⟨w, hw, rfl⟩ := List.mem_map.mp hx
          obtain ⟨hwn, hwo⟩ := List.mem_filter.mp hw
          simp only [decide_eq_true_eq, List.mem_append, List.mem_singleton,
            not_or] at hwo
          by_contra hne
          have hcnt : 0 < (adjs w).count v := by
            by_contra hc
            exact hne (by simp [Nat.eq_zero_of_not_pos hc])
          have hsrcw : v ∈ adjs w := List.count_pos_iff.mp hcnt
          have := hall w hwn hsrcw
          rcases List.mem_append.mp this with hv2 | hv2
          · exact hwo.1 hv2
          · exact hwo.2 (by simpa using hv2)
        have hdegv : indeg v = ((adjs u).count v : ℤ) := by
          rw [hdeg v, hsplit v, hpend0]
          ring
        apply List.mem_append_right
        apply List.mem_append_right
        apply (hnewmem v).mpr
        constructor
        · omega
        · omega
  · rw [List.pairwise_append]
    refine ⟨hpair, List.pairwise_singleton _ _, ?_⟩
    intro x hx y hy
    simp only [List.mem_singleton] at hy
    intro hc
    rw [hy] at hc
    have hxnodes : x ∈ nodes := hmem x (List.mem_append_left _ hx)
    have hxplaced : x ∈ order ++ node :: q' := List.mem_append_left _ hx
    have hfin := (hplace x hxnodes).mp hxplaced node hnode_nodes hc
    exact hnode_order hfin
  · intro v hv
    rcases List.mem_append.mp hv with hv | hv
    · exact hself v hv
    · simp only [List.mem_singleton] at hv
      subst hv
      intro hc
      have hvplaced : v ∈ order ++ v :: q' :=
        List.mem_append_right _ (List.mem_cons_self _ _)
      have hfin := (hplace v hnode_nodes).mp hvplaced v hnode_nodes hc
      exact hnode_order hfin

/-- The initial state of `kahn` satisfies the loop invariant. -/
theorem kahnInv_init (nodes : List Node) (adjs : Node → List Node)
    (hnd : nodes.Nodup) :
    KahnInv nodes adjs (computeInDegree nodes adjs)
      (nodes.filter (fun n => decide (computeInDegree nodes adjs n = 0))) [] := by
  refine ⟨by simpa using hnd.filter _, ?_, ?_, ?_, List.Pairwise.nil,
    fun v hv => absurd hv (List.not_mem_nil v)⟩
  · intro v hv
    simp only [List.nil_append] at hv
    exact (List.mem_filter.mp hv).1
  · intro v
    exact computeInDegree_spec nodes adjs v
  · intro v hvnodes
    simp only [List.nil_append, List.mem_filter, decide_eq_true_eq]
    constructor
    · intro ⟨_, hzero⟩ u hu hsrc
      exfalso
      rw [computeInDegree_spec] at hzero
      have hterm : ((adjs u).count v : ℤ) ≤ pendingInDegree nodes adjs [] v := by
        apply List.single_le_sum
        · intro x hx
          obtain ⟨w, hw, rfl⟩ := List.mem_map.mp hx
          exact Int.natCast_nonneg _
        · apply List.mem_map_of_mem
          apply List.mem_filter.mpr
          exact ⟨hu, by simp⟩
      have hcnt : 0 < (adjs u).count v := List.count_pos_iff.mpr hsrc
      omega
    · intro hall
      refine ⟨hvnodes, ?_⟩
      rw [computeInDegree_spec]
      apply List.sum_eq_zero
      intro x hx
      obtain ⟨w, hw, rfl⟩ := List.mem_map.mp hx
      obtain ⟨hwn, _⟩ := List.mem_filter.mp hw
      by_contra hne
      have hcnt : 0 < (adjs w).count v := by
        by_contra hc
        exact hne (by simp [Nat.eq_zero_of_not_pos hc])
      exact absurd (hall w hwn (List.count_pos_iff.mp hcnt)) (List.not_mem_nil w)

/-- Distinct placed nodes are no more numerous than the input nodes. -/
theorem kahnInv_length_le {nodes : List Node} {adjs : Node → List Node}
    (hnd : nodes.Nodup) {indeg : Node → ℤ} {q order : List Node}
    (hinv : KahnInv nodes adjs indeg q order) :
    (order ++ q).length ≤ nodes.length := by
  have hsub : (order ++ q).toFinset ⊆ nodes.toFinset := by
    intro a ha
    rw [List.mem_toFinset] at ha ⊢
    exact hinv.2.1 a ha
  have h1 : (order ++ q).toFinset.card = (order ++ q).length :=
    List.toFinset_card_of_nodup hinv.1
  have h2 : nodes.toFinset.card = nodes.length := List.toFinset_card_of_nodup hnd
  have h3 := Finset.card_le_card hsub
  omega

/-- Given enough fuel, the `kahn` loop terminates and its final state
still satisfies the invariant (with an empty queue). -/
theorem kahnLoop_run (nodes : List Node) (adjs : Node → List Node)
    (hnd : nodes.Nodup) (hclosed : ∀ u ∈ nodes, ∀ a ∈ adjs u, a ∈ nodes) :
    ∀ (fuel : ℕ) (indeg : Node → ℤ) (q order : List Node),
      KahnInv nodes adjs indeg q order →
      nodes.length ≤ fuel + order.length →
      ∃ out indegF, kahnLoop adjs fuel indeg q order = some out ∧
        KahnInv nodes adjs indegF [] out := by
  intro fuel
  induction fuel with
  | zero =>
    intro indeg q order hinv hb
    cases q with
    | nil => exact ⟨order, indeg, rfl, hinv⟩
    | cons node q' =>
      exfalso
      have hlen := kahnInv_length_le hnd hinv
      simp only [List.length_append, List.length_cons] at hlen
      omega
  | succ fuel ih =>
    intro indeg q order hinv hb
    cases q with
    | nil => exact ⟨order, indeg, rfl, hinv⟩
    | cons node q' =>
      rw [kahnLoop]
      refine ih _ _ _ (kahnInv_step nodes adjs hnd hclosed hinv) ?_
      simp only [List.length_append, List.length_singleton]
      omega

/-- In a finite set in which every element has a predecessor inside the
set, some element lies on a cycle. -/
theorem exists_cycle_of_predecessors {α : Type} (r : α → α → Prop) (S : Finset α)
    (hne : S.Nonempty) (hpred : ∀ v ∈ S, ∃ u ∈ S, r u v) :
    ∃ c ∈ S, Relation.TransGen r c c := by
  classical
  obtain ⟨v0, hv0⟩ := hne
  choose pred hpredS hpredR using hpred
  let f : ℕ → {x : α // x ∈ S} := fun n =>
    Nat.rec ⟨v0, hv0⟩ (fun _ p => ⟨pred p.1 p.2, hpredS p.1 p.2⟩) n
  have hstep : ∀ n, r (f (n + 1)).1 (f n).1 := fun n => hpredR (f n).1 (f n).2
  have hchain : ∀ i j, i < j → Relation.TransGen r (f j).1 (f i).1 := by
    intro i j hij
    induction j with
    | zero => cases hij
    | succ j ihj =>
      rcases Nat.lt_succ_iff_lt_or_eq.mp hij with h | h
      · exact (ihj h).head (hstep j)
      · subst h
        exact Relation.TransGen.single (hstep _)
  have hmap : ∀ n ∈ Finset.range (S.card + 1), (f n).1 ∈ S := fun n _ => (f n).2
  have hcard : S.card < (Finset.range (S.card + 1)).card := by simp
  obtain ⟨i, hi, j, hj, hij, heq⟩ :=
    Finset.exists_ne_map_eq_of_card_lt_of_maps_to hcard hmap
  rcases lt_or_gt_of_ne hij with h | h
  · exact ⟨(f i).1, (f i).2, heq ▸ hchain i j h⟩
  · exact ⟨(f j).1, (f j).2, heq ▸ hchain j i h⟩

/-- In a final Kahn state, every ancestor of an output node is also an
output node. -/
theorem kahn_ancestors_processed {nodes : List Node} {adjs : Node → List Node}
    {indegF : Node → ℤ} {out : List Node}
    (hfin : KahnInv nodes adjs indegF [] out) :
    ∀ u v, Relation.ReflTransGen (kahnEdge nodes adjs) u v → v ∈ out → u ∈ out := by
  intro u v hpath
  induction hpath with
  | refl => exact id
  | tail hab hbc ih =>
    rename_i b c
    intro hc
    apply ih
    have hcnodes : c ∈ nodes := hfin.2.1 c (by simpa using hc)
    exact (hfin.2.2.2.1 c hcnodes).mp (by simpa using hc) b hbc.1 hbc.2

/-- In a final Kahn state each edge whose target was output points
from an earlier output position to a later one. -/
theorem kahn_edge_index {nodes : List Node} {adjs : Node → List Node}
    {indegF : Node → ℤ} {out : List Node}
    (hfin : KahnInv nodes adjs indegF [] out) :
    ∀ u v, kahnEdge nodes adjs u v → v ∈ out →
      u ∈ out ∧ out.indexOf u < out.indexOf v := by
  intro u v he hv
  have hout_nodup : out.Nodup := by simpa using hfin.1
  have hvnodes : v ∈ nodes := hfin.2.1 v (by simpa using hv)
  have hu : u ∈ out := (hfin.2.2.2.1 v hvnodes).mp (by simpa using hv) u he.1 he.2
  refine ⟨hu, ?_⟩
  have hne : u ≠ v := by
    intro hc
    subst hc
    exact hfin.2.2.2.2.2 u hu he.2
  have hiu : out.indexOf u < out.length := List.indexOf_lt_length.mpr hu
  have hiv : out.indexOf v < out.length := List.indexOf_lt_length.mpr hv
  have hgu : out.get ⟨out.indexOf u, hiu⟩ = u := List.indexOf_get _
  have hgv : out.get ⟨out.indexOf v, hiv⟩ = v := List.indexOf_get _
  have hij : out.indexOf u ≠ out.indexOf v := by
    intro hc
    apply hne
    rw [← hgu, ← hgv]
    congr 1
    exact Fin.ext hc
  rcases lt_or_gt_of_ne hij with h | h
  · exact h
  · exfalso
    have hp := List.pairwise_iff_get.mp hfin.2.2.2.2.1
      ⟨out.indexOf v, hiv⟩ ⟨out.indexOf u, hiu⟩ h
    rw [hgu, hgv] at hp
    exact hp he.2

/-- In a final Kahn state no node lying on a directed cycle was
output. -/
theorem kahn_cycle_missing {nodes : List Node} {adjs : Node → List Node}
    {indegF : Node → ℤ} {out : List Node}
    (hfin : KahnInv nodes adjs indegF [] out) :
    ∀ c, Relation.TransGen (kahnEdge nodes adjs) c c → c ∉ out := by
  have hkey : ∀ a b, Relation.TransGen (kahnEdge nodes adjs) a b → b ∈ out →
      a ∈ out ∧ out.indexOf a < out.indexOf b := by
    intro a b hab
    induction hab with
    | single h => exact fun hb => kahn_edge_index hfin _ _ h hb
    | tail hab hbc ih =>
      intro hc
      obtain ⟨hb, hlt⟩ := kahn_edge_index hfin _ _ hbc hc
      obtain ⟨ha, hlt2⟩ := ih hb
      exact ⟨ha, hlt2.trans hlt⟩
  intro c hcyc hc
  obtain ⟨_, hlt⟩ := hkey c c hcyc hc
  exact lt_irrefl _ hlt

/-- In a final Kahn state, an input node is missing from the output
exactly when it is reachable from a node on a directed cycle. -/
theorem kahn_missing_iff {nodes : List Node} {adjs : Node → List Node}
    {indegF : Node → ℤ} {out : List Node}
    (hfin : KahnInv nodes adjs indegF [] out) :
    ∀ v ∈ nodes, (v ∉ out ↔
      ∃ s, Relation.TransGen (kahnEdge nodes adjs) s s ∧
        Relation.ReflTransGen (kahnEdge nodes adjs) s v) := by
  intro v hvnodes
  constructor
  · intro hv
    classical
    set S : Finset Node := nodes.toFinset.filter
      (fun x => x ∉ out ∧ Relation.ReflTransGen (kahnEdge nodes adjs) x v) with hS
    have hvS : v ∈ S := by
      rw [hS]
      apply Finset.mem_filter.mpr
      exact ⟨List.mem_toFinset.mpr hvnodes, hv, Relation.ReflTransGen.refl⟩
    have hpred : ∀ x ∈ S, ∃ u ∈ S, kahnEdge nodes adjs u x := by
      intro x hx
      rw [hS] at hx
      have h1 := Finset.mem_filter.mp hx
      have hxn : x ∈ nodes := List.mem_toFinset.mp h1.1
      have hxout : x ∉ out := h1.2.1
      have hxreach := h1.2.2
      have hnotall : ¬ (∀ u ∈ nodes, x ∈ adjs u → u ∈ out) := by
        intro hall
        exact hxout (by
          have := (hfin.2.2.2.1 x hxn).mpr hall
          simpa using this)
      push_neg at hnotall
      obtain ⟨u, hun, hsrc, huout⟩ := hnotall
      refine ⟨u, ?_, hun, hsrc⟩
      rw [hS]
      apply Finset.mem_filter.mpr
      exact ⟨List.mem_toFinset.mpr hun, huout,
        Relation.ReflTransGen.head ⟨hun, hsrc⟩ hxreach⟩
    obtain ⟨c, hcS, hcyc⟩ :=
      exists_cycle_of_predecessors (kahnEdge nodes adjs) S ⟨v, hvS⟩ hpred
    rw [hS] at hcS
    have h1 := Finset.mem_filter.mp hcS
    exact ⟨c, hcyc, h1.2.2⟩
  · intro ⟨s, hcyc, hreach⟩ hv
    exact kahn_cycle_missing hfin s hcyc (kahn_ancestors_processed hfin s v hreach hv)

/-- C5: on a duplicate-free node set whose adjacency function stays
inside the set and generates no directed cycle, `kahn` (with fuel
covering the node count) returns a permutation of the input nodes in
which the source of every edge appears strictly before its target. -/
theorem kahn_acyclic_topological (nodes : List Node) (adjs : Node → List Node)
    (fuel : ℕ) (hnd : nodes.Nodup)
    (hclosed : ∀ u ∈ nodes, ∀ a ∈ adjs u, a ∈ nodes)
    (hacyc : ∀ c, ¬ Relation.TransGen (kahnEdge nodes adjs) c c)
    (hfuel : nodes.length ≤ fuel) :
    ∃ out, kahn nodes adjs fuel = some out ∧ out.Perm nodes ∧
      ∀ u v, kahnEdge nodes adjs u v → out.indexOf u < out.indexOf v := by
  obtain ⟨out, indegF, hrun, hfin⟩ := kahnLoop_run nodes adjs hnd hclosed fuel
    (computeInDegree nodes adjs)
    (nodes.filter (fun n => decide (computeInDegree nodes adjs n = 0))) []
    (kahnInv_init nodes adjs hnd) (by simpa using hfuel)
  have hsub : ∀ a, a ∈ out ↔ a ∈ nodes := by
    intro a
    constructor
    · intro ha
      exact hfin.2.1 a (by simpa using ha)
    · intro ha
      by_contra hc
      obtain ⟨s, hcyc, _⟩ := (kahn_missing_iff hfin a ha).mp hc
      exact hacyc s hcyc
  refine ⟨out, hrun, ?_, ?_⟩
  · have hnodup_out : out.Nodup := by simpa using hfin.1
    exact List.perm_of_nodup_nodup_toFinset_eq hnodup_out hnd
      (by ext a; simp [hsub a])
  · intro u v he
    have hv : v ∈ nodes := hclosed u he.1 v he.2
    exact (kahn_edge_index hfin u v he ((hsub v).mpr hv)).2

/-- Witness for C5 on the chain `0 → 1 → 2`. -/
theorem kahn_acyclic_topological_witness :
    kahn [0, 1, 2] (fun n => if n = 0 then [1] else if n = 1 then [2] else []) 3 =
      some [0, 1, 2] ∧
    ∃ out, kahn [0, 1, 2]
        (fun n => if n = 0 then [1] else if n = 1 then [2] else []) 3 = some out ∧
      out.Perm [0, 1, 2] ∧
      ∀ u v, kahnEdge [0, 1, 2]
          (fun n => if n = 0 then [1] else if n = 1 then [2] else []) u v →
        out.indexOf u < out.indexOf v := by
  have hmono : ∀ u v, kahnEdge [0, 1, 2]
      (fun n => if n = 0 then [1] else if n = 1 then [2] else []) u v → u < v := by
    intro u v ⟨hu, hv⟩
    fin_cases hu <;> simp_all
  refine ⟨by rfl, kahn_acyclic_topological _ _ _ (by decide) (by decide) ?_ (by decide)⟩
  intro c hcyc
  have hlt : ∀ a b, Relation.TransGen (kahnEdge [0, 1, 2]
      (fun n => if n = 0 then [1] else if n = 1 then [2] else [])) a b → a < b := by
    intro a b hab
    induction hab with
    | single h => exact hmono _ _ h
    | tail hab hbc ih => exact ih.trans (hmono _ _ hbc)
  exact lt_irrefl c (hlt c c hcyc)

/-- C6 counterexample: for nodes `{0, 1, 2}` with edges `0 → 1`,
`0 → 2` and `1 → 0`, the single simple cycle is `0 → 1 → 0` with
member set `{0, 1}`, yet `kahn` returns `[]`: node `2` is missing from
the output without being a member of the cycle, so the missing set is
not exactly the cycle's member set. -/
theorem kahn_missing_not_cycle_members_counterexample :
    kahn [0, 1, 2] (fun n => if n = 0 then [1, 2] else if n = 1 then [0] else [])
      3 = some [] ∧
    (2 : ℕ) ∈ [0, 1, 2] ∧ (2 : ℕ) ∉ ([] : List ℕ) ∧ (2 : ℕ) ∉ ([0, 1] : List ℕ) :=
  ⟨by rfl, by decide, by decide, by decide⟩

/-- C6 amended: on a cyclic input (under the same well-formedness and
fuel side conditions as C5) `kahn` returns strictly fewer nodes than
the input set, and the missing nodes are exactly the nodes reachable
from some directed cycle — the cycle members themselves together with
every node downstream of them, not the members of the single simple
cycle alone. -/
theorem kahn_cycle_truncated (nodes : List Node) (adjs : Node → List Node)
    (fuel : ℕ) (hnd : nodes.Nodup)
    (hclosed : ∀ u ∈ nodes, ∀ a ∈ adjs u, a ∈ nodes)
    (hfuel : nodes.length ≤ fuel) (c : Node)
    (hcyc : Relation.TransGen (kahnEdge nodes adjs) c c) :
    ∃ out, kahn nodes adjs fuel = some out ∧ out.length < nodes.length ∧
      (∀ v ∈ nodes, (v ∉ out ↔
        ∃ s, Relation.TransGen (kahnEdge nodes adjs) s s ∧
          Relation.ReflTransGen (kahnEdge nodes adjs) s v)) := by
  obtain ⟨out, indegF, hrun, hfin⟩ := kahnLoop_run nodes adjs hnd hclosed fuel
    (computeInDegree nodes adjs)
    (nodes.filter (fun n => decide (computeInDegree nodes adjs n = 0))) []
    (kahnInv_init nodes adjs hnd) (by simpa using hfuel)
  have hcnodes : c ∈ nodes := by
    obtain ⟨x, hx, _⟩ := Relation.TransGen.head'_iff.mp hcyc
    exact hx.1
  have hcout : c ∉ out := kahn_cycle_missing hfin c hcyc
  refine ⟨out, hrun, ?_, kahn_missing_iff hfin⟩
  have hnodup_out : out.Nodup := by simpa using hfin.1
  have hsubset : out.toFinset ⊆ nodes.toFinset.erase c := by
    intro a ha
    rw [List.mem_toFinset] at ha
    apply Finset.mem_erase.mpr
    refine ⟨fun hc2 => hcout (hc2 ▸ ha), ?_⟩
    exact List.mem_toFinset.mpr (hfin.2.1 a (by simpa using ha))
  have h1 : out.toFinset.card = out.length := List.toFinset_card_of_nodup hnodup_out
  have h2 : nodes.toFinset.card = nodes.length := List.toFinset_card_of_nodup hnd
  have h3 := Finset.card_le_card hsubset
  have h4 : (nodes.toFinset.erase c).card = nodes.toFinset.card - 1 :=
    Finset.card_erase_of_mem (List.mem_toFinset.mpr hcnodes)
  have h5 : 0 < nodes.length := List.length_pos_of_mem hcnodes
  omega

/-- Witness for the amended C6 theorem on the graph with edges
`0 → 1`, `0 → 2`, `1 → 0`. -/
theorem kahn_cycle_truncated_witness :
    kahn [0, 1, 2] (fun n => if n = 0 then [1, 2] else if n = 1 then [0] else [])
      3 = some [] ∧
    ∃ out, kahn [0, 1, 2]
        (fun n => if n = 0 then [1, 2] else if n = 1 then [0] else []) 3 =
          some out ∧
      out.length < ([0, 1, 2] : List ℕ).length ∧
      (∀ v ∈ ([0, 1, 2] : List ℕ), (v ∉ out ↔
        ∃ s, Relation.TransGen (kahnEdge [0, 1, 2]
            (fun n => if n = 0 then [1, 2] else if n = 1 then [0] else [])) s s ∧
          Relation.ReflTransGen (kahnEdge [0, 1, 2]
            (fun n => if n = 0 then [1, 2] else if n = 1 then [0] else [])) s v)) := by
  refine ⟨by rfl, kahn_cycle_truncated _ _ _ (by decide) (by decide) (by decide) 0 ?_⟩
  have h01 : kahnEdge [0, 1, 2]
      (fun n => if n = 0 then [1, 2] else if n = 1 then [0] else []) 0 1 :=
    ⟨by decide, by decide⟩
  have h10 : kahnEdge [0, 1, 2]
      (fun n => if n = 0 then [1, 2] else if n = 1 then [0] else []) 1 0 :=
    ⟨by decide, by decide⟩
  exact Relation.TransGen.head h01 (Relation.TransGen.single h10)

/-! ## Union-Find (`union_find.py`) -/

/-- The `UnionFind` class state: the `parent` and `rank` dicts. -/
structure UnionFind (T : Type) where
  parent : List (T × T)
  rank : List (T × ℕ)

variable {T : Type} [DecidableEq T]

/-- `UnionFind()`: both dicts start empty. -/
def UnionFind.empty : UnionFind T := ⟨[], []⟩

/-- The recursive body of `UnionFind.find`: lazily create unseen
elements as their own root, then follow and compress the parent chain.
Fuel models the unbounded recursion (a stack overflow on a cyclic
parent structure is the `none` outcome). -/
def findAux : ℕ → UnionFind T → T → Option (UnionFind T × T)
  | 0, _, _ => none
  | fuel + 1, uf, x =>
    let uf1 := if (dlookup uf.parent x).isSome then uf
      else ⟨dinsert uf.parent x x, dinsert uf.rank x 0⟩
    match dlookup uf1.parent x with
    | none => none
    | some p =>
      if p = x then some (uf1, x)
      else
        match findAux fuel uf1 p with
        | none => none
        | some (uf2, r) => some (⟨dinsert uf2.parent x r, uf2.rank⟩, r)

/-- `UnionFind.find(x)`, with fuel provably sufficient on every state
reachable from `UnionFind()`. -/
def UnionFind.find (uf : UnionFind T) (x : T) : Option (UnionFind T × T) :=
  findAux (uf.parent.length + 1) uf x

/-- `UnionFind.union(x, y)`: find both roots; if equal return `False`,
otherwise attach the lower-rank root beneath the higher-rank one,
incrementing the surviving root's rank on a tie, and return `True`. -/
def UnionFind.union (uf : UnionFind T) (x y : T) : Option (UnionFind T × Bool) :=
  match uf.find x with
  | none => none
  | some (uf1, root1) =>
    match uf1.find y with
    | none => none
    | some (uf2, root2) =>
      if root1 = root2 then some (uf2, false)
      else
        match dlookup uf2.rank root1, dlookup uf2.rank root2 with
        | some rk1, some rk2 =>
          let a := if rk1 < rk2 then root2 else root1
          let b := if rk1 < rk2 then root1 else root2
          let rka := if rk1 < rk2 then rk2 else rk1
          let rkb := if rk1 < rk2 then rk1 else rk2
          let uf3 : UnionFind T := ⟨dinsert uf2.parent b a, uf2.rank⟩
          let uf4 : UnionFind T :=
            if rka = rkb then ⟨uf3.parent, dinsert uf3.rank a (rka + 1)⟩ else uf3
          some (uf4, true)
        | _, _ => none

/-- Run a sequence of `union` operations from a given state. -/
def runUnionsAux (uf : UnionFind T) : List (T × T) → Option (UnionFind T)
  | [] => some uf
  | (x, y) :: ps =>
    match uf.union x y with
    | none => none
    | some (uf', _) => runUnionsAux uf' ps

/-- Run a sequence of `union` operations on a fresh `UnionFind()`. -/
def runUnions (pairs : List (T × T)) : Option (UnionFind T) :=
  runUnionsAux UnionFind.empty pairs

/-- Looking up the just-assigned key returns the assigned value. -/
theorem dlookup_dinsert_self {α β : Type} [DecidableEq α] (l : List (α × β))
    (x : α) (v : β) : dlookup (dinsert l x v) x = some v := by
  induction l with
  | nil => simp [dinsert, dlookup]
  | cons kv l ih =>
    obtain ⟨k, w⟩ := kv
    by_cases hx : x = k
    · simp [dinsert, dlookup, hx]
    · simp [dinsert, dlookup, hx, ih]

/-- Assigning one key leaves other lookups unchanged. -/
theorem dlookup_dinsert_ne {α β : Type} [DecidableEq α] (l : List (α × β))
    (x y : α) (v : β) (h : y ≠ x) :
    dlookup (dinsert l x v) y = dlookup l y := by
  induction l with
  | nil => simp [dinsert, dlookup, h]
  | cons kv l ih =>
    obtain ⟨k, w⟩ := kv
    by_cases hx : x = k
    · subst hx
      simp [dinsert, dlookup, h]
    · by_cases hy : y = k
      · simp [dinsert, dlookup, hx, hy]
      · simp [dinsert, dlookup, hx, hy, ih]

/-- Assigning an already-bound key keeps the key list. -/
theorem dinsert_map_fst_mem {α β : Type} [DecidableEq α] (l : List (α × β))
    (x : α) (v : β) (h : (dlookup l x).isSome) :
    (dinsert l x v).map Prod.fst = l.map Prod.fst := by
  induction l with
  | nil => simp [dlookup] at h
  | cons kv l ih =>
    obtain ⟨k, w⟩ := kv
    by_cases hx : x = k
    · simp [dinsert, hx]
    · simp only [dlookup, if_neg hx] at h
      simp [dinsert, hx, ih h]

/-- Assigning a fresh key appends it to the key list. -/
theorem dinsert_map_fst_new {α β : Type} [DecidableEq α] (l : List (α × β))
    (x : α) (v : β) (h : dlookup l x = none) :
    (dinsert l x v).map Prod.fst = l.map Prod.fst ++ [x] := by
  induction l with
  | nil => simp [dinsert]
  | cons kv l ih =>
    obtain ⟨k, w⟩ := kv
    by_cases hx : x = k
    · simp [dlookup, hx] at h
    · simp only [dlookup, if_neg hx] at h
      simp [dinsert, hx, ih h]

/-- Re-assigning the value a key already holds is a no-op. -/
theorem dinsert_self_eq {α β : Type} [DecidableEq α] (l : List (α × β))
    (x : α) (v : β) (h : dlookup l x = some v) : dinsert l x v = l := by
  induction l with
  | nil => simp [dlookup] at h
  | cons kv l ih =>
    obtain ⟨k, w⟩ := kv
    by_cases hx : x = k
    · subst hx
      simp only [dlookup, eq_self_iff_true, if_true, Option.some.injEq] at h
      simp [dinsert, h]
    · simp only [dlookup, if_neg hx] at h
      simp [dinsert, hx, ih h]

/-- A lookup succeeds exactly on the key list. -/
theorem dlookup_isSome_iff {α β : Type} [DecidableEq α] (l : List (α × β))
    (x : α) : (dlookup l x).isSome ↔ x ∈ l.map Prod.fst := by
  induction l with
  | nil => simp [dlookup]
  | cons kv l ih =>
    obtain ⟨k, w⟩ := kv
    by_cases hx : x = k
    · simp [dlookup, hx]
    · simp [dlookup, hx, ih]

/-- The keys of a union-find parent dict. -/
def keysOf (uf : UnionFind T) : List T := uf.parent.map Prod.fst

/-- One step of the parent chain. -/
def parentRel (uf : UnionFind T) (a b : T) : Prop := dlookup uf.parent a = some b

/-- A self-parented element. -/
def isRoot (uf : UnionFind T) (r : T) : Prop := dlookup uf.parent r = some r

/-- The parent chain from `x` reaches the root `r`. -/
def rootedAt (uf : UnionFind T) (x r : T) : Prop :=
  Relation.ReflTransGen (parentRel uf) x r ∧ isRoot uf r

/-- The rank of an element (`0` when unseen). -/
def prank (uf : UnionFind T) (x : T) : ℕ := (dlookup uf.rank x).getD 0

/-- Two elements currently in the same set: their chains share a root. -/
def ufSame (uf : UnionFind T) (a b : T) : Prop :=
  ∃ r, rootedAt uf a r ∧ rootedAt uf b r

/-- The internal well-formedness invariant of every reachable
union-find state: distinct keys, parent pointers staying among the
keys, ranks defined exactly on the keys, and rank strictly increasing
along non-trivial parent links (which makes the structure a forest). -/
def UFInv (uf : UnionFind T) : Prop :=
  (uf.parent.map Prod.fst).Nodup ∧
  (∀ x p, dlookup uf.parent x = some p → (dlookup uf.parent p).isSome) ∧
  (∀ x, (dlookup uf.parent x).isSome ↔ (dlookup uf.rank x).isSome) ∧
  (∀ x p, dlookup uf.parent x = some p → p ≠ x → prank uf x < prank uf p)

/-- The elements whose roots are themselves: the current set
representatives. -/
def rootsOf (uf : UnionFind T) : List T :=
  (keysOf uf).filter (fun r => decide (dlookup uf.parent r = some r))

/-- Chains out of a root stay at the root. -/
theorem root_chain_fix {uf : UnionFind T} {r b : T} (hr : isRoot uf r)
    (h : Relation.ReflTransGen (parentRel uf) r b) : b = r := by
  induction h with
  | refl => rfl
  | tail hab hbc ih =>
    rename_i m c
    subst ih
    unfold parentRel at hbc
    unfold isRoot at hr
    rw [hr] at hbc
    exact (Option.some.injEq _ _).mp hbc.symm

/-- Ranks never decrease along a parent chain. -/
theorem chain_rank_le {uf : UnionFind T} (hinv : UFInv uf) {a b : T}
    (h : Relation.ReflTransGen (parentRel uf) a b) : prank uf a ≤ prank uf b := by
  induction h with
  | refl => exact le_refl _
  | tail hab hbc ih =>
    rename_i m c
    by_cases hmc : c = m
    · exact hmc ▸ ih
    · exact ih.trans (le_of_lt (hinv.2.2.2 m c hbc hmc))

/-- Every element reaches at most one root. -/
theorem rootedAt_unique {uf : UnionFind T} {y a b : T}
    (ha : rootedAt uf y a) (hb : rootedAt uf y b) : a = b := by
  obtain ⟨hca, hra⟩ := ha
  obtain ⟨hcb, hrb⟩ := hb
  revert hcb
  induction hca using Relation.ReflTransGen.head_induction_on with
  | refl =>
    intro hcb
    exact (root_chain_fix hra hcb).symm
  | head hstep htail ih =>
    rename_i u m
    intro hcb
    rcases Relation.ReflTransGen.cases_head hcb with heq | ⟨m2, hstep2, htail2⟩
    · exact root_chain_fix hrb
        (heq ▸ (Relation.ReflTransGen.head hstep htail))
    · have hm : m2 = m := by
        unfold parentRel at hstep hstep2
        rw [hstep] at hstep2
        injection hstep2 with hmm
        exact hmm.symm
      subst hm
      exact ih htail2

/-- The termination measure of `find`: how many keys hold a strictly
larger rank. -/
def Mfind (uf : UnionFind T) (x : T) : ℕ :=
  ((keysOf uf).toFinset.filter (fun y => decide (prank uf x < prank uf y))).card

/-- Following a proper parent link strictly shrinks the measure. -/
theorem Mfind_lt {uf : UnionFind T} (hinv : UFInv uf) {x p : T}
    (hp : dlookup uf.parent x = some p) (hne : p ≠ x) :
    Mfind uf p < Mfind uf x := by
  apply Finset.card_lt_card
  constructor
  · intro y hy
    obtain ⟨hyk, hyr⟩ := Finset.mem_filter.mp hy
    apply Finset.mem_filter.mpr
    refine ⟨hyk, ?_⟩
    simp only [decide_eq_true_eq] at hyr ⊢
    exact (hinv.2.2.2 x p hp hne).trans hyr
  · intro hsub
    have hpk : p ∈ (keysOf uf).toFinset := by
      rw [List.mem_toFinset]
      unfold keysOf
      rw [← dlookup_isSome_iff]
      exact hinv.2.1 x p hp
    have hpin : p ∈ (keysOf uf).toFinset.filter
        (fun y => decide (prank uf x < prank uf y)) := by
      apply Finset.mem_filter.mpr
      refine ⟨hpk, ?_⟩
      simp only [decide_eq_true_eq]
      exact hinv.2.2.2 x p hp hne
    have hpout := hsub hpin
    obtain ⟨_, hpr⟩ := Finset.mem_filter.mp hpout
    simp only [decide_eq_true_eq] at hpr
    exact lt_irrefl _ hpr

/-- The measure is bounded by the size of the parent dict. -/
theorem Mfind_le (uf : UnionFind T) (x : T) : Mfind uf x ≤ uf.parent.length := by
  calc Mfind uf x ≤ (keysOf uf).toFinset.card := Finset.card_filter_le _ _
  _ ≤ (keysOf uf).length := List.toFinset_card_le _
  _ = uf.parent.length := by simp [keysOf]

/-- Every key reaches some root. -/
theorem rootedAt_exists {uf : UnionFind T} (hinv : UFInv uf) :
    ∀ (n : ℕ) (x : T), Mfind uf x < n → (dlookup uf.parent x).isSome →
      ∃ r, rootedAt uf x r := by
  intro n
  induction n with
  | zero =>
    intro x hm
    omega
  | succ n ih =>
    intro x hm hk
    obtain ⟨p, hp⟩ := Option.isSome_iff_exists.mp hk
    by_cases hpx : p = x
    · exact ⟨x, Relation.ReflTransGen.refl, by rw [isRoot, hp, hpx]⟩
    · have hpk : (dlookup uf.parent p).isSome := hinv.2.1 x p hp
      obtain ⟨r, hchain, hroot⟩ := ih p (by
        have := Mfind_lt hinv hp hpx
        omega) hpk
      exact ⟨r, Relation.ReflTransGen.head hp hchain, hroot⟩

/-- Path compression — pointing a non-root `x` directly at its root —
changes no element's root. -/
theorem compress_rootedAt {uf : UnionFind T} (hinv : UFInv uf) {x p r : T}
    (hpx : dlookup uf.parent x = some p) (hne : p ≠ x)
    (hroot : rootedAt uf x r) :
    ∀ y s, rootedAt (UnionFind.mk (dinsert uf.parent x r) uf.rank) y s ↔
      rootedAt uf y s := by
  have hxr : r ≠ x := by
    intro hc
    subst hc
    have hr2 := hroot.2
    unfold isRoot at hr2
    rw [hpx] at hr2
    injection hr2 with hr3
    exact hne hr3
  have hrel : ∀ a b, parentRel (UnionFind.mk (dinsert uf.parent x r) uf.rank) a b ↔
      ((a = x ∧ b = r) ∨ (a ≠ x ∧ parentRel uf a b)) := by
    intro a b
    unfold parentRel
    by_cases hax : a = x
    · subst hax
      rw [dlookup_dinsert_self]
      constructor
      · intro h
        injection h with h2
        exact Or.inl ⟨rfl, h2.symm⟩
      · rintro (⟨_, h⟩ | ⟨h, _⟩)
        · rw [h]
        · exact absurd rfl h
    · rw [dlookup_dinsert_ne _ _ _ _ hax]
      simp [hax, parentRel]
  have hisroot : ∀ s, isRoot (UnionFind.mk (dinsert uf.parent x r) uf.rank) s ↔
      (s ≠ x ∧ isRoot uf s) := by
    intro s
    by_cases hsx : s = x
    · subst hsx
      unfold isRoot
      simp only [dlookup_dinsert_self, Option.some.injEq]
      constructor
      · intro h
        exact absurd h hxr
      · intro ⟨h, _⟩
        exact absurd rfl h
    · unfold isRoot
      rw [dlookup_dinsert_ne _ _ _ _ hsx]
      simp [hsx]
  have hxnotroot : ¬ isRoot uf x := by
    intro hc
    unfold isRoot at hc
    rw [hpx] at hc
    injection hc with hc2
    exact hne hc2
  intro y s
  constructor
  · intro ⟨hchain, hs⟩
    induction hchain using Relation.ReflTransGen.head_induction_on with
    | refl => exact ⟨Relation.ReflTransGen.refl, ((hisroot _).mp hs).2⟩
    | head hstep htail ih =>
      rename_i u m
      rcases (hrel u m).mp hstep with ⟨hux, hmr⟩ | ⟨hux, hrel2⟩
      · have hsr : s = r := root_chain_fix hroot.2 (by rw [← hmr]; exact ih.1)
        rw [hux, hsr]
        exact hroot
      · exact ⟨Relation.ReflTransGen.head hrel2 ih.1, ih.2⟩
  · intro ⟨hchain, hs⟩
    induction hchain using Relation.ReflTransGen.head_induction_on with
    | refl =>
      have hsx : s ≠ x := fun hc => hxnotroot (hc ▸ hs)
      exact ⟨Relation.ReflTransGen.refl, (hisroot s).mpr ⟨hsx, hs⟩⟩
    | head hstep htail ih =>
      rename_i u m
      by_cases hux : u = x
      · have hur : rootedAt uf u r := by rw [hux]; exact hroot
        have hsr : s = r :=
          rootedAt_unique ⟨Relation.ReflTransGen.head hstep htail, hs⟩ hur
        refine ⟨Relation.ReflTransGen.single ((hrel u s).mpr (Or.inl ⟨hux, hsr⟩)), ?_⟩
        rw [hsr]
        exact (hisroot r).mpr ⟨hxr, hroot.2⟩
      · exact ⟨Relation.ReflTransGen.head ((hrel u m).mpr (Or.inr ⟨hux, hstep⟩)) ih.1, ih.2⟩

/-- Full specification of `findAux` on an already-present key `x`,
given sufficient fuel: it succeeds, preserves the invariant, the rank
dict, the key list, and every element's root; it returns the root `r`
of `x`'s chain and leaves `x` pointing directly at `r`. -/
theorem findAux_spec :
    ∀ (n : ℕ) (uf : UnionFind T) (x : T), UFInv uf →
      (dlookup uf.parent x).isSome → Mfind uf x < n →
      ∃ uf' r, findAux n uf x = some (uf', r) ∧
        UFInv uf' ∧ uf'.rank = uf.rank ∧
        uf'.parent.map Prod.fst = uf.parent.map Prod.fst ∧
        dlookup uf'.parent x = some r ∧ rootedAt uf x r ∧
        (∀ y s, rootedAt uf' y s ↔ rootedAt uf y s) := by
  intro n
  induction n with
  | zero =>
    intro uf x _ _ hm
    omega
  | succ n ih =>
    intro uf x hinv hk hm
    have huf1 : (if (dlookup uf.parent x).isSome then uf
        else ⟨dinsert uf.parent x x, dinsert uf.rank x 0⟩) = uf := if_pos hk
    obtain ⟨p, hp⟩ := Option.isSome_iff_exists.mp hk
    by_cases hpx : p = x
    · refine ⟨uf, x, ?_, hinv, rfl, rfl, by rw [hp, hpx], ?_, fun y s => Iff.rfl⟩
      · rw [findAux]
        simp only [huf1]
        simp only [hp]
        rw [if_pos hpx]
      · exact ⟨Relation.ReflTransGen.refl, by rw [isRoot, hp, hpx]⟩
    · have hpk : (dlookup uf.parent p).isSome := hinv.2.1 x p hp
      have hmp : Mfind uf p < n := by
        have := Mfind_lt hinv hp hpx
        omega
      obtain ⟨uf2, r, hrec, hinv2, hrank2, hkeys2, hpr2, hrooted2, hsame2⟩ :=
        ih uf p hinv hpk hmp
      have hxr_old : rootedAt uf x r :=
        ⟨Relation.ReflTransGen.head hp hrooted2.1, hrooted2.2⟩
      have hxk2 : (dlookup uf2.parent x).isSome := by
        rw [dlookup_isSome_iff, hkeys2, ← dlookup_isSome_iff]
        exact hk
      obtain ⟨p2, hp2⟩ := Option.isSome_iff_exists.mp hxk2
      have hxr2 : rootedAt uf2 x r := (hsame2 x r).mpr hxr_old
      have hxnotroot : ¬ isRoot uf x := by
        intro hc
        unfold isRoot at hc
        rw [hp] at hc
        injection hc with hc2
        exact hpx hc2
      have hp2x : p2 ≠ x := by
        intro hc
        have hrootx : isRoot uf2 x := by rw [isRoot, hp2, hc]
        have hxx : x = r := rootedAt_unique ⟨Relation.ReflTransGen.refl, hrootx⟩ hxr2
        exact hxnotroot (hxx ▸ hxr_old.2)
      have hrx : r ≠ x := by
        intro hc
        have hr2 : isRoot uf2 r := hxr2.2
        unfold isRoot at hr2
        rw [hc, hp2] at hr2
        injection hr2 with hc2
        exact hp2x hc2
      have hcomp := compress_rootedAt hinv2 hp2 hp2x hxr2
      have hprank2 : ∀ y, prank uf2 y = prank uf y := by
        intro y
        unfold prank
        rw [hrank2]
      have hkeys3 : (dinsert uf2.parent x r).map Prod.fst = uf2.parent.map Prod.fst :=
        dinsert_map_fst_mem _ _ _ hxk2
      refine ⟨⟨dinsert uf2.parent x r, uf2.rank⟩, r, ?_, ?_, hrank2, ?_, ?_,
        hxr_old, fun y s => (hcomp y s).trans (hsame2 y s)⟩
      · rw [findAux]
        simp only [huf1]
        simp only [hp]
        rw [if_neg hpx]
        simp only [hrec]
      · refine ⟨?_, ?_, ?_, ?_⟩
        · show ((dinsert uf2.parent x r).map Prod.fst).Nodup
          rw [hkeys3]
          exact hinv2.1
        · intro z q hzq
          show (dlookup (dinsert uf2.parent x r) q).isSome
          by_cases hzx : z = x
          · rw [hzx, dlookup_dinsert_self] at hzq
            injection hzq with hq
            rw [dlookup_isSome_iff, hkeys3, ← dlookup_isSome_iff, ← hq]
            have hr2 : isRoot uf2 r := hxr2.2
            unfold isRoot at hr2
            rw [hr2]
            rfl
          · rw [dlookup_dinsert_ne _ _ _ _ hzx] at hzq
            rw [dlookup_isSome_iff, hkeys3, ← dlookup_isSome_iff]
            exact hinv2.2.1 z q hzq
        · intro z
          show (dlookup (dinsert uf2.parent x r) z).isSome ↔ (dlookup uf2.rank z).isSome
          rw [dlookup_isSome_iff, hkeys3, ← dlookup_isSome_iff]
          exact hinv2.2.2.1 z
        · intro z q hzq hqz
          show prank ⟨dinsert uf2.parent x r, uf2.rank⟩ z <
            prank ⟨dinsert uf2.parent x r, uf2.rank⟩ q
          have hpr3 : ∀ w, prank (⟨dinsert uf2.parent x r, uf2.rank⟩ : UnionFind T) w =
              prank uf2 w := fun w => rfl
          rw [hpr3, hpr3]
          by_cases hzx : z = x
          · have hq : q = r := by
              rw [hzx, dlookup_dinsert_self] at hzq
              injection hzq with hq2
              exact hq2.symm
            rw [hzx, hq, hprank2, hprank2]
            calc prank uf x < prank uf p := hinv.2.2.2 x p hp hpx
            _ ≤ prank uf r := chain_rank_le hinv hrooted2.1
          · rw [dlookup_dinsert_ne _ _ _ _ hzx] at hzq
            exact hinv2.2.2.2 z q hzq hqz
      · show (dinsert uf2.parent x r).map Prod.fst = uf.parent.map Prod.fst
        rw [hkeys3, hkeys2]
      · show dlookup (dinsert uf2.parent x r) x = some r
        exact dlookup_dinsert_self _ _ _

/-- Lazily initializing a fresh element adds a new singleton root and
changes nothing else. -/
theorem fresh_rootedAt {uf : UnionFind T} (hinv : UFInv uf) {x : T}
    (hk : dlookup uf.parent x = none) :
    ∀ y s, rootedAt (UnionFind.mk (dinsert uf.parent x x) (dinsert uf.rank x 0)) y s ↔
      (rootedAt uf y s ∨ (y = x ∧ s = x)) := by
  have hnotgt : ∀ c, ¬ parentRel uf c x := by
    intro c hc
    have := hinv.2.1 c x hc
    rw [hk] at this
    exact Bool.noConfusion this
  have hrel : ∀ a b,
      parentRel (UnionFind.mk (dinsert uf.parent x x) (dinsert uf.rank x 0)) a b ↔
      ((a = x ∧ b = x) ∨ (a ≠ x ∧ parentRel uf a b)) := by
    intro a b
    unfold parentRel
    by_cases hax : a = x
    · subst hax
      rw [dlookup_dinsert_self]
      constructor
      · intro h
        injection h with h2
        exact Or.inl ⟨rfl, h2.symm⟩
      · rintro (⟨_, h⟩ | ⟨h, _⟩)
        · rw [h]
        · exact absurd rfl h
    · rw [dlookup_dinsert_ne _ _ _ _ hax]
      simp [hax, parentRel]
  intro y s
  constructor
  · intro ⟨hchain, hs⟩
    induction hchain using Relation.ReflTransGen.head_induction_on with
    | refl =>
      by_cases hsx : s = x
      · exact Or.inr ⟨hsx, hsx⟩
      · refine Or.inl ⟨Relation.ReflTransGen.refl, ?_⟩
        unfold isRoot at hs ⊢
        rwa [dlookup_dinsert_ne _ _ _ _ hsx] at hs
    | head hstep htail ih =>
      rename_i u m
      rcases (hrel u m).mp hstep with ⟨hux, hmx⟩ | ⟨hux, hold⟩
      · rcases ih with ⟨hchain2, hroot2⟩ | ⟨hmx2, hsx⟩
        · exfalso
          rcases Relation.ReflTransGen.cases_head hchain2 with heq | ⟨m2, hstep2, _⟩
          · rw [← heq, hmx] at hroot2
            unfold isRoot at hroot2
            rw [hk] at hroot2
            exact Option.noConfusion hroot2
          · rw [hmx] at hstep2
            unfold parentRel at hstep2
            rw [hk] at hstep2
            exact Option.noConfusion hstep2
        · exact Or.inr ⟨hux, hsx⟩
      · rcases ih with ⟨hchain2, hroot2⟩ | ⟨hmx2, hsx⟩
        · exact Or.inl ⟨Relation.ReflTransGen.head hold hchain2, hroot2⟩
        · exfalso
          rw [hmx2] at hold
          exact hnotgt u hold
  · rintro (⟨hchain, hs⟩ | ⟨hyx, hsx⟩)
    · have hsx : s ≠ x := by
        intro hc
        unfold isRoot at hs
        rw [hc, hk] at hs
        exact Option.noConfusion hs
      constructor
      · clear hs
        induction hchain using Relation.ReflTransGen.head_induction_on with
        | refl => exact Relation.ReflTransGen.refl
        | head hstep htail ih =>
          rename_i u m
          have hux : u ≠ x := by
            intro hc
            rw [hc] at hstep
            unfold parentRel at hstep
            rw [hk] at hstep
            exact Option.noConfusion hstep
          exact Relation.ReflTransGen.head ((hrel u m).mpr (Or.inr ⟨hux, hstep⟩)) ih
      · unfold isRoot
        rw [dlookup_dinsert_ne _ _ _ _ hsx]
        exact hs
    · rw [hyx, hsx]
      refine ⟨Relation.ReflTransGen.refl, ?_⟩
      unfold isRoot
      rw [dlookup_dinsert_self]

/-- Full specification of `UnionFind.find`: it always succeeds on a
well-formed state, preserves well-formedness, ranks, and every existing
element's set; it adds `x` as a (possibly fresh singleton) key, returns
the root of `x`'s set, and leaves `x` pointing directly at it. -/
theorem find_spec (uf : UnionFind T) (x : T) (hinv : UFInv uf) :
    ∃ uf' r, uf.find x = some (uf', r) ∧ UFInv uf' ∧
      (∀ y, prank uf' y = prank uf y) ∧
      (∀ y, y ∈ keysOf uf' ↔ (y ∈ keysOf uf ∨ y = x)) ∧
      dlookup uf'.parent x = some r ∧ isRoot uf' r ∧ rootedAt uf' x r ∧
      (∀ z s, rootedAt uf' z s ↔
        (rootedAt uf z s ∨ (z = x ∧ s = x ∧ dlookup uf.parent x = none))) ∧
      (∀ a b, ufSame uf' a b ↔ (ufSame uf a b ∨ (a = x ∧ b = x))) := by
  by_cases hk : (dlookup uf.parent x).isSome
  · obtain ⟨uf2, r, hrun, hinv2, hrank2, hkeys2, hpx2, hrooted, hsame⟩ :=
      findAux_spec (uf.parent.length + 1) uf x hinv hk
        (by have := Mfind_le uf x; omega)
    have hroot2 : isRoot uf2 r := ((hsame r r).mpr ⟨Relation.ReflTransGen.refl, hrooted.2⟩).2
    have hrootedx2 : rootedAt uf2 x r := (hsame x r).mpr hrooted
    refine ⟨uf2, r, hrun, hinv2, ?_, ?_, hpx2, hroot2, hrootedx2, ?_, ?_⟩
    · intro y
      unfold prank
      rw [hrank2]
    · intro y
      unfold keysOf
      rw [hkeys2]
      constructor
      · exact Or.inl
      · rintro (h | h)
        · exact h
        · rw [h, ← dlookup_isSome_iff]
          exact hk
    · intro z s
      rw [hsame z s]
      constructor
      · exact Or.inl
      · rintro (h | ⟨_, _, hnone⟩)
        · exact h
        · rw [hnone] at hk
          simp at hk
    · intro a b
      constructor
      · intro ⟨s, hs1, hs2⟩
        exact Or.inl ⟨s, (hsame a s).mp hs1, (hsame b s).mp hs2⟩
      · rintro (⟨s, hs1, hs2⟩ | ⟨ha, hb⟩)
        · exact ⟨s, (hsame a s).mpr hs1, (hsame b s).mpr hs2⟩
        · rw [ha, hb]
          exact ⟨r, hrootedx2, hrootedx2⟩
  · have hk2 : dlookup uf.parent x = none := Option.not_isSome_iff_eq_none.mp hk
    have hkr : dlookup uf.rank x = none := by
      rcases h : dlookup uf.rank x with _ | v
      · rfl
      · exfalso
        have := (hinv.2.2.1 x).mpr (by rw [h]; rfl)
        rw [hk2] at this
        exact Bool.noConfusion this
    have hfr := fresh_rootedAt hinv hk2
    have hrun : uf.find x =
        some (⟨dinsert uf.parent x x, dinsert uf.rank x 0⟩, x) := by
      unfold UnionFind.find
      rw [findAux]
      have hif : (if (dlookup uf.parent x).isSome then uf
          else (⟨dinsert uf.parent x x, dinsert uf.rank x 0⟩ : UnionFind T)) =
          ⟨dinsert uf.parent x x, dinsert uf.rank x 0⟩ := by
        rw [if_neg hk]
      simp only [hif, dlookup_dinsert_self]
      simp
    have hxmem : x ∉ uf.parent.map Prod.fst := by
      rw [← dlookup_isSome_iff]
      exact hk
    have hkeys1 : (dinsert uf.parent x x).map Prod.fst = uf.parent.map Prod.fst ++ [x] :=
      dinsert_map_fst_new _ _ _ hk2
    have hprank1 : ∀ y, prank (⟨dinsert uf.parent x x, dinsert uf.rank x 0⟩ : UnionFind T) y =
        prank uf y := by
      intro y
      unfold prank
      by_cases hyx : y = x
      · rw [hyx]
        show (dlookup (dinsert uf.rank x 0) x).getD 0 = (dlookup uf.rank x).getD 0
        rw [dlookup_dinsert_self, hkr]
        rfl
      · show (dlookup (dinsert uf.rank x 0) y).getD 0 = (dlookup uf.rank y).getD 0
        rw [dlookup_dinsert_ne _ _ _ _ hyx]
    refine ⟨⟨dinsert uf.parent x x, dinsert uf.rank x 0⟩, x, hrun, ?_, hprank1, ?_,
      dlookup_dinsert_self _ _ _, ?_, ?_, ?_, ?_⟩
    · refine ⟨?_, ?_, ?_, ?_⟩
      · show ((dinsert uf.parent x x).map Prod.fst).Nodup
        rw [hkeys1]
        exact nodup_append_singleton hinv.1 hxmem
      · intro z q hzq
        show (dlookup (dinsert uf.parent x x) q).isSome
        by_cases hqx : q = x
        · rw [hqx, dlookup_dinsert_self]
          rfl
        · rw [dlookup_dinsert_ne _ _ _ _ hqx]
          by_cases hzx : z = x
          · rw [hzx, dlookup_dinsert_self] at hzq
            injection hzq with hq2
            exact absurd hq2.symm hqx
          · rw [dlookup_dinsert_ne _ _ _ _ hzx] at hzq
            exact hinv.2.1 z q hzq
      · intro z
        show (dlookup (dinsert uf.parent x x) z).isSome ↔
          (dlookup (dinsert uf.rank x 0) z).isSome
        by_cases hzx : z = x
        · simp [hzx, dlookup_dinsert_self]
        · rw [dlookup_dinsert_ne _ _ _ _ hzx, dlookup_dinsert_ne _ _ _ _ hzx]
          exact hinv.2.2.1 z
      · intro z q hzq hqz
        show prank (⟨dinsert uf.parent x x, dinsert uf.rank x 0⟩ : UnionFind T) z <
          prank (⟨dinsert uf.parent x x, dinsert uf.rank x 0⟩ : UnionFind T) q
        rw [hprank1, hprank1]
        by_cases hzx : z = x
        · exfalso
          rw [hzx, dlookup_dinsert_self] at hzq
          injection hzq with hq2
          exact hqz (hq2.symm.trans hzx.symm)
        · rw [dlookup_dinsert_ne _ _ _ _ hzx] at hzq
          exact hinv.2.2.2 z q hzq hqz
    · intro y
      unfold keysOf
      show y ∈ (dinsert uf.parent x x).map Prod.fst ↔ _
      rw [hkeys1]
      simp
    · show isRoot (⟨dinsert uf.parent x x, dinsert uf.rank x 0⟩ : UnionFind T) x
      unfold isRoot
      exact dlookup_dinsert_self _ _ _
    · exact (hfr x x).mpr (Or.inr ⟨rfl, rfl⟩)
    · intro z s
      rw [hfr z s]
      constructor
      · rintro (h | ⟨hz, hs⟩)
        · exact Or.inl h
        · exact Or.inr ⟨hz, hs, hk2⟩
      · rintro (h | ⟨hz, hs, _⟩)
        · exact Or.inl h
        · exact Or.inr ⟨hz, hs⟩
    · intro a b
      have hnorootx : ∀ c, ¬ rootedAt uf c x := by
        intro c ⟨_, hroot⟩
        unfold isRoot at hroot
        rw [hk2] at hroot
        exact Option.noConfusion hroot
      constructor
      · intro ⟨s, hs1, hs2⟩
        rcases (hfr a s).mp hs1 with h1 | ⟨ha, hsx⟩
        · rcases (hfr b s).mp hs2 with h2 | ⟨hb, hsx⟩
          · exact Or.inl ⟨s, h1, h2⟩
          · exfalso
            exact hnorootx a (hsx ▸ h1)
        · rcases (hfr b s).mp hs2 with h2 | ⟨hb, _⟩
          · exfalso
            exact hnorootx b (hsx ▸ h2)
          · exact Or.inr ⟨ha, hb⟩
      · rintro (⟨s, hs1, hs2⟩ | ⟨ha, hb⟩)
        · exact ⟨s, (hfr a s).mpr (Or.inl hs1), (hfr b s).mpr (Or.inl hs2)⟩
        · exact ⟨x, (hfr a x).mpr (Or.inr ⟨ha, rfl⟩), (hfr b x).mpr (Or.inr ⟨hb, rfl⟩)⟩

/-- `find` on an element whose stored parent is already a root returns
the state unchanged: this is the idempotence of `find` after path
compression. -/
theorem find_stable (uf : UnionFind T) (x r : T)
    (hx : dlookup uf.parent x = some r) (hr : isRoot uf r) :
    uf.find x = some (uf, r) := by
  have hkx : (dlookup uf.parent x).isSome := by rw [hx]; rfl
  have hif : (if (dlookup uf.parent x).isSome then uf
      else (⟨dinsert uf.parent x x, dinsert uf.rank x 0⟩ : UnionFind T)) = uf :=
    if_pos hkx
  unfold UnionFind.find
  rw [findAux]
  simp only [hif]
  simp only [hx]
  by_cases hrx : r = x
  · rw [if_pos hrx, hrx]
  · rw [if_neg hrx]
    have hlen : 1 ≤ uf.parent.length := by
      cases hp : uf.parent with
      | nil => rw [hp] at hx; simp [dlookup] at hx
      | cons a l => simp
    obtain ⟨m, hm⟩ : ∃ m, uf.parent.length = m + 1 := ⟨uf.parent.length - 1, by omega⟩
    have hkr : (dlookup uf.parent r).isSome := by rw [hr]; rfl
    have hifr : (if (dlookup uf.parent r).isSome then uf
        else (⟨dinsert uf.parent r r, dinsert uf.rank r 0⟩ : UnionFind T)) = uf :=
      if_pos hkr
    have hrec : findAux uf.parent.length uf r = some (uf, r) := by
      rw [hm, findAux]
      simp only [hifr]
      rw [hr]
      simp
    rw [hrec]
    simp only [Option.some.injEq, Prod.mk.injEq]
    refine ⟨?_, trivial⟩
    have : dinsert uf.parent x r = uf.parent := dinsert_self_eq _ _ _ hx
    rw [this]

/-- Re-pointing the root `b` at the distinct root `a` (the reattachment
step of `union`) sends every chain that ended at `b` to `a` and leaves
all other chains alone, whatever the new rank table is. -/
theorem reattach_rootedAt {uf : UnionFind T} {a b : T} (ha : isRoot uf a)
    (hb : isRoot uf b) (hab : a ≠ b) (rk : List (T × ℕ)) :
    ∀ z s, rootedAt (UnionFind.mk (dinsert uf.parent b a) rk) z s ↔
      ((rootedAt uf z s ∧ s ≠ b) ∨ (rootedAt uf z b ∧ s = a)) := by
  intro z s
  have hrel : ∀ u v, parentRel (UnionFind.mk (dinsert uf.parent b a) rk) u v ↔
      ((u ≠ b ∧ parentRel uf u v) ∨ (u = b ∧ v = a)) := by
    intro u v
    unfold parentRel
    by_cases hub : u = b
    · subst hub
      show dlookup (dinsert uf.parent u a) u = some v ↔ _
      rw [dlookup_dinsert_self]
      constructor
      · intro h
        exact Or.inr ⟨rfl, ((Option.some.injEq _ _).mp h).symm⟩
      · rintro (⟨hne, _⟩ | ⟨_, hva⟩)
        · exact absurd rfl hne
        · rw [hva]
    · show dlookup (dinsert uf.parent b a) u = some v ↔ _
      rw [dlookup_dinsert_ne _ _ _ _ hub]
      constructor
      · intro h
        exact Or.inl ⟨hub, h⟩
      · rintro (⟨_, h⟩ | ⟨hb2, _⟩)
        · exact h
        · exact absurd hb2 hub
  have hroot' : ∀ s, isRoot (UnionFind.mk (dinsert uf.parent b a) rk) s ↔
      (isRoot uf s ∧ s ≠ b) := by
    intro t
    unfold isRoot
    by_cases htb : t = b
    · subst htb
      show dlookup (dinsert uf.parent t a) t = some t ↔ _
      rw [dlookup_dinsert_self]
      constructor
      · intro h
        exact absurd ((Option.some.injEq _ _).mp h) hab
      · rintro ⟨_, hne⟩
        exact absurd rfl hne
    · show dlookup (dinsert uf.parent b a) t = some t ↔ _
      rw [dlookup_dinsert_ne _ _ _ _ htb]
      exact ⟨fun h => ⟨h, htb⟩, fun h => h.1⟩
  constructor
  · rintro ⟨hchain, hs⟩
    obtain ⟨hsroot, hsb⟩ := (hroot' s).mp hs
    clear hs
    induction hchain using Relation.ReflTransGen.head_induction_on with
    | refl => exact Or.inl ⟨⟨Relation.ReflTransGen.refl, hsroot⟩, hsb⟩
    | head hstep htail ih =>
      rename_i u m
      rcases (hrel u m).mp hstep with ⟨hub, hrel2⟩ | ⟨hub, hma⟩
      · rcases ih with ⟨⟨hm, hmr⟩, hsb2⟩ | ⟨⟨hm, hmr⟩, hsa⟩
        · exact Or.inl ⟨⟨Relation.ReflTransGen.head hrel2 hm, hmr⟩, hsb2⟩
        · exact Or.inr ⟨⟨Relation.ReflTransGen.head hrel2 hm, hmr⟩, hsa⟩
      · subst hub
        rcases ih with ⟨⟨hm, hmr⟩, hsb2⟩ | ⟨⟨hm, hmr⟩, hsa⟩
        · have hsa : s = a := by
            rw [← hma] at ha
            have hsm := root_chain_fix ha hm
            rw [hma] at hsm
            exact hsm
          exact Or.inr ⟨⟨Relation.ReflTransGen.refl, hb⟩, hsa⟩
        · exfalso
          rw [← hma] at ha
          have hbm := root_chain_fix ha hm
          rw [hma] at hbm
          exact hab hbm.symm
  · rintro (⟨⟨hchain, hsroot⟩, hsb⟩ | ⟨⟨hchain, _⟩, hsa⟩)
    · refine ⟨?_, (hroot' s).mpr ⟨hsroot, hsb⟩⟩
      induction hchain using Relation.ReflTransGen.head_induction_on with
      | refl => exact Relation.ReflTransGen.refl
      | head hstep htail ih =>
        rename_i u m
        have hub : u ≠ b := by
          intro h
          rw [h] at hstep
          unfold parentRel at hstep
          unfold isRoot at hb
          rw [hb] at hstep
          have hmb : m = b := ((Option.some.injEq _ _).mp hstep).symm
          rw [hmb] at htail
          exact hsb (root_chain_fix hb htail)
        exact Relation.ReflTransGen.head ((hrel u m).mpr (Or.inl ⟨hub, hstep⟩)) ih
    · rw [hsa]
      refine ⟨?_, (hroot' a).mpr ⟨ha, hab⟩⟩
      induction hchain using Relation.ReflTransGen.head_induction_on with
      | refl =>
        exact Relation.ReflTransGen.single ((hrel b a).mpr (Or.inr ⟨rfl, rfl⟩))
      | head hstep htail ih =>
        rename_i u m
        by_cases hub : u = b
        · rw [hub]
          exact Relation.ReflTransGen.single ((hrel b a).mpr (Or.inr ⟨rfl, rfl⟩))
        · exact Relation.ReflTransGen.head ((hrel u m).mpr (Or.inl ⟨hub, hstep⟩)) ih

/-- `ufSame` is symmetric. -/
theorem ufSame_symm {uf : UnionFind T} {p q : T} (h : ufSame uf p q) :
    ufSame uf q p := by
  obtain ⟨s, h1, h2⟩ := h
  exact ⟨s, h2, h1⟩

/-- `ufSame` is transitive. -/
theorem ufSame_trans {uf : UnionFind T} {p q r : T} (h1 : ufSame uf p q)
    (h2 : ufSame uf q r) : ufSame uf p r := by
  obtain ⟨s1, hp, hq1⟩ := h1
  obtain ⟨s2, hq2, hr⟩ := h2
  have := rootedAt_unique hq1 hq2
  rw [this] at hp
  exact ⟨s2, hp, hr⟩

/-- Being in the same set as a root is exactly being rooted at it. -/
theorem ufSame_root_iff {uf : UnionFind T} {a : T} (ha : isRoot uf a) (p : T) :
    ufSame uf p a ↔ rootedAt uf p a := by
  constructor
  · intro ⟨s, hp, haS⟩
    have hsa : s = a := rootedAt_unique haS ⟨Relation.ReflTransGen.refl, ha⟩
    rw [hsa] at hp
    exact hp
  · intro h
    exact ⟨a, h, Relation.ReflTransGen.refl, ha⟩

/-- The set structure after re-pointing root `b` at root `a`: the two
merged classes, everything else untouched; independent of the rank
table. -/
theorem link_same {uf : UnionFind T} {a b : T} (ha : isRoot uf a)
    (hb : isRoot uf b) (hab : a ≠ b) (rk : List (T × ℕ)) :
    ∀ p q, ufSame (UnionFind.mk (dinsert uf.parent b a) rk) p q ↔
      (ufSame uf p q ∨ (ufSame uf p a ∧ ufSame uf b q) ∨
        (ufSame uf p b ∧ ufSame uf a q)) := by
  intro p q
  have hra := reattach_rootedAt ha hb hab rk
  constructor
  · intro ⟨s, hp, hq⟩
    rcases (hra p s).mp hp with ⟨hp2, hsb⟩ | ⟨hp2, hsa⟩
    · rcases (hra q s).mp hq with ⟨hq2, _⟩ | ⟨hq2, hsa⟩
      · exact Or.inl ⟨s, hp2, hq2⟩
      · rw [hsa] at hp2
        exact Or.inr (Or.inl ⟨⟨a, hp2, Relation.ReflTransGen.refl, ha⟩,
          ⟨b, ⟨Relation.ReflTransGen.refl, hb⟩, hq2⟩⟩)
    · rcases (hra q s).mp hq with ⟨hq2, hsb⟩ | ⟨hq2, _⟩
      · rw [hsa] at hq2
        exact Or.inr (Or.inr ⟨⟨b, hp2, Relation.ReflTransGen.refl, hb⟩,
          ⟨a, ⟨Relation.ReflTransGen.refl, ha⟩, hq2⟩⟩)
      · exact Or.inl ⟨b, hp2, hq2⟩
  · rintro (⟨s, hp, hq⟩ | ⟨hpa, hbq⟩ | ⟨hpb, haq⟩)
    · by_cases hsb : s = b
      · rw [hsb] at hp hq
        exact ⟨a, (hra p a).mpr (Or.inr ⟨hp, rfl⟩), (hra q a).mpr (Or.inr ⟨hq, rfl⟩)⟩
      · exact ⟨s, (hra p s).mpr (Or.inl ⟨hp, hsb⟩), (hra q s).mpr (Or.inl ⟨hq, hsb⟩)⟩
    · have hp2 : rootedAt uf p a := (ufSame_root_iff ha p).mp hpa
      have hq2 : rootedAt uf q b := (ufSame_root_iff hb q).mp (ufSame_symm hbq)
      exact ⟨a, (hra p a).mpr (Or.inl ⟨hp2, hab⟩),
        (hra q a).mpr (Or.inr ⟨hq2, rfl⟩)⟩
    · have hp2 : rootedAt uf p b := (ufSame_root_iff hb p).mp hpb
      have hq2 : rootedAt uf q a := (ufSame_root_iff ha q).mp (ufSame_symm haq)
      exact ⟨a, (hra p a).mpr (Or.inr ⟨hp2, rfl⟩),
        (hra q a).mpr (Or.inl ⟨hq2, hab⟩)⟩

/-- Re-pointing root `b` at the distinct root `a` preserves the
union-find invariant, for any rank table that keeps the same domain,
never decreases, gives `b` a smaller rank than `a`, and changes no
element other than `a`. -/
theorem link_inv {uf : UnionFind T} {a b : T} (hinv : UFInv uf)
    (ha : isRoot uf a) (hb : isRoot uf b) (hab : a ≠ b)
    (rkt : List (T × ℕ))
    (hdom : ∀ z, (dlookup rkt z).isSome ↔ (dlookup uf.rank z).isSome)
    (hmono : ∀ z, (dlookup uf.rank z).getD 0 ≤ (dlookup rkt z).getD 0)
    (hba : (dlookup rkt b).getD 0 < (dlookup rkt a).getD 0)
    (hother : ∀ z, z ≠ a → (dlookup rkt z).getD 0 = (dlookup uf.rank z).getD 0) :
    UFInv (UnionFind.mk (dinsert uf.parent b a) rkt) := by
  have hbk : (dlookup uf.parent b).isSome := by
    unfold isRoot at hb
    rw [hb]
    rfl
  have hkeys : (dinsert uf.parent b a).map Prod.fst = uf.parent.map Prod.fst :=
    dinsert_map_fst_mem _ _ _ hbk
  refine ⟨?_, ?_, ?_, ?_⟩
  · show ((dinsert uf.parent b a).map Prod.fst).Nodup
    rw [hkeys]
    exact hinv.1
  · intro z q hzq
    show (dlookup (dinsert uf.parent b a) q).isSome
    by_cases hqb : q = b
    · rw [hqb, dlookup_dinsert_self]
      rfl
    · rw [dlookup_dinsert_ne _ _ _ _ hqb]
      by_cases hzb : z = b
      · rw [hzb, dlookup_dinsert_self] at hzq
        have hqa : q = a := ((Option.some.injEq _ _).mp hzq).symm
        rw [hqa]
        unfold isRoot at ha
        rw [ha]
        rfl
      · rw [dlookup_dinsert_ne _ _ _ _ hzb] at hzq
        exact hinv.2.1 z q hzq
  · intro z
    show (dlookup (dinsert uf.parent b a) z).isSome ↔ (dlookup rkt z).isSome
    rw [hdom z, ← hinv.2.2.1 z]
    by_cases hzb : z = b
    · rw [hzb, dlookup_dinsert_self]
      unfold isRoot at hb
      rw [hb]
      simp
    · rw [dlookup_dinsert_ne _ _ _ _ hzb]
  · intro z q hzq hqz
    show (dlookup rkt z).getD 0 < (dlookup rkt q).getD 0
    by_cases hzb : z = b
    · rw [hzb] at hzq ⊢
      rw [show dlookup (dinsert uf.parent b a) b = some a from dlookup_dinsert_self _ _ _]
        at hzq
      have hqa : q = a := ((Option.some.injEq _ _).mp hzq).symm
      rw [hqa]
      exact hba
    · have hzq2 : dlookup uf.parent z = some q := by
        rw [← dlookup_dinsert_ne uf.parent b z a hzb]
        exact hzq
      by_cases hza : z = a
      · exfalso
        unfold isRoot at ha
        rw [hza, ha] at hzq2
        exact hqz (((Option.some.injEq _ _).mp hzq2).symm.trans hza.symm)
      · have h1 : (dlookup uf.rank z).getD 0 < (dlookup uf.rank q).getD 0 :=
          hinv.2.2.2 z q hzq2 hqz
        have h2 := hother z hza
        have h3 := hmono q
        omega

/-- Adjoin a (possibly fresh) singleton `x` to a relation: the effect of
`find(x)` on the same-set relation. -/
def extendR (R : T → T → Prop) (x : T) (a b : T) : Prop := R a b ∨ (a = x ∧ b = x)

/-- Merge the classes of `x` and `y` in a relation: the effect of
re-pointing one root at the other. -/
def mergeR (E : T → T → Prop) (x y : T) (a b : T) : Prop :=
  E a b ∨ (E a x ∧ E y b) ∨ (E a y ∧ E x b)

/-- The effect of one `union(x, y)` call on the same-set relation. -/
def unionStepRel (R : T → T → Prop) (x y : T) : T → T → Prop :=
  mergeR (extendR (extendR R x) y) x y

/-- The effect of a sequence of `union` calls on the same-set relation. -/
def extendAll (R : T → T → Prop) : List (T × T) → T → T → Prop
  | [] => R
  | (x, y) :: ps => extendAll (unionStepRel R x y) ps

/-- After re-pointing one of the two roots at the other (in either
orientation), the same-set relation is the merge of the classes of `x`
and `y`. -/
theorem union_same_package {uf2 : UnionFind T} {x y root1 root2 A B : T}
    {E : T → T → Prop}
    (hsameE : ∀ p q, ufSame uf2 p q ↔ E p q)
    (hxr : ufSame uf2 x root1) (hyr : ufSame uf2 y root2)
    (hAB : (A = root1 ∧ B = root2) ∨ (A = root2 ∧ B = root1))
    (ha : isRoot uf2 A) (hb : isRoot uf2 B) (hab : A ≠ B) (rk : List (T × ℕ)) :
    ∀ p q, ufSame (UnionFind.mk (dinsert uf2.parent B A) rk) p q ↔
      mergeR E x y p q := by
  intro p q
  have h1 : ufSame uf2 p root1 ↔ ufSame uf2 p x :=
    ⟨fun h => ufSame_trans h (ufSame_symm hxr), fun h => ufSame_trans h hxr⟩
  have h2 : ufSame uf2 root1 q ↔ ufSame uf2 x q :=
    ⟨fun h => ufSame_trans hxr h, fun h => ufSame_trans (ufSame_symm hxr) h⟩
  have h3 : ufSame uf2 p root2 ↔ ufSame uf2 p y :=
    ⟨fun h => ufSame_trans h (ufSame_symm hyr), fun h => ufSame_trans h hyr⟩
  have h4 : ufSame uf2 root2 q ↔ ufSame uf2 y q :=
    ⟨fun h => ufSame_trans hyr h, fun h => ufSame_trans (ufSame_symm hyr) h⟩
  rw [link_same ha hb hab rk p q]
  simp only [mergeR]
  rw [← hsameE p q, ← hsameE p x, ← hsameE y q, ← hsameE p y, ← hsameE x q]
  rcases hAB with ⟨hA, hB⟩ | ⟨hA, hB⟩
  · rw [hA, hB]
    tauto
  · rw [hA, hB]
    tauto

/-- Full specification of `UnionFind.union`: it always succeeds on a
well-formed state, preserves well-formedness, adds `x` and `y` to the
key set, and the resulting same-set relation is the merge of the
classes of `x` and `y` after adjoining both as (possibly fresh)
singletons. -/
theorem union_spec (uf : UnionFind T) (x y : T) (hinv : UFInv uf) :
    ∃ uf' ok, uf.union x y = some (uf', ok) ∧ UFInv uf' ∧
      (∀ z, z ∈ keysOf uf' ↔ (z ∈ keysOf uf ∨ z = x ∨ z = y)) ∧
      (∀ p q, ufSame uf' p q ↔ unionStepRel (ufSame uf) x y p q) ∧
      (ok = false ↔ (x = y ∨ ufSame uf x y)) := by
  obtain ⟨uf1, root1, hrun1, hinv1, hprank1, hkeys1, hpx1, hroot1, hrooted1, hrt1, hsame1⟩ :=
    find_spec uf x hinv
  obtain ⟨uf2, root2, hrun2, hinv2, hprank2, hkeys2, hpy2, hroot2, hrooted2, hrt2, hsame2⟩ :=
    find_spec uf1 y hinv1
  have hroot1' : isRoot uf2 root1 :=
    ((hrt2 root1 root1).mpr (Or.inl ⟨Relation.ReflTransGen.refl, hroot1⟩)).2
  have hrootedx2 : rootedAt uf2 x root1 := (hrt2 x root1).mpr (Or.inl hrooted1)
  have hxr : ufSame uf2 x root1 :=
    ⟨root1, hrootedx2, Relation.ReflTransGen.refl, hroot1'⟩
  have hyr : ufSame uf2 y root2 :=
    ⟨root2, hrooted2, Relation.ReflTransGen.refl, hroot2⟩
  have hsameE : ∀ p q, ufSame uf2 p q ↔ extendR (extendR (ufSame uf) x) y p q := by
    intro p q
    rw [hsame2 p q]
    simp only [extendR]
    rw [hsame1 p q]
  have hkeysC : ∀ z, z ∈ keysOf uf2 ↔ (z ∈ keysOf uf ∨ z = x ∨ z = y) := by
    intro z
    rw [hkeys2 z, hkeys1 z]
    tauto
  by_cases hroots : root1 = root2
  · have hxy2 : ufSame uf2 x y :=
      ufSame_trans hxr (ufSame_symm (hroots ▸ hyr))
    refine ⟨uf2, false, ?_, hinv2, hkeysC, ?_, ?_⟩
    · unfold UnionFind.union
      rw [hrun1]
      simp only [hrun2]
      rw [if_pos hroots]
    · intro p q
      simp only [unionStepRel, mergeR]
      rw [← hsameE p q, ← hsameE p x, ← hsameE y q, ← hsameE p y, ← hsameE x q]
      constructor
      · exact Or.inl
      · rintro (h | ⟨g1, g2⟩ | ⟨g1, g2⟩)
        · exact h
        · exact ufSame_trans (ufSame_trans g1 hxy2) g2
        · exact ufSame_trans (ufSame_trans g1 (ufSame_symm hxy2)) g2
    · refine ⟨fun _ => ?_, fun _ => rfl⟩
      by_cases hxyeq : x = y
      · exact Or.inl hxyeq
      · right
        rcases (hsameE x y).mp hxy2 with (h | ⟨h1, h2⟩) | ⟨h1, h2⟩
        · exact h
        · exact absurd (h1.trans h2.symm) hxyeq
        · exact absurd h1 hxyeq
  · have hk1 : (dlookup uf2.rank root1).isSome := by
      rw [← hinv2.2.2.1 root1]
      unfold isRoot at hroot1'
      rw [hroot1']
      rfl
    have hk2 : (dlookup uf2.rank root2).isSome := by
      rw [← hinv2.2.2.1 root2]
      unfold isRoot at hroot2
      rw [hroot2]
      rfl
    obtain ⟨rk1, hrk1⟩ := Option.isSome_iff_exists.mp hk1
    obtain ⟨rk2, hrk2⟩ := Option.isSome_iff_exists.mp hk2
    have hb1 : (dlookup uf2.parent root1).isSome := by
      unfold isRoot at hroot1'
      rw [hroot1']
      rfl
    have hb2 : (dlookup uf2.parent root2).isSome := by
      unfold isRoot at hroot2
      rw [hroot2]
      rfl
    have hnotsame : ¬ ufSame uf2 x y := by
      rintro ⟨s, hs1, hs2⟩
      have e1 := rootedAt_unique hs1 hrootedx2
      have e2 := rootedAt_unique hs2 hrooted2
      exact hroots (e1.symm.trans e2)
    have hokt : ((true : Bool) = false ↔ (x = y ∨ ufSame uf x y)) := by
      constructor
      · intro h
        exact absurd h (by simp)
      · rintro (h | h)
        · subst h
          exact absurd (ufSame_trans hxr (ufSame_symm hxr)) hnotsame
        · exact absurd ((hsameE x y).mpr (Or.inl (Or.inl h))) hnotsame
    by_cases hlt : rk1 < rk2
    · -- swap: root2 survives, root1 attaches beneath it, no tie possible
      have hne : ¬((if rk1 < rk2 then rk2 else rk1) = (if rk1 < rk2 then rk1 else rk2)) := by
        rw [if_pos hlt, if_pos hlt]
        omega
      refine ⟨⟨dinsert uf2.parent root1 root2, uf2.rank⟩, true, ?_, ?_, ?_, ?_, hokt⟩
      · unfold UnionFind.union
        rw [hrun1]
        simp only [hrun2]
        rw [if_neg hroots]
        simp only [hrk1, hrk2]
        rw [if_neg hne]
        simp only [if_pos hlt]
      · exact link_inv hinv2 hroot2 hroot1' (fun h => hroots h.symm) uf2.rank
          (fun z => Iff.rfl) (fun z => le_refl _)
          (by rw [hrk1, hrk2]; exact hlt) (fun z _ => rfl)
      · intro z
        show z ∈ (dinsert uf2.parent root1 root2).map Prod.fst ↔ _
        rw [dinsert_map_fst_mem _ _ _ hb1]
        exact hkeysC z
      · exact union_same_package hsameE hxr hyr (Or.inr ⟨rfl, rfl⟩) hroot2 hroot1'
          (fun h => hroots h.symm) uf2.rank
    · by_cases htie : rk1 = rk2
      · -- no swap, tie: root1 survives with its rank bumped
        have hties : (if rk1 < rk2 then rk2 else rk1) = (if rk1 < rk2 then rk1 else rk2) := by
          rw [if_neg hlt, if_neg hlt]
          omega
        refine ⟨⟨dinsert uf2.parent root2 root1,
          dinsert uf2.rank root1 ((if rk1 < rk2 then rk2 else rk1) + 1)⟩, true,
          ?_, ?_, ?_, ?_, hokt⟩
        · unfold UnionFind.union
          rw [hrun1]
          simp only [hrun2]
          rw [if_neg hroots]
          simp only [hrk1, hrk2]
          rw [if_pos hties]
          simp only [if_neg hlt]
        · refine link_inv hinv2 hroot1' hroot2 hroots
            (dinsert uf2.rank root1 ((if rk1 < rk2 then rk2 else rk1) + 1)) ?_ ?_ ?_ ?_
          · intro z
            by_cases hz : z = root1
            · rw [hz, dlookup_dinsert_self, hrk1]
              simp
            · rw [dlookup_dinsert_ne _ _ _ _ hz]
          · intro z
            by_cases hz : z = root1
            · rw [hz, dlookup_dinsert_self, hrk1]
              simp only [Option.getD_some]
              rw [if_neg hlt]
              omega
            · rw [dlookup_dinsert_ne _ _ _ _ hz]
          · rw [dlookup_dinsert_ne _ _ _ _ (fun h => hroots h.symm), dlookup_dinsert_self,
              hrk2]
            simp only [Option.getD_some]
            rw [if_neg hlt]
            omega
          · intro z hz
            rw [dlookup_dinsert_ne _ _ _ _ hz]
        · intro z
          show z ∈ (dinsert uf2.parent root2 root1).map Prod.fst ↔ _
          rw [dinsert_map_fst_mem _ _ _ hb2]
          exact hkeysC z
        · exact union_same_package hsameE hxr hyr (Or.inl ⟨rfl, rfl⟩) hroot1' hroot2
            hroots _
      · -- no swap, no tie: rk2 < rk1, root1 survives unchanged
        have hne : ¬((if rk1 < rk2 then rk2 else rk1) = (if rk1 < rk2 then rk1 else rk2)) := by
          rw [if_neg hlt, if_neg hlt]
          omega
        refine ⟨⟨dinsert uf2.parent root2 root1, uf2.rank⟩, true, ?_, ?_, ?_, ?_, hokt⟩
        · unfold UnionFind.union
          rw [hrun1]
          simp only [hrun2]
          rw [if_neg hroots]
          simp only [hrk1, hrk2]
          rw [if_neg hne]
          simp only [if_neg hlt]
        · exact link_inv hinv2 hroot1' hroot2 hroots uf2.rank
            (fun z => Iff.rfl) (fun z => le_refl _)
            (by rw [hrk1, hrk2]; simp only [Option.getD_some]; omega) (fun z _ => rfl)
        · intro z
          show z ∈ (dinsert uf2.parent root2 root1).map Prod.fst ↔ _
          rw [dinsert_map_fst_mem _ _ _ hb2]
          exact hkeysC z
        · exact union_same_package hsameE hxr hyr (Or.inl ⟨rfl, rfl⟩) hroot1' hroot2
            hroots _

/-- Symmetric-transitive closure of a relation (no added reflexivity):
the "same group" relation generated by a set of union requests, defined
only on elements the requests mention. -/
inductive PGen (R : T → T → Prop) : T → T → Prop
  | base {a b : T} : R a b → PGen R a b
  | symm {a b : T} : PGen R a b → PGen R b a
  | trans {a b c : T} : PGen R a b → PGen R b c → PGen R a c

/-- `PGen` is monotone. -/
theorem PGen_mono {R S : T → T → Prop} (h : ∀ a b, R a b → S a b) :
    ∀ a b, PGen R a b → PGen S a b := by
  intro a b hp
  induction hp with
  | base hr => exact PGen.base (h _ _ hr)
  | symm _ ih => exact PGen.symm ih
  | trans _ _ ih1 ih2 => exact PGen.trans ih1 ih2

/-- `PGen` respects pointwise equivalence of generators. -/
theorem PGen_congr {R S : T → T → Prop} (h : ∀ a b, R a b ↔ S a b) (a b : T) :
    PGen R a b ↔ PGen S a b :=
  ⟨PGen_mono (fun a b => (h a b).mp) a b, PGen_mono (fun a b => (h a b).mpr) a b⟩

/-- Nothing is related by the closure of the empty relation. -/
theorem PGen_false (a b : T) : ¬ PGen (fun _ _ => False) a b := by
  intro hp
  induction hp with
  | base hr => exact hr
  | symm _ ih => exact ih
  | trans _ _ ih1 _ => exact ih1

/-- `extendR` preserves symmetry. -/
theorem extendR_symm {E : T → T → Prop} (hs : ∀ a b, E a b → E b a) (x : T) :
    ∀ a b, extendR E x a b → extendR E x b a := by
  intro a b h
  rcases h with h | ⟨h1, h2⟩
  · exact Or.inl (hs _ _ h)
  · exact Or.inr ⟨h2, h1⟩

/-- `extendR` preserves transitivity. -/
theorem extendR_trans {E : T → T → Prop} (ht : ∀ a b c, E a b → E b c → E a c)
    (x : T) : ∀ a b c, extendR E x a b → extendR E x b c → extendR E x a c := by
  intro a b c h1 h2
  rcases h1 with h1 | ⟨ha, hb⟩
  · rcases h2 with h2 | ⟨hb, hc⟩
    · exact Or.inl (ht _ _ _ h1 h2)
    · rw [hb] at h1
      rw [hc]
      exact Or.inl h1
  · rcases h2 with h2 | ⟨_, hc⟩
    · rw [hb] at h2
      rw [ha]
      exact Or.inl h2
    · exact Or.inr ⟨ha, hc⟩

/-- `mergeR` preserves symmetry. -/
theorem mergeR_symm {E : T → T → Prop} (hs : ∀ a b, E a b → E b a) (x y : T) :
    ∀ a b, mergeR E x y a b → mergeR E x y b a := by
  intro a b h
  rcases h with h | ⟨h1, h2⟩ | ⟨h1, h2⟩
  · exact Or.inl (hs _ _ h)
  · exact Or.inr (Or.inr ⟨hs _ _ h2, hs _ _ h1⟩)
  · exact Or.inr (Or.inl ⟨hs _ _ h2, hs _ _ h1⟩)

/-- `mergeR` preserves transitivity (given symmetry). -/
theorem mergeR_trans {E : T → T → Prop} (hs : ∀ a b, E a b → E b a)
    (ht : ∀ a b c, E a b → E b c → E a c) (x y : T) :
    ∀ a b c, mergeR E x y a b → mergeR E x y b c → mergeR E x y a c := by
  intro a b c h1 h2
  rcases h1 with h1 | ⟨g1, g2⟩ | ⟨g1, g2⟩
  · rcases h2 with h2 | ⟨k1, k2⟩ | ⟨k1, k2⟩
    · exact Or.inl (ht _ _ _ h1 h2)
    · exact Or.inr (Or.inl ⟨ht _ _ _ h1 k1, k2⟩)
    · exact Or.inr (Or.inr ⟨ht _ _ _ h1 k1, k2⟩)
  · rcases h2 with h2 | ⟨k1, k2⟩ | ⟨k1, k2⟩
    · exact Or.inr (Or.inl ⟨g1, ht _ _ _ g2 h2⟩)
    · exact Or.inl (ht _ _ _ g1 (ht _ _ _ (hs _ _ (ht _ _ _ g2 k1)) k2))
    · exact Or.inl (ht _ _ _ g1 k2)
  · rcases h2 with h2 | ⟨k1, k2⟩ | ⟨k1, k2⟩
    · exact Or.inr (Or.inr ⟨g1, ht _ _ _ g2 h2⟩)
    · exact Or.inl (ht _ _ _ g1 k2)
    · exact Or.inl (ht _ _ _ g1 (ht _ _ _ (hs _ _ (ht _ _ _ g2 k1)) k2))

/-- The symmetric relation a list of union requests induces on
elements: the two members of some listed pair, in either order. -/
def pairsRel (ps : List (T × T)) (u v : T) : Prop := (u, v) ∈ ps ∨ (v, u) ∈ ps

/-- An element some listed pair mentions. -/
def refOf (ps : List (T × T)) (a : T) : Prop := ∃ p ∈ ps, p.1 = a ∨ p.2 = a

/-- One `union(x, y)` step turns a closure-described same-set relation
into the closure with the pair `{x, y}` adjoined. -/
theorem unionStep_pgen {E S : T → T → Prop} (hE : ∀ a b, E a b ↔ PGen S a b)
    (x y : T) : ∀ a b, unionStepRel E x y a b ↔
      PGen (fun u v => S u v ∨ (u = x ∧ v = y) ∨ (u = y ∧ v = x)) a b := by
  intro a b
  have hxy : PGen (fun u v => S u v ∨ (u = x ∧ v = y) ∨ (u = y ∧ v = x)) x y :=
    PGen.base (Or.inr (Or.inl ⟨rfl, rfl⟩))
  have hyx : PGen (fun u v => S u v ∨ (u = x ∧ v = y) ∨ (u = y ∧ v = x)) y x :=
    PGen.base (Or.inr (Or.inr ⟨rfl, rfl⟩))
  have hEs : ∀ a b, E a b → E b a := fun a b h => (hE b a).mpr (PGen.symm ((hE a b).mp h))
  have hEt : ∀ a b c, E a b → E b c → E a c :=
    fun a b c h1 h2 => (hE a c).mpr (PGen.trans ((hE a b).mp h1) ((hE b c).mp h2))
  have hE2 : ∀ a b, extendR (extendR E x) y a b →
      PGen (fun u v => S u v ∨ (u = x ∧ v = y) ∨ (u = y ∧ v = x)) a b := by
    intro a b h
    rcases h with (h | ⟨ha, hb⟩) | ⟨ha, hb⟩
    · exact PGen_mono (fun u v h => Or.inl h) a b ((hE a b).mp h)
    · rw [ha, hb]
      exact PGen.trans hxy hyx
    · rw [ha, hb]
      exact PGen.trans hyx hxy
  constructor
  · intro h
    rcases h with h | ⟨h1, h2⟩ | ⟨h1, h2⟩
    · exact hE2 a b h
    · exact PGen.trans (PGen.trans (hE2 a x h1) hxy) (hE2 y b h2)
    · exact PGen.trans (PGen.trans (hE2 a y h1) hyx) (hE2 x b h2)
  · intro h
    induction h with
    | base hr =>
      rcases hr with hr | ⟨hu, hv⟩ | ⟨hu, hv⟩
      · exact Or.inl (Or.inl (Or.inl ((hE _ _).mpr (PGen.base hr))))
      · rw [hu, hv]
        exact Or.inr (Or.inl ⟨Or.inl (Or.inr ⟨rfl, rfl⟩), Or.inr ⟨rfl, rfl⟩⟩)
      · rw [hu, hv]
        exact Or.inr (Or.inr ⟨Or.inr ⟨rfl, rfl⟩, Or.inl (Or.inr ⟨rfl, rfl⟩)⟩)
    | symm _ ih =>
      exact mergeR_symm (extendR_symm (extendR_symm hEs x) y) x y _ _ ih
    | trans _ _ ih1 ih2 =>
      exact mergeR_trans (extendR_symm (extendR_symm hEs x) y)
        (extendR_trans (extendR_trans hEt x) y) x y _ _ _ ih1 ih2

/-- A whole sequence of `union` steps turns a closure-described
same-set relation into the closure with all listed pairs adjoined. -/
theorem extendAll_pgen : ∀ (ps : List (T × T)) (E S : T → T → Prop),
    (∀ a b, E a b ↔ PGen S a b) →
    ∀ a b, extendAll E ps a b ↔
      PGen (fun u v => S u v ∨ pairsRel ps u v) a b := by
  intro ps
  induction ps with
  | nil =>
    intro E S hE a b
    show E a b ↔ _
    rw [hE a b]
    refine PGen_congr (fun u v => ?_) a b
    simp [pairsRel]
  | cons p ps ih =>
    obtain ⟨x, y⟩ := p
    intro E S hE a b
    show extendAll (unionStepRel E x y) ps a b ↔ _
    rw [ih (unionStepRel E x y)
      (fun u v => S u v ∨ (u = x ∧ v = y) ∨ (u = y ∧ v = x))
      (unionStep_pgen hE x y) a b]
    refine PGen_congr (fun u v => ?_) a b
    simp only [pairsRel, List.mem_cons, Prod.mk.injEq]
    constructor
    · rintro ((h | h | h) | (h | h))
      · exact Or.inl h
      · exact Or.inr (Or.inl (Or.inl ⟨h.1, h.2⟩))
      · exact Or.inr (Or.inr (Or.inl ⟨h.2, h.1⟩))
      · exact Or.inr (Or.inl (Or.inr h))
      · exact Or.inr (Or.inr (Or.inr h))
    · rintro (h | (h | h) | (h | h))
      · exact Or.inl (Or.inl h)
      · exact Or.inl (Or.inr (Or.inl ⟨h.1, h.2⟩))
      · exact Or.inr (Or.inl h)
      · exact Or.inl (Or.inr (Or.inr ⟨h.2, h.1⟩))
      · exact Or.inr (Or.inr h)

/-- `unionStepRel` respects pointwise equivalence. -/
theorem unionStep_congr {R S : T → T → Prop} (h : ∀ a b, R a b ↔ S a b)
    (x y : T) : ∀ a b, unionStepRel R x y a b ↔ unionStepRel S x y a b := by
  intro a b
  simp only [unionStepRel, mergeR, extendR]
  rw [h a b, h a x, h y b, h a y, h x b]

/-- `extendAll` respects pointwise equivalence. -/
theorem extendAll_congr : ∀ (ps : List (T × T)) (R S : T → T → Prop),
    (∀ a b, R a b ↔ S a b) →
    ∀ a b, extendAll R ps a b ↔ extendAll S ps a b := by
  intro ps
  induction ps with
  | nil => exact fun R S h a b => h a b
  | cons p ps ih =>
    obtain ⟨x, y⟩ := p
    intro R S h a b
    exact ih _ _ (unionStep_congr h x y) a b

/-- The "same group" relation a list of union requests describes: both
elements are mentioned and the equivalence closure of the pair relation
links them. -/
def groupsRel (ps : List (T × T)) (a b : T) : Prop :=
  refOf ps a ∧ refOf ps b ∧ Relation.EqvGen (pairsRel ps) a b

/-- A mentioned element is in its own group. -/
theorem pgen_refl_of_refOf {ps : List (T × T)} {a : T} (h : refOf ps a) :
    PGen (pairsRel ps) a a := by
  obtain ⟨p, hmem, hp⟩ := h
  rcases hp with hp | hp
  · have hb : PGen (pairsRel ps) a p.2 := PGen.base (Or.inl (by rw [← hp]; exact hmem))
    exact PGen.trans hb (PGen.symm hb)
  · have hb : PGen (pairsRel ps) p.1 a := PGen.base (Or.inl (by rw [← hp]; exact hmem))
    exact PGen.trans (PGen.symm hb) hb

/-- The symmetric-transitive closure of the pair relation is exactly
the "same group" relation: the equivalence closure restricted to
mentioned elements. -/
theorem PGen_iff_groupsRel (ps : List (T × T)) (a b : T) :
    PGen (pairsRel ps) a b ↔ groupsRel ps a b := by
  constructor
  · intro h
    induction h with
    | base hr =>
      rename_i u v
      have hu : refOf ps u := by
        rcases hr with hr | hr
        · exact ⟨(u, v), hr, Or.inl rfl⟩
        · exact ⟨(v, u), hr, Or.inr rfl⟩
      have hv : refOf ps v := by
        rcases hr with hr | hr
        · exact ⟨(u, v), hr, Or.inr rfl⟩
        · exact ⟨(v, u), hr, Or.inl rfl⟩
      exact ⟨hu, hv, Relation.EqvGen.rel _ _ hr⟩
    | symm _ ih => exact ⟨ih.2.1, ih.1, Relation.EqvGen.symm _ _ ih.2.2⟩
    | trans _ _ ih1 ih2 => exact ⟨ih1.1, ih2.2.1, Relation.EqvGen.trans _ _ _ ih1.2.2 ih2.2.2⟩
  · rintro ⟨ha, hb, heq⟩
    have key : a = b ∨ PGen (pairsRel ps) a b := by
      clear ha hb
      induction heq with
      | rel u v hr => exact Or.inr (PGen.base hr)
      | refl u => exact Or.inl rfl
      | symm u v _ ih =>
        rcases ih with ih | ih
        · exact Or.inl ih.symm
        · exact Or.inr (PGen.symm ih)
      | trans u v w _ _ ih1 ih2 =>
        rcases ih1 with ih1 | ih1
        · rw [ih1]
          exact ih2
        · rcases ih2 with ih2 | ih2
          · rw [← ih2]
            exact Or.inr ih1
          · exact Or.inr (PGen.trans ih1 ih2)
    rcases key with key | key
    · rw [key]
      exact pgen_refl_of_refOf hb
    · exact key

/-- The empty union-find state relates nothing to anything. -/
theorem ufSame_empty (a b : T) : ¬ ufSame (UnionFind.empty : UnionFind T) a b := by
  rintro ⟨s, _, _, hroot⟩
  unfold isRoot UnionFind.empty at hroot
  simp [dlookup] at hroot

/-- The empty union-find state is well formed. -/
theorem UFInv_empty : UFInv (UnionFind.empty : UnionFind T) := by
  refine ⟨?_, ?_, ?_, ?_⟩
  · simp [UnionFind.empty]
  · intro x p h
    simp [UnionFind.empty, dlookup] at h
  · intro x
    simp [UnionFind.empty, dlookup]
  · intro x p h
    simp [UnionFind.empty, dlookup] at h

/-- Running a list of `union` calls from a well-formed state always
succeeds, preserves well-formedness, adds every mentioned element as a
key, and composes the per-call effects on the same-set relation. -/
theorem runUnionsAux_spec : ∀ (ps : List (T × T)) (uf : UnionFind T), UFInv uf →
    ∃ uf', runUnionsAux uf ps = some uf' ∧ UFInv uf' ∧
      (∀ z, z ∈ keysOf uf' ↔ (z ∈ keysOf uf ∨ refOf ps z)) ∧
      (∀ p q, ufSame uf' p q ↔ extendAll (ufSame uf) ps p q) := by
  intro ps
  induction ps with
  | nil =>
    intro uf hinv
    refine ⟨uf, rfl, hinv, ?_, fun p q => Iff.rfl⟩
    intro z
    simp [refOf]
  | cons p ps ih =>
    obtain ⟨x, y⟩ := p
    intro uf hinv
    obtain ⟨uf1, ok, hrun1, hinv1, hkeys1, hsame1, _⟩ := union_spec uf x y hinv
    obtain ⟨uf', hrun', hinv', hkeys', hsame'⟩ := ih uf1 hinv1
    refine ⟨uf', ?_, hinv', ?_, ?_⟩
    · show runUnionsAux uf ((x, y) :: ps) = some uf'
      unfold runUnionsAux
      rw [hrun1]
      exact hrun'
    · intro z
      rw [hkeys' z, hkeys1 z]
      simp only [refOf, List.mem_cons]
      constructor
      · rintro ((h | h | h) | h)
        · exact Or.inl h
        · exact Or.inr ⟨(x, y), Or.inl rfl, Or.inl h.symm⟩
        · exact Or.inr ⟨(x, y), Or.inl rfl, Or.inr h.symm⟩
        · obtain ⟨q, hq1, hq2⟩ := h
          exact Or.inr ⟨q, Or.inr hq1, hq2⟩
      · rintro (h | ⟨q, hq1 | hq1, hq2⟩)
        · exact Or.inl (Or.inl h)
        · rw [hq1] at hq2
          rcases hq2 with h2 | h2
          · exact Or.inl (Or.inr (Or.inl h2.symm))
          · exact Or.inl (Or.inr (Or.inr h2.symm))
        · exact Or.inr ⟨q, hq1, hq2⟩
    · intro p q
      show ufSame uf' p q ↔ extendAll (ufSame uf) ((x, y) :: ps) p q
      rw [hsame' p q]
      exact extendAll_congr ps _ _ hsame1 p q

/-- C9: for every sequence of union operations, the run succeeds and
partitions exactly the referenced elements; the distinct roots are in
bijection with the groups (each group of the partition the pairs
generate contains exactly one root); `find` maps every referenced
element to the root of its own group; and `find` is idempotent: an
immediate second `find` on the same element, with no intervening
`union`, returns the same root and leaves the state unchanged. -/
theorem union_find_k_groups_k_roots_find_idempotent (pairs : List (T × T)) :
    ∃ uf, runUnions pairs = some uf ∧
      (rootsOf uf).Nodup ∧
      (∀ z, z ∈ keysOf uf ↔ refOf pairs z) ∧
      (∀ z, refOf pairs z → ∃! r, r ∈ rootsOf uf ∧ groupsRel pairs z r) ∧
      (∀ z, refOf pairs z → ∃ uf1 r, uf.find z = some (uf1, r) ∧
        r ∈ rootsOf uf ∧ groupsRel pairs z r ∧ uf1.find z = some (uf1, r)) := by
  obtain ⟨uf, hrun, hinv, hkeys, hsame⟩ :=
    runUnionsAux_spec pairs UnionFind.empty UFInv_empty
  have hkeys2 : ∀ z, z ∈ keysOf uf ↔ refOf pairs z := by
    intro z
    rw [hkeys z]
    simp [keysOf, UnionFind.empty]
  have hsameG : ∀ p q, ufSame uf p q ↔ groupsRel pairs p q := by
    intro p q
    rw [hsame p q]
    rw [extendAll_pgen pairs (ufSame UnionFind.empty) (fun _ _ => False)
      (fun a b => ⟨fun h => absurd h (ufSame_empty a b),
        fun h => absurd h (PGen_false a b)⟩) p q]
    rw [PGen_congr (fun u v => iff_of_eq (false_or (pairsRel pairs u v))) p q]
    exact PGen_iff_groupsRel pairs p q
  have hrootMem : ∀ r, r ∈ rootsOf uf ↔ (r ∈ keysOf uf ∧ isRoot uf r) := by
    intro r
    unfold rootsOf isRoot
    rw [List.mem_filter]
    simp only [decide_eq_true_eq]
  have hfind : ∀ z, refOf pairs z → ∃ uf1 r, uf.find z = some (uf1, r) ∧
      r ∈ rootsOf uf ∧ groupsRel pairs z r ∧ uf1.find z = some (uf1, r) := by
    intro z hz
    have hzk : (dlookup uf.parent z).isSome := by
      rw [dlookup_isSome_iff]
      exact (hkeys2 z).mpr hz
    obtain ⟨uf1, r, hrun1, hinv1, hprank1, hkeysF, hpz, hrootr, hrootedz, hrt, hsameF⟩ :=
      find_spec uf z hinv
    have hrooted0 : rootedAt uf z r := by
      rcases (hrt z r).mp hrootedz with h | ⟨_, _, hnone⟩
      · exact h
      · rw [hnone] at hzk
        simp at hzk
    have hrk : r ∈ keysOf uf := by
      unfold keysOf
      rw [← dlookup_isSome_iff]
      unfold isRoot at hrooted0
      rw [hrooted0.2]
      rfl
    refine ⟨uf1, r, hrun1, (hrootMem r).mpr ⟨hrk, hrooted0.2⟩, ?_,
      find_stable uf1 z r hpz hrootr⟩
    exact (hsameG z r).mp ⟨r, hrooted0, Relation.ReflTransGen.refl, hrooted0.2⟩
  refine ⟨uf, hrun, ?_, hkeys2, ?_, hfind⟩
  · exact List.Nodup.filter _ hinv.1
  · intro z hz
    obtain ⟨uf1, r, _, hrmem, hgr, _⟩ := hfind z hz
    refine ⟨r, ⟨hrmem, hgr⟩, ?_⟩
    rintro r' ⟨hr'mem, hgr'⟩
    obtain ⟨_, hr'root⟩ := (hrootMem r').mp hr'mem
    obtain ⟨_, hrroot⟩ := (hrootMem r).mp hrmem
    have h1 : ufSame uf z r := (hsameG z r).mpr hgr
    have h2 : ufSame uf z r' := (hsameG z r').mpr hgr'
    have h3 : ufSame uf r' r := ufSame_trans (ufSame_symm h2) h1
    obtain ⟨s, hs1, hs2⟩ := h3
    have e1 : s = r' := root_chain_fix hr'root hs1.1
    have e2 : s = r := root_chain_fix hrroot hs2.1
    rw [← e1, e2]

/-! ## Dijkstra optimality (C1) -/

/-- All weights the adjacency callable reports are non-negative. -/
def nonnegW (adjs : Node → List (Node × ℚ)) : Prop :=
  ∀ u, ∀ p ∈ adjs u, 0 ≤ p.2

/-- A walk from `u` to `t` of total weight `c`, stepping along entries
of the adjacency callable. -/
inductive Walk (adjs : Node → List (Node × ℚ)) : Node → Node → ℚ → Prop
  | nil (u : Node) : Walk adjs u u 0
  | cons {u t : Node} {w c c' : ℚ} (v : Node) :
      (v, w) ∈ adjs u → Walk adjs v t c → c' = w + c → Walk adjs u t c'

/-- A node list (of length at least one) that is a walk of total
weight `c`. -/
inductive WalkL (adjs : Node → List (Node × ℚ)) : List Node → ℚ → Prop
  | single (u : Node) : WalkL adjs [u] 0
  | cons {u v : Node} {rest : List Node} {w c c' : ℚ} :
      (v, w) ∈ adjs u → WalkL adjs (v :: rest) c → c' = w + c →
      WalkL adjs (u :: v :: rest) c'

/-- Walks have non-negative total weight when all weights are
non-negative. -/
theorem walk_nonneg {adjs : Node → List (Node × ℚ)} (hw : nonnegW adjs)
    {u t : Node} {c : ℚ} (h : Walk adjs u t c) : 0 ≤ c := by
  induction h with
  | nil => exact le_refl 0
  | cons v hmem _ hc ih =>
    have := hw _ _ hmem
    rw [hc]
    linarith

/-- Extend a walk by one edge at the end. -/
theorem walk_snoc {adjs : Node → List (Node × ℚ)} {s u : Node} {c : ℚ}
    (h : Walk adjs s u c) {v : Node} {w c' : ℚ} (hmem : (v, w) ∈ adjs u)
    (hc : c' = c + w) : Walk adjs s v c' := by
  induction h generalizing c' with
  | nil => exact Walk.cons v hmem (Walk.nil v) (by rw [hc]; ring)
  | cons x hx hwalk hcc ih =>
    exact Walk.cons x hx (ih hmem rfl) (by rw [hc, hcc]; ring)

/-- A walk list is a walk from its head to its last element. -/
theorem walkL_to_walk {adjs : Node → List (Node × ℚ)} :
    ∀ {l : List Node} {c : ℚ}, WalkL adjs l c →
      ∀ {u v : Node}, l.head? = some u → l.getLast? = some v →
      Walk adjs u v c := by
  intro l c h
  induction h with
  | single x =>
    intro u v hu hv
    simp only [List.head?_cons, Option.some.injEq] at hu
    simp only [List.getLast?_singleton, Option.some.injEq] at hv
    rw [← hu, ← hv]
    exact Walk.nil x
  | cons hmem hwalk hc ih =>
    rename_i x y rest w c0 c1
    intro u v hu hv
    simp only [List.head?_cons, Option.some.injEq] at hu
    have hv2 : (y :: rest).getLast? = some v := by
      rw [← hv]
      exact List.getLast?_cons_cons.symm
    exact Walk.cons y (hu ▸ hmem) (ih rfl hv2) hc

/-- Extend a walk list by one edge at the end. -/
theorem walkL_snoc {adjs : Node → List (Node × ℚ)} :
    ∀ {l : List Node} {c : ℚ}, WalkL adjs l c →
      ∀ {p v : Node} {w c' : ℚ}, l.getLast? = some p → (v, w) ∈ adjs p →
      c' = c + w → WalkL adjs (l ++ [v]) c' := by
  intro l c h
  induction h with
  | single x =>
    intro p v w c' hlast hmem hc
    simp only [List.getLast?_singleton, Option.some.injEq] at hlast
    rw [hlast]
    exact WalkL.cons hmem (WalkL.single v) (by rw [hc]; ring)
  | cons hmem0 hwalk hc0 ih =>
    rename_i x y rest w0 c0 c1
    intro p v w c' hlast hmem hc
    have hlast2 : (y :: rest).getLast? = some p := by
      rw [← hlast]
      exact List.getLast?_cons_cons.symm
    have := ih hlast2 hmem (rfl : c0 + w = c0 + w)
    exact WalkL.cons hmem0 this (by rw [hc, hc0]; ring)

/-- Looking up the updated point. -/
theorem updf_self {α β : Type} [DecidableEq α] (f : α → Option β) (x : α) (v : β) :
    updf f x v x = some v := by
  simp [updf]

/-- Looking up any other point. -/
theorem updf_ne {α β : Type} [DecidableEq α] (f : α → Option β) (x : α) (v : β)
    {y : α} (h : y ≠ x) : updf f x v y = f y := by
  simp [updf, h]

/-- A true `dist < dists.get(adj, inf)` test against a present value is
a strict inequality. -/
theorem ltInf_true_lt {x : ℚ} {o : Option ℚ} (h : ltInf x o = true) :
    ∀ d, o = some d → x < d := by
  intro d hd
  rw [hd] at h
  simpa [ltInf] using h

/-- A false `dist < dists.get(adj, inf)` test means a present value at
most `dist`. -/
theorem ltInf_false_le {x : ℚ} {o : Option ℚ} (h : ltInf x o = false) :
    ∃ d, o = some d ∧ d ≤ x := by
  cases o with
  | none => simp [ltInf] at h
  | some d =>
    refine ⟨d, rfl, ?_⟩
    simp only [ltInf, decide_eq_false_iff_not, not_lt] at h
    exact h

/-- The running invariant of the Dijkstra loop, minus the
relaxed-edges condition (restored separately after each relaxation
pass): every recorded distance is a walk cost, the source stays at
distance zero, visited nodes carry minimal distances, queue entries
bound the current distance of their node from above, every unvisited
node's current distance is witnessed verbatim in the queue, every
recorded distance is realized by the stored parent link, and parent
links point into the visited list at strictly smaller positions. -/
structure DInv (source : Node) (adjs : Node → List (Node × ℚ))
    (s : SPState Node) : Prop where
  reach : ∀ v dv, s.dists v = some dv → Walk adjs source v dv
  src : s.dists source = some 0
  settledMin : ∀ v ∈ s.visited, ∃ dv, s.dists v = some dv ∧
    ∀ c, Walk adjs source v c → dv ≤ c
  qDist : ∀ en ∈ s.q, ∃ dv, s.dists en.2.2 = some dv ∧ dv ≤ en.1
  qWitness : ∀ v, v ∉ s.visited → ∀ dv, s.dists v = some dv →
    ∃ cnt, (dv, cnt, v) ∈ s.q
  parentChain : ∀ v dv, s.dists v = some dv → v = source ∨
    ∃ p w dp, s.parent v = some p ∧ (v, w) ∈ adjs p ∧ s.dists p = some dp ∧
      dp + w ≤ dv
  parentVis : ∀ v p, s.parent v = some p → p ∈ s.visited ∧
    (v ∈ s.visited → s.visited.indexOf p < s.visited.indexOf v)

/-- All edges out of `x` have been relaxed against `x`'s current
distance. -/
def relaxedAt (adjs : Node → List (Node × ℚ)) (s : SPState Node) (x : Node) :
    Prop :=
  ∀ p ∈ adjs x, ∃ dx du, s.dists x = some dx ∧ s.dists p.1 = some du ∧
    du ≤ dx + p.2

/-- One relaxation step from a settled node preserves the invariant,
leaves the visited list and all settled distances unchanged, only ever
decreases distances, and leaves the relaxed neighbor's distance at
most `dists[curr] + w`. -/
theorem relaxD_step {adjs : Node → List (Node × ℚ)} (hw : nonnegW adjs)
    {source : Node} {s : SPState Node} {curr : Node}
    (hinv : DInv source adjs s) (hcurr : curr ∈ s.visited)
    {e : Node × ℚ} (he : e ∈ adjs curr) :
    DInv source adjs (relaxD curr s e) ∧
    (relaxD curr s e).visited = s.visited ∧
    (∀ v dv0, s.dists v = some dv0 →
      ∃ dv, (relaxD curr s e).dists v = some dv ∧ dv ≤ dv0) ∧
    (∀ v, v ∈ s.visited → (relaxD curr s e).dists v = s.dists v) ∧
    (∃ dx du, (relaxD curr s e).dists curr = some dx ∧
      (relaxD curr s e).dists e.1 = some du ∧ du ≤ dx + e.2) := by
  obtain ⟨dc, hdc, hmin⟩ := hinv.settledMin curr hcurr
  have hee : (e.1, e.2) ∈ adjs curr := by
    rw [Prod.mk.eta]
    exact he
  by_cases hlt : ltInf (dc + e.2) (s.dists e.1) = true
  · -- strict improvement: the state is updated
    have hrel : relaxD curr s e =
        { dists := updf s.dists e.1 (dc + e.2)
          parent := updf s.parent e.1 curr
          visited := s.visited
          counter := s.counter + 1
          q := s.q ++ [(dc + e.2, s.counter + 1, e.1)] } := by
      simp only [relaxD, hdc]
      rw [if_pos hlt]
    have hd' : (relaxD curr s e).dists = updf s.dists e.1 (dc + e.2) := by rw [hrel]
    have hp' : (relaxD curr s e).parent = updf s.parent e.1 curr := by rw [hrel]
    have hv' : (relaxD curr s e).visited = s.visited := by rw [hrel]
    have hq' : (relaxD curr s e).q = s.q ++ [(dc + e.2, s.counter + 1, e.1)] := by
      rw [hrel]
    have hwalkc : Walk adjs source e.1 (dc + e.2) :=
      walk_snoc (hinv.reach curr dc hdc) hee rfl
    have hu_nvis : e.1 ∉ s.visited := by
      intro hmem
      obtain ⟨du, hdu, hminu⟩ := hinv.settledMin e.1 hmem
      have h1 := ltInf_true_lt hlt du hdu
      have h2 := hminu _ hwalkc
      linarith
    have hu_ne_src : e.1 ≠ source := by
      intro h
      have h1 := ltInf_true_lt hlt 0 (h ▸ hinv.src)
      have h2 := walk_nonneg hw hwalkc
      linarith
    have hc_ne : curr ≠ e.1 := fun h => hu_nvis (h ▸ hcurr)
    refine ⟨⟨?_, ?_, ?_, ?_, ?_, ?_, ?_⟩, hv', ?_, ?_, ?_⟩
    · intro v dv hv
      rw [hd'] at hv
      by_cases hvx : v = e.1
      · rw [hvx, updf_self] at hv
        injection hv with hv
        rw [← hv, hvx]
        exact hwalkc
      · rw [updf_ne _ _ _ hvx] at hv
        exact hinv.reach v dv hv
    · rw [hd', updf_ne _ _ _ (fun h => hu_ne_src h.symm)]
      exact hinv.src
    · rw [hd', hv']
      intro v hv
      obtain ⟨dv, hdv, hminv⟩ := hinv.settledMin v hv
      have hvx : v ≠ e.1 := fun h => hu_nvis (h ▸ hv)
      exact ⟨dv, by rw [updf_ne _ _ _ hvx]; exact hdv, hminv⟩
    · rw [hd', hq']
      intro en hen
      rcases List.mem_append.mp hen with hen | hen
      · obtain ⟨dv, hdv, hle⟩ := hinv.qDist en hen
        by_cases hvx : en.2.2 = e.1
        · refine ⟨dc + e.2, by rw [hvx, updf_self], ?_⟩
          rw [hvx] at hdv
          have := ltInf_true_lt hlt dv hdv
          linarith
        · exact ⟨dv, by rw [updf_ne _ _ _ hvx]; exact hdv, hle⟩
      · rw [List.mem_singleton] at hen
        rw [hen]
        exact ⟨dc + e.2, updf_self _ _ _, le_refl _⟩
    · rw [hd', hv', hq']
      intro v hvn dv hdv
      by_cases hvx : v = e.1
      · rw [hvx, updf_self] at hdv
        injection hdv with hdv
        refine ⟨s.counter + 1, ?_⟩
        rw [hvx, hdv]
        exact List.mem_append_right _ (List.mem_singleton.mpr rfl)
      · rw [updf_ne _ _ _ hvx] at hdv
        obtain ⟨cnt, hmem⟩ := hinv.qWitness v hvn dv hdv
        exact ⟨cnt, List.mem_append_left _ hmem⟩
    · rw [hd', hp']
      intro v dv hdv
      by_cases hvx : v = e.1
      · right
        refine ⟨curr, e.2, dc, ?_, ?_, ?_, ?_⟩
        · rw [hvx, updf_self]
        · rw [hvx]
          exact hee
        · rw [updf_ne _ _ _ hc_ne]
          exact hdc
        · rw [hvx, updf_self] at hdv
          injection hdv with hdv
          rw [hdv]
      · rw [updf_ne _ _ _ hvx] at hdv
        rcases hinv.parentChain v dv hdv with h | ⟨p, w, dp, hp, hmemp, hdp, hle⟩
        · exact Or.inl h
        · right
          by_cases hpx : p = e.1
          · refine ⟨p, w, dc + e.2, by rw [updf_ne _ _ _ hvx]; exact hp, hmemp,
              by rw [hpx, updf_self], ?_⟩
            have := ltInf_true_lt hlt dp (hpx ▸ hdp)
            linarith
          · exact ⟨p, w, dp, by rw [updf_ne _ _ _ hvx]; exact hp, hmemp,
              by rw [updf_ne _ _ _ hpx]; exact hdp, hle⟩
    · rw [hp', hv']
      intro v p hp
      by_cases hvx : v = e.1
      · rw [hvx, updf_self] at hp
        injection hp with hp
        rw [← hp]
        exact ⟨hcurr, fun hmem => absurd (hvx ▸ hmem) hu_nvis⟩
      · rw [updf_ne _ _ _ hvx] at hp
        exact hinv.parentVis v p hp
    · rw [hd']
      intro v dv0 hdv0
      by_cases hvx : v = e.1
      · refine ⟨dc + e.2, by rw [hvx, updf_self], ?_⟩
        have := ltInf_true_lt hlt dv0 (hvx ▸ hdv0)
        linarith
      · exact ⟨dv0, by rw [updf_ne _ _ _ hvx]; exact hdv0, le_refl _⟩
    · rw [hd']
      intro v hv
      have hvx : v ≠ e.1 := fun h => hu_nvis (h ▸ hv)
      rw [updf_ne _ _ _ hvx]
    · rw [hd']
      refine ⟨dc, dc + e.2, by rw [updf_ne _ _ _ hc_ne]; exact hdc, updf_self _ _ _,
        le_refl _⟩
  · -- no improvement: the state is unchanged
    have hrel : relaxD curr s e = s := by
      simp only [relaxD, hdc]
      rw [if_neg hlt]
    rw [hrel]
    obtain ⟨du, hdu, hle⟩ := ltInf_false_le (Bool.eq_false_iff.mpr hlt)
    exact ⟨hinv, rfl, fun v dv0 h => ⟨dv0, h, le_refl _⟩, fun v _ => rfl,
      ⟨dc, du, hdc, hdu, hle⟩⟩

/-- A full relaxation pass from a settled node preserves the
invariant, freezes the visited list and settled distances, only
decreases distances, and leaves every processed edge relaxed. -/
theorem foldl_relaxD_inv {adjs : Node → List (Node × ℚ)} (hw : nonnegW adjs)
    {source : Node} :
    ∀ (L : List (Node × ℚ)) {s : SPState Node} {curr : Node},
      DInv source adjs s → curr ∈ s.visited → (∀ p ∈ L, p ∈ adjs curr) →
      DInv source adjs (L.foldl (relaxD curr) s) ∧
      (L.foldl (relaxD curr) s).visited = s.visited ∧
      (∀ v dv0, s.dists v = some dv0 →
        ∃ dv, (L.foldl (relaxD curr) s).dists v = some dv ∧ dv ≤ dv0) ∧
      (∀ v, v ∈ s.visited → (L.foldl (relaxD curr) s).dists v = s.dists v) ∧
      (∀ p ∈ L, ∃ dx du, (L.foldl (relaxD curr) s).dists curr = some dx ∧
        (L.foldl (relaxD curr) s).dists p.1 = some du ∧ du ≤ dx + p.2) := by
  intro L
  induction L with
  | nil =>
    intro s curr hinv hcurr _
    exact ⟨hinv, rfl, fun v dv0 h => ⟨dv0, h, le_refl _⟩, fun v _ => rfl,
      fun p hp => absurd hp (List.not_mem_nil p)⟩
  | cons e L ih =>
    intro s curr hinv hcurr hsub
    obtain ⟨hinv1, hvis1, hmono1, hfroz1, hpost1⟩ :=
      relaxD_step hw hinv hcurr (hsub e (List.mem_cons_self e L))
    obtain ⟨hinv', hvis', hmono', hfroz', hpost'⟩ :=
      ih hinv1 (hvis1 ▸ hcurr) (fun p hp => hsub p (List.mem_cons_of_mem e hp))
    have hfold : (e :: L).foldl (relaxD curr) s = L.foldl (relaxD curr) (relaxD curr s e) :=
      List.foldl_cons _ _
    rw [hfold]
    refine ⟨hinv', by rw [hvis', hvis1], ?_, ?_, ?_⟩
    · intro v dv0 h0
      obtain ⟨dv1, h1, hle1⟩ := hmono1 v dv0 h0
      obtain ⟨dv, h2, hle2⟩ := hmono' v dv1 h1
      exact ⟨dv, h2, le_trans hle2 hle1⟩
    · intro v hv
      rw [hfroz' v (hvis1 ▸ hv), hfroz1 v hv]
    · intro p hp
      rcases List.mem_cons.mp hp with hp | hp
      · obtain ⟨dx1, du1, hdx1, hdu1, hle1⟩ := hpost1
        obtain ⟨du, hdu, hledu⟩ := hmono' _ _ hdu1
        rw [hfroz' curr (hvis1 ▸ hcurr)]
        rw [hp]
        exact ⟨dx1, du, hdx1, hdu, by linarith⟩
      · exact hpost' p hp

/-- Every unvisited node's current distance is at least the popped
minimum priority. -/
theorem pop_lb {adjs : Node → List (Node × ℚ)} {source : Node}
    {s : SPState Node} (hinv : DInv source adjs s)
    {m : Entry Node} {q' : List (Entry Node)} (hpop : popMin s.q = some (m, q')) :
    ∀ z, z ∉ s.visited → ∀ dz, s.dists z = some dz → m.1 ≤ dz := by
  intro z hz dz hdz
  obtain ⟨cnt, hmem⟩ := hinv.qWitness z hz dz hdz
  rcases popMin_le hpop _ hmem with h | ⟨h, _⟩
  · exact le_of_lt h
  · exact le_of_eq h

/-- The popped minimum priority is a lower bound on the cost of every
walk from the source to any unvisited node. -/
theorem walk_lb {adjs : Node → List (Node × ℚ)} (hw : nonnegW adjs)
    {source : Node} {s : SPState Node} (hinv : DInv source adjs s)
    (hrel : ∀ x ∈ s.visited, relaxedAt adjs s x)
    {m : Entry Node} {q' : List (Entry Node)} (hpop : popMin s.q = some (m, q')) :
    ∀ u cw, Walk adjs source u cw → u ∉ s.visited → m.1 ≤ cw := by
  have inner : ∀ st u cw, Walk adjs st u cw → u ∉ s.visited →
      ∀ dst, s.dists st = some dst → m.1 ≤ dst + cw := by
    intro st u cw hwalk
    induction hwalk with
    | nil x =>
      intro hu dst hdst
      have := pop_lb hinv hpop x hu dst hdst
      linarith
    | cons v hmem hsub hc ih =>
      rename_i x t w c c'
      intro hu dst hdst
      by_cases hx : x ∈ s.visited
      · obtain ⟨dx, dv1, hdx, hdv1, hle⟩ := hrel x hx (v, w) hmem
        rw [hdst] at hdx
        injection hdx with hdx
        have h2 := ih hu dv1 hdv1
        rw [hc]
        linarith
      · have h1 := pop_lb hinv hpop x hx dst hdst
        have h2 : 0 ≤ c := walk_nonneg hw hsub
        have h3 : 0 ≤ w := hw _ _ hmem
        rw [hc]
        linarith
  intro u cw hwalk hu
  have := inner source u cw hwalk hu 0 hinv.src
  linarith

/-- `indexOf` is unchanged by appending when the element is present. -/
theorem indexOf_append_mem {l : List Node} {x : Node} (h : x ∈ l) (a : Node) :
    (l ++ [a]).indexOf x = l.indexOf x := by
  induction l with
  | nil => exact absurd h (List.not_mem_nil x)
  | cons b l ih =>
    by_cases hxb : x = b
    · rw [hxb]
      simp [List.indexOf_cons_self]
    · have hbx : (b == x) = false := by
        rw [beq_eq_false_iff_ne]
        exact fun hh => hxb hh.symm
      rcases List.mem_cons.mp h with h2 | h2
      · exact absurd h2 hxb
      · show ((b :: (l ++ [a])).indexOf x) = _
        rw [List.indexOf_cons, List.indexOf_cons, hbx]
        simp only [cond_false]
        rw [ih h2]

/-- `indexOf` of a freshly appended element is the old length. -/
theorem indexOf_append_fresh {l : List Node} {x : Node} (h : x ∉ l) :
    (l ++ [x]).indexOf x = l.length := by
  induction l with
  | nil => simp [List.indexOf_cons_self]
  | cons b l ih =>
    have hbx : (b == x) = false := by
      rw [beq_eq_false_iff_ne]
      exact fun hh => h (hh ▸ List.mem_cons_self b l)
    show ((b :: (l ++ [x])).indexOf x) = _
    rw [List.indexOf_cons, hbx]
    simp only [cond_false, List.length_cons]
    rw [ih (fun hh => h (List.mem_cons_of_mem b hh))]

/-- Settling the popped node: its current distance equals the popped
priority and is minimal over all walks from the source, and the
invariant survives marking it visited and dropping the popped entry. -/
theorem settle_inv {adjs : Node → List (Node × ℚ)} (hw : nonnegW adjs)
    {source : Node} {s : SPState Node} (hinv : DInv source adjs s)
    (hrel : ∀ x ∈ s.visited, relaxedAt adjs s x)
    {m : Entry Node} {q' : List (Entry Node)} (hpop : popMin s.q = some (m, q'))
    (hv : m.2.2 ∉ s.visited) :
    s.dists m.2.2 = some m.1 ∧
    (∀ c, Walk adjs source m.2.2 c → m.1 ≤ c) ∧
    DInv source adjs { s with visited := s.visited ++ [m.2.2], q := q' } := by
  have hperm := popMin_perm hpop
  have hmq : m ∈ s.q := hperm.mem_iff.mpr (List.mem_cons_self _ _)
  obtain ⟨dv, hdv, hle1⟩ := hinv.qDist m hmq
  obtain ⟨cnt, hwit⟩ := hinv.qWitness m.2.2 hv dv hdv
  have hle2 : m.1 ≤ dv := by
    rcases popMin_le hpop _ hwit with h | ⟨h, _⟩
    · exact le_of_lt h
    · exact le_of_eq h
  have hdm : s.dists m.2.2 = some m.1 := by
    rw [hdv]
    congr 1
    linarith
  have hminm : ∀ c, Walk adjs source m.2.2 c → m.1 ≤ c :=
    fun c hwalk => walk_lb hw hinv hrel hpop m.2.2 c hwalk hv
  refine ⟨hdm, hminm, ?_⟩
  refine ⟨hinv.reach, hinv.src, ?_, ?_, ?_, hinv.parentChain, ?_⟩
  · intro x hx
    rcases List.mem_append.mp hx with hx | hx
    · exact hinv.settledMin x hx
    · rw [List.mem_singleton] at hx
      rw [hx]
      exact ⟨m.1, hdm, hminm⟩
  · intro en hen
    exact hinv.qDist en (hperm.mem_iff.mpr (List.mem_cons_of_mem m hen))
  · intro z hz dz hdz
    have hz1 : z ∉ s.visited := fun h => hz (List.mem_append_left _ h)
    have hz2 : z ≠ m.2.2 := fun h =>
      hz (List.mem_append_right _ (List.mem_singleton.mpr h))
    obtain ⟨cnt2, hmem2⟩ := hinv.qWitness z hz1 dz hdz
    rcases List.mem_cons.mp (hperm.mem_iff.mp hmem2) with h | h
    · exfalso
      apply hz2
      have : ((dz, cnt2, z) : Entry Node).2.2 = m.2.2 := by rw [h]
      exact this
    · exact ⟨cnt2, h⟩
  · intro v p hp
    obtain ⟨hpv, hidx⟩ := hinv.parentVis v p hp
    refine ⟨List.mem_append_left _ hpv, ?_⟩
    intro hvmem
    rcases List.mem_append.mp hvmem with hvm | hvm
    · show (s.visited ++ [m.2.2]).indexOf p < (s.visited ++ [m.2.2]).indexOf v
      rw [indexOf_append_mem hpv, indexOf_append_mem hvm]
      exact hidx hvm
    · rw [List.mem_singleton] at hvm
      show (s.visited ++ [m.2.2]).indexOf p < (s.visited ++ [m.2.2]).indexOf v
      rw [hvm, indexOf_append_fresh hv, indexOf_append_mem hpv]
      exact List.indexOf_lt_length.mpr hpv

/-- The head of a list survives appending on the right. -/
theorem head_append_some {l l2 : List Node} {u : Node} (h : l.head? = some u) :
    (l ++ l2).head? = some u := by
  cases l with
  | nil => exact absurd h (by simp)
  | cons a l => exact h

/-- Walking the stored parent links backward from any visited node
terminates at the source within `|visited|` steps and yields a walk
list from the source whose cost is at most the node's recorded
distance. -/
theorem reconstructAux_correct {adjs : Node → List (Node × ℚ)} (hw : nonnegW adjs)
    {source : Node} {s : SPState Node} (hinv : DInv source adjs s) :
    ∀ (fuel : ℕ) (curr : Node), curr ∈ s.visited →
      s.visited.indexOf curr < fuel →
      ∀ dcur, s.dists curr = some dcur → ∀ acc,
      ∃ pre c, reconstructAux s.parent source fuel curr acc =
          some (pre ++ acc.reverse) ∧
        WalkL adjs (pre ++ [curr]) c ∧ (pre ++ [curr]).head? = some source ∧
        c ≤ dcur := by
  intro fuel
  induction fuel with
  | zero =>
    intro curr _ hidx
    omega
  | succ n ih =>
    intro curr hcurr hidx dcur hdcur acc
    by_cases hsrc : curr = source
    · refine ⟨[], 0, ?_, ?_, ?_, ?_⟩
      · rw [reconstructAux, if_pos hsrc]
        rfl
      · exact WalkL.single curr
      · rw [hsrc]
        rfl
      · exact walk_nonneg hw (hinv.reach curr dcur hdcur)
    · rcases hinv.parentChain curr dcur hdcur with h | ⟨p, w, dp, hp, hmemp, hdp, hle⟩
      · exact absurd h hsrc
      · obtain ⟨hpvis, hpidx⟩ := hinv.parentVis curr p hp
        have hidxp : s.visited.indexOf p < n := by
          have := hpidx hcurr
          omega
        obtain ⟨pre', c', hres', hwalk', hhead', hc'⟩ :=
          ih p hpvis hidxp dp hdp (acc ++ [p])
        refine ⟨pre' ++ [p], c' + w, ?_, ?_, ?_, ?_⟩
        · rw [reconstructAux, if_neg hsrc]
          show (match s.parent curr with
            | none => none
            | some p => reconstructAux s.parent source n p (acc ++ [p])) = _
          simp only [hp]
          rw [hres']
          congr 1
          rw [List.reverse_append]
          simp
        · exact walkL_snoc hwalk' (List.getLast?_concat _) hmemp rfl
        · exact head_append_some hhead'
        · linarith

/-- The Dijkstra loop, started in an invariant state with all settled
edges relaxed, only ever returns finite results `(path, d)` in which
`path` is a walk list from the source to a goal node of total weight
`d`, the goal test accepted that node at `d`, and `d` is minimal over
all walks from the source to it. -/
theorem dijkstraLoop_correct {adjs : Node → List (Node × ℚ)} (hw : nonnegW adjs)
    {source : Node} {isGoal : Node → ℚ → Bool} :
    ∀ (fuel : ℕ) (s : SPState Node), DInv source adjs s →
      (∀ x ∈ s.visited, relaxedAt adjs s x) →
      ∀ path d, (dijkstraLoop source isGoal adjs fuel s).1 = some (path, some d) →
      ∃ g, path.head? = some source ∧ path.getLast? = some g ∧
        isGoal g d = true ∧ WalkL adjs path d ∧
        (∀ c, Walk adjs source g c → d ≤ c) := by
  intro fuel
  induction fuel with
  | zero =>
    intro s _ _ path d hres
    simp [dijkstraLoop] at hres
  | succ fuel ih =>
    intro s hinv hrel path d hres
    rw [dijkstraLoop] at hres
    rcases hpop : popMin s.q with _ | ⟨m, q'⟩
    · simp only [hpop] at hres
      simp at hres
    · simp only [hpop] at hres
      by_cases hm : m.2.2 ∈ s.visited
      · rw [if_pos hm] at hres
        have hinv' : DInv source adjs { s with q := q' } := by
          refine ⟨hinv.reach, hinv.src, hinv.settledMin, ?_, ?_,
            hinv.parentChain, hinv.parentVis⟩
          · intro en hen
            exact hinv.qDist en
              ((popMin_perm hpop).mem_iff.mpr (List.mem_cons_of_mem m hen))
          · intro z hz dz hdz
            obtain ⟨cnt, hmem⟩ := hinv.qWitness z hz dz hdz
            rcases List.mem_cons.mp ((popMin_perm hpop).mem_iff.mp hmem) with h | h
            · exfalso
              apply hz
              have hzm : z = m.2.2 := by rw [← h]
              rw [hzm]
              exact hm
            · exact ⟨cnt, h⟩
        exact ih { s with q := q' } hinv' hrel path d hres
      · rw [if_neg hm] at hres
        obtain ⟨hdm, hminm, hinvmid⟩ := settle_inv hw hinv hrel hpop hm
        simp only [hdm] at hres
        have hmemmid : m.2.2 ∈ s.visited ++ [m.2.2] :=
          List.mem_append_right _ (List.mem_singleton.mpr rfl)
        by_cases hg : isGoal m.2.2 m.1 = true
        · rw [if_pos hg] at hres
          obtain ⟨pre, c, hrec, hwalkL, hhead, hcle⟩ :=
            reconstructAux_correct hw hinvmid (s.visited ++ [m.2.2]).length m.2.2
              hmemmid
              (by
                show (s.visited ++ [m.2.2]).indexOf m.2.2 < (s.visited ++ [m.2.2]).length
                rw [indexOf_append_fresh hm]
                simp)
              m.1 hdm [m.2.2]
          have hrecEq : reconstruct_path source m.2.2 s.parent
              (s.visited ++ [m.2.2]).length = some (pre ++ [m.2.2]) := by
            unfold reconstruct_path
            simpa using hrec
          simp only [hrecEq] at hres
          simp only [Option.some.injEq, Prod.mk.injEq] at hres
          obtain ⟨hpath, hd⟩ := hres
          rw [← hpath, ← hd]
          have hlast : (pre ++ [m.2.2]).getLast? = some m.2.2 := List.getLast?_concat _
          have hwalk : Walk adjs source m.2.2 c := walkL_to_walk hwalkL hhead hlast
          have hceq : c = m.1 := le_antisymm hcle (hminm c hwalk)
          refine ⟨m.2.2, hhead, hlast, hg, ?_, hminm⟩
          rw [← hceq]
          exact hwalkL
        · rw [if_neg hg] at hres
          obtain ⟨hinv2, hvis2, hmono2, hfroz2, hpost2⟩ :=
            foldl_relaxD_inv hw (adjs m.2.2) hinvmid hmemmid (fun p hp => hp)
          have hrel2 : ∀ x ∈ ((adjs m.2.2).foldl (relaxD m.2.2)
              { s with visited := s.visited ++ [m.2.2], q := q' }).visited,
              relaxedAt adjs ((adjs m.2.2).foldl (relaxD m.2.2)
                { s with visited := s.visited ++ [m.2.2], q := q' }) x := by
            intro x hx
            rw [hvis2] at hx
            rcases List.mem_append.mp hx with hx0 | hx0
            · intro p hp
              obtain ⟨dx, du, hdx, hdu, hle⟩ := hrel x hx0 p hp
              obtain ⟨du', hdu', hled⟩ := hmono2 p.1 du hdu
              refine ⟨dx, du', ?_, hdu', by linarith⟩
              rw [hfroz2 x (List.mem_append_left _ hx0)]
              exact hdx
            · rw [List.mem_singleton] at hx0
              rw [hx0]
              intro p hp
              exact hpost2 p hp
          exact ih _ hinv2 hrel2 path d hres

/-- C1: for every adjacency callable with non-negative (finite) edge
weights, every source, every goal predicate and any fuel, whenever
`dijkstra` returns a path together with a finite distance `d`, the
returned list is a walk from the source to a node `g` that the goal
test accepted at distance `d`, its total weight is `d`, and `d` is the
minimum total weight over all walks from the source to `g`. -/
theorem dijkstra_goal_distance_optimal {adjs : Node → List (Node × ℚ)}
    (hw : nonnegW adjs) (source : Node) (isGoal : Node → ℚ → Bool) (fuel : ℕ)
    {path : List Node} {d : ℚ}
    (hres : (dijkstra source isGoal adjs fuel).1 = some (path, some d)) :
    ∃ g, path.head? = some source ∧ path.getLast? = some g ∧
      isGoal g d = true ∧ WalkL adjs path d ∧
      (∀ c, Walk adjs source g c → d ≤ c) := by
  have hd0 : (dijkstraInit source : SPState Node).dists = updf (fun _ => none) source 0 := rfl
  have hp0 : (dijkstraInit source : SPState Node).parent = fun _ => none := rfl
  have hv0 : (dijkstraInit source : SPState Node).visited = [] := rfl
  have hq0 : (dijkstraInit source : SPState Node).q = [(0, 0, source)] := rfl
  have hinv : DInv source adjs (dijkstraInit source) := by
    refine ⟨?_, ?_, ?_, ?_, ?_, ?_, ?_⟩
    · rw [hd0]
      intro v dv hv
      by_cases hvs : v = source
      · rw [hvs, updf_self] at hv
        injection hv with hv
        rw [hvs, ← hv]
        exact Walk.nil source
      · rw [updf_ne _ _ _ hvs] at hv
        cases hv
    · rw [hd0]
      exact updf_self _ _ _
    · rw [hv0]
      intro v hv
      exact absurd hv (List.not_mem_nil v)
    · rw [hd0, hq0]
      intro en hen
      rcases List.mem_singleton.mp hen with rfl
      exact ⟨0, updf_self _ _ _, le_refl _⟩
    · rw [hd0, hq0]
      intro v _ dv hdv
      by_cases hvs : v = source
      · rw [hvs, updf_self] at hdv
        injection hdv with hdv
        rw [hvs, ← hdv]
        exact ⟨0, List.mem_singleton.mpr rfl⟩
      · rw [updf_ne _ _ _ hvs] at hdv
        cases hdv
    · rw [hd0]
      intro v dv hdv
      by_cases hvs : v = source
      · exact Or.inl hvs
      · rw [updf_ne _ _ _ hvs] at hdv
        cases hdv
    · rw [hp0]
      intro v p hp
      cases hp
  have hrel : ∀ x ∈ (dijkstraInit source : SPState Node).visited,
      relaxedAt adjs (dijkstraInit source) x := by
    rw [hv0]
    exact fun x hx => absurd hx (List.not_mem_nil x)
  exact dijkstraLoop_correct hw fuel (dijkstraInit source) hinv hrel path d hres

/-- Witness for C1 on a concrete two-node graph: one edge `0 → 1` of
weight `1`, goal node `1`, shortest distance `1` realized by `[0, 1]`. -/
theorem dijkstra_goal_distance_optimal_witness :
    ∃ g, ([0, 1] : List ℕ).head? = some 0 ∧ ([0, 1] : List ℕ).getLast? = some g ∧
      (g == 1) = true ∧
      WalkL (fun n => if n = 0 then [(1, (1 : ℚ))] else []) [0, 1] 1 ∧
      (∀ c, Walk (fun n => if n = 0 then [(1, (1 : ℚ))] else []) 0 g c → 1 ≤ c) :=
  dijkstra_goal_distance_optimal
    (by
      intro u p hp
      by_cases hu : u = 0 <;> simp [hu] at hp
      rw [hp]
      norm_num)
    0 (fun n _ => n == 1) 5
    (by
      norm_num [dijkstra, dijkstraLoop, dijkstraInit, popMin, relaxD, updf, entryLe,
        ltInf, reconstruct_path, reconstructAux])

/-! ## Kruskal (`minimum_spanning_tree.py`) -/

/-- The `for`/`if` loop of `kruskal` over the sorted edge list: union
the endpoints, and keep the edge iff the union merged two sets. -/
def kruskalAux (uf : UnionFind Node) (mst : DirectedGraph Node) :
    List (Node × Node × ℚ) → Option (DirectedGraph Node)
  | [] => some mst
  | e :: es =>
    match uf.union e.1 e.2.1 with
    | none => none
    | some (uf', ok) =>
      if ok then kruskalAux uf' (mst.add_edge e.1 e.2.1 e.2.2) es
      else kruskalAux uf' mst es

/-- `kruskal(graph)`: run the loop over the edges sorted by weight
(Python's `sorted` with key `e[2]` is stable, as is `mergeSort`). -/
def kruskal (g : DirectedGraph Node) : Option (DirectedGraph Node) :=
  kruskalAux UnionFind.empty DirectedGraph.empty
    (g.get_edges.mergeSort (fun a b => decide (a.2.2 ≤ b.2.2)))

/-- The endpoint pair of a stored edge triple. -/
def epr (e : Node × Node × ℚ) : Node × Node := (e.1, e.2.1)

/-- Undirected connectivity over a list of edge triples. -/
def econn (E : List (Node × Node × ℚ)) (a b : Node) : Prop :=
  PGen (pairsRel (E.map epr)) a b

/-- A relation together with equality: connectivity allowing the empty
walk. -/
def ReqR (S : Node → Node → Prop) (a b : Node) : Prop := a = b ∨ S a b

/-- An edge list is a forest, as an undirected (multi)graph: no
self-loops, and every edge is a bridge, its endpoints disconnected
without it. -/
def forestL (E : List (Node × Node × ℚ)) : Prop :=
  ∀ pre e post, E = pre ++ e :: post →
    e.1 ≠ e.2.1 ∧ ¬ econn (pre ++ post) e.1 e.2.1

/-- Total weight of a list of edge triples. -/
def weightL (E : List (Node × Node × ℚ)) : ℚ := (E.map (fun e => e.2.2)).sum

/-- Allowing the empty walk turns a `union` step into a merge of the
two endpoint classes of the with-equality relation. -/
theorem req_unionStep {R : Node → Node → Prop} (x y a b : Node) :
    ReqR (unionStepRel R x y) a b ↔ mergeR (ReqR R) x y a b := by
  unfold ReqR unionStepRel mergeR extendR
  aesop

/-- A closure contained in an equivalence-like relation stays inside
it. -/
theorem pgen_subset_equiv {S : Node → Node → Prop}
    (hsym : ∀ a b, S a b → S b a) (htr : ∀ a b c, S a b → S b c → S a c)
    {R : Node → Node → Prop} (h : ∀ a b, R a b → S a b) :
    ∀ a b, PGen R a b → S a b := by
  intro a b hp
  induction hp with
  | base hr => exact h _ _ hr
  | symm _ ih => exact hsym _ _ ih
  | trans _ _ ih1 ih2 => exact htr _ _ _ ih1 ih2

/-- Appending one edge merges its endpoint classes. -/
theorem econn_snoc (E : List (Node × Node × ℚ)) (e : Node × Node × ℚ) :
    ∀ a b, econn (E ++ [e]) a b ↔ unionStepRel (econn E) e.1 e.2.1 a b := by
  intro a b
  unfold econn
  rw [unionStep_pgen (fun a b => Iff.rfl) e.1 e.2.1 a b]
  refine PGen_congr (fun u v => ?_) a b
  simp only [pairsRel, List.map_append, List.map_cons, List.map_nil, List.mem_append,
    List.mem_singleton, epr]
  constructor
  · rintro ((h | h) | (h | h))
    · exact Or.inl (Or.inl h)
    · rcases Prod.mk.injEq .. ▸ h with ⟨h1, h2⟩
      exact Or.inr (Or.inl ⟨h1, h2⟩)
    · exact Or.inl (Or.inr h)
    · rcases Prod.mk.injEq .. ▸ h with ⟨h1, h2⟩
      exact Or.inr (Or.inr ⟨h2, h1⟩)
  · rintro ((h | h) | ⟨h1, h2⟩ | ⟨h1, h2⟩)
    · exact Or.inl (Or.inl h)
    · exact Or.inr (Or.inl h)
    · exact Or.inl (Or.inr (by rw [h1, h2]))
    · exact Or.inr (Or.inr (by rw [h1, h2]))
  
/-- Connectivity is monotone in the (membership of the) edge list. -/
theorem econn_mono {E1 E2 : List (Node × Node × ℚ)} (h : ∀ e ∈ E1, e ∈ E2) :
    ∀ a b, econn E1 a b → econn E2 a b := by
  refine PGen_mono (fun a b hp => ?_)
  rcases hp with hp | hp
  · obtain ⟨e, he, hee⟩ := List.mem_map.mp hp
    exact Or.inl (List.mem_map.mpr ⟨e, h e he, hee⟩)
  · obtain ⟨e, he, hee⟩ := List.mem_map.mp hp
    exact Or.inr (List.mem_map.mpr ⟨e, h e he, hee⟩)

/-- Connectivity only depends on the edge list up to permutation. -/
theorem econn_perm {E1 E2 : List (Node × Node × ℚ)} (h : E1.Perm E2) :
    ∀ a b, econn E1 a b ↔ econn E2 a b :=
  fun a b => ⟨econn_mono (fun e he => h.mem_iff.mp he) a b,
    econn_mono (fun e he => h.mem_iff.mpr he) a b⟩

/-- A prefix of a forest is a forest. -/
theorem forestL_append_left {l1 l2 : List (Node × Node × ℚ)}
    (h : forestL (l1 ++ l2)) : forestL l1 := by
  intro pre e post hsplit
  have hsplit2 : l1 ++ l2 = pre ++ e :: (post ++ l2) := by
    rw [hsplit]
    simp
  obtain ⟨hne, hnc⟩ := h pre e (post ++ l2) hsplit2
  refine ⟨hne, fun hc => hnc ?_⟩
  refine econn_mono (fun f hf => ?_) _ _ hc
  rcases List.mem_append.mp hf with hf | hf
  · exact List.mem_append_left _ hf
  · exact List.mem_append_right _ (List.mem_append_left _ hf)

/-- Being a forest is invariant under permutation. -/
theorem forestL_perm {l1 l2 : List (Node × Node × ℚ)} (hp : l1.Perm l2)
    (h : forestL l1) : forestL l2 := by
  intro pre e post hsplit
  have he1 : e ∈ l1 := hp.mem_iff.mpr (by rw [hsplit]; simp)
  obtain ⟨pre1, post1, hsplit1⟩ := List.append_of_mem he1
  obtain ⟨hne, hnc⟩ := h pre1 e post1 hsplit1
  refine ⟨hne, fun hc => hnc ?_⟩
  have hperm : (pre1 ++ post1).Perm (pre ++ post) := by
    have p1 : (e :: (pre1 ++ post1)).Perm l1 := by
      rw [hsplit1]
      exact List.perm_middle.symm
    have p2 : l2.Perm (e :: (pre ++ post)) := by
      rw [hsplit]
      exact List.perm_middle
    exact (p1.trans (hp.trans p2)).cons_inv
  exact (econn_perm hperm _ _).mpr hc

/-- Total weight is invariant under permutation. -/
theorem weightL_perm {l1 l2 : List (Node × Node × ℚ)} (hp : l1.Perm l2) :
    weightL l1 = weightL l2 := by
  unfold weightL
  exact (hp.map (fun e => e.2.2)).sum_eq

/-- The number of classes of a relation among a finite vertex set: the
number of distinct sets `{b | S a b}` as `a` ranges over the
vertices. -/
noncomputable def classCount (S : Node → Node → Prop) (V : Finset Node) : ℕ :=
  Set.ncard ((fun a => {b | S a b}) '' (V : Set Node))

/-- `classCount` only depends on the relation pointwise. -/
theorem classCount_congr {S S' : Node → Node → Prop}
    (h : ∀ a b, S a b ↔ S' a b) (V : Finset Node) :
    classCount S V = classCount S' V := by
  unfold classCount
  congr 1
  apply Set.image_congr
  intro a _
  apply Set.ext
  intro b
  exact h a b

/-- Coarsening a relation cannot increase the class count. -/
theorem classCount_mono {S S' : Node → Node → Prop} (hrefl : ∀ a, S a a)
    (hsub : ∀ a b, S a b → S' a b) (hsym : ∀ a b, S' a b → S' b a)
    (htr : ∀ a b c, S' a b → S' b c → S' a c) (V : Finset Node) :
    classCount S' V ≤ classCount S V := by
  unfold classCount
  have himg : (fun a => {b | S' a b}) '' (V : Set Node) =
      (fun C => {b | ∃ a ∈ C, S' a b}) '' ((fun a => {b | S a b}) '' (V : Set Node)) := by
    rw [← Set.image_comp]
    apply Set.image_congr
    intro a _
    apply Set.ext
    intro b
    simp only [Function.comp_apply, Set.mem_setOf_eq]
    constructor
    · intro hb
      exact ⟨a, hrefl a, hb⟩
    · rintro ⟨c, hac, hcb⟩
      exact htr _ _ _ (hsub _ _ hac) hcb
  rw [himg]
  exact Set.ncard_image_le ((V.finite_toSet).image _)

/-- Merging two distinct classes decreases the class count by exactly
one. -/
theorem classCount_merge {S : Node → Node → Prop} (hrefl : ∀ a, S a a)
    (hsym : ∀ a b, S a b → S b a) (htr : ∀ a b c, S a b → S b c → S a c)
    {x y : Node} {V : Finset Node} (hx : x ∈ V) (hy : y ∈ V) (hxy : ¬ S x y) :
    classCount (mergeR S x y) V + 1 = classCount S V := by
  have hclseq : ∀ a b, S a b → {c | S a c} = {c | S b c} := by
    intro a b hab
    apply Set.ext
    intro c
    exact ⟨fun h => htr _ _ _ (hsym _ _ hab) h, fun h => htr _ _ _ hab h⟩
  have hMx : ∀ a, S a x ∨ S a y →
      {c | mergeR S x y a c} = ({c | S x c} ∪ {c | S y c} : Set Node) := by
    intro a ha
    apply Set.ext
    intro c
    simp only [Set.mem_setOf_eq, Set.mem_union]
    constructor
    · rintro (h | ⟨h1, h2⟩ | ⟨h1, h2⟩)
      · rcases ha with ha | ha
        · exact Or.inl (htr _ _ _ (hsym _ _ ha) h)
        · exact Or.inr (htr _ _ _ (hsym _ _ ha) h)
      · exact Or.inr h2
      · exact Or.inl h2
    · rintro (h | h)
      · rcases ha with ha | ha
        · exact Or.inl (htr _ _ _ ha h)
        · exact Or.inr (Or.inr ⟨ha, h⟩)
      · rcases ha with ha | ha
        · exact Or.inr (Or.inl ⟨ha, h⟩)
        · exact Or.inl (htr _ _ _ ha h)
  have hMn : ∀ a, ¬ S a x → ¬ S a y →
      {c | mergeR S x y a c} = {c | S a c} := by
    intro a hax hay
    apply Set.ext
    intro c
    simp only [Set.mem_setOf_eq]
    constructor
    · rintro (h | ⟨h1, h2⟩ | ⟨h1, h2⟩)
      · exact h
      · exact absurd h1 hax
      · exact absurd h1 hay
    · intro h
      exact Or.inl h
  have hWfin : ((fun a => {c | S a c}) ''
      ((V : Set Node) ∩ {a | ¬ S a x ∧ ¬ S a y})).Finite :=
    ((V.finite_toSet).inter_of_left _).image _
  have hE1 : (fun a => {c | S a c}) '' (V : Set Node) =
      insert {c | S x c} (insert {c | S y c}
        ((fun a => {c | S a c}) '' ((V : Set Node) ∩ {a | ¬ S a x ∧ ¬ S a y}))) := by
    apply Set.ext
    intro C
    simp only [Set.mem_image, Set.mem_insert_iff, Set.mem_inter_iff, Set.mem_setOf_eq]
    constructor
    · rintro ⟨a, ha, hC⟩
      by_cases hax : S a x
      · left
        rw [← hC]
        exact hclseq a x hax
      · by_cases hay : S a y
        · right; left
          rw [← hC]
          exact hclseq a y hay
        · right; right
          exact ⟨a, ⟨ha, hax, hay⟩, hC⟩
    · rintro (hC | hC | ⟨a, ⟨ha, _, _⟩, hC⟩)
      · exact ⟨x, hx, hC.symm⟩
      · exact ⟨y, hy, hC.symm⟩
      · exact ⟨a, ha, hC⟩
  have hE2 : (fun a => {c | mergeR S x y a c}) '' (V : Set Node) =
      insert ({c | S x c} ∪ {c | S y c})
        ((fun a => {c | S a c}) '' ((V : Set Node) ∩ {a | ¬ S a x ∧ ¬ S a y})) := by
    apply Set.ext
    intro C
    simp only [Set.mem_image, Set.mem_insert_iff, Set.mem_inter_iff, Set.mem_setOf_eq]
    constructor
    · rintro ⟨a, ha, hC⟩
      by_cases haxy : S a x ∨ S a y
      · left
        rw [← hC]
        exact hMx a haxy
      · push_neg at haxy
        right
        refine ⟨a, ⟨ha, haxy.1, haxy.2⟩, ?_⟩
        rw [← hC]
        exact (hMn a haxy.1 haxy.2).symm
    · rintro (hC | ⟨a, ⟨ha, hax, hay⟩, hC⟩)
      · refine ⟨x, hx, ?_⟩
        rw [hMx x (Or.inl (hrefl x)), hC]
      · refine ⟨a, ha, ?_⟩
        rw [hMn a hax hay, hC]
  have hmemx : ∀ a, ¬ S a x → {c | S a c} ≠ {c | S x c} := by
    intro a hax hC
    apply hax
    have : x ∈ {c | S a c} := by
      rw [hC]
      exact hrefl x
    exact this
  have hmemy : ∀ a, ¬ S a y → {c | S a c} ≠ {c | S y c} := by
    intro a hay hC
    apply hay
    have : y ∈ {c | S a c} := by
      rw [hC]
      exact hrefl y
    exact this
  have hn1 : ({c | S x c} : Set Node) ∉ insert {c | S y c}
      ((fun a => {c | S a c}) '' ((V : Set Node) ∩ {a | ¬ S a x ∧ ¬ S a y})) := by
    intro h
    rcases Set.mem_insert_iff.mp h with h | h
    · apply hxy
      have : y ∈ ({c | S x c} : Set Node) := by
        rw [h]
        exact hrefl y
      exact this
    · obtain ⟨a, ha2, hC⟩ := Set.mem_image .. |>.mp h
      exact hmemx a ha2.2.1 hC
  have hn2 : ({c | S y c} : Set Node) ∉
      ((fun a => {c | S a c}) '' ((V : Set Node) ∩ {a | ¬ S a x ∧ ¬ S a y})) := by
    intro h
    obtain ⟨a, ha2, hC⟩ := Set.mem_image .. |>.mp h
    exact hmemy a ha2.2.2 hC
  have hn3 : ({c | S x c} ∪ {c | S y c} : Set Node) ∉
      ((fun a => {c | S a c}) '' ((V : Set Node) ∩ {a | ¬ S a x ∧ ¬ S a y})) := by
    intro h
    obtain ⟨a, ha2, hC⟩ := Set.mem_image .. |>.mp h
    apply ha2.2.1
    have : x ∈ {c | S a c} := by
      rw [hC]
      exact Set.mem_union_left _ (hrefl x)
    exact this
  unfold classCount
  rw [hE1, hE2]
  rw [Set.ncard_insert_of_not_mem hn3 hWfin,
    Set.ncard_insert_of_not_mem hn1 (hWfin.insert _),
    Set.ncard_insert_of_not_mem hn2 hWfin]

/-- With-equality connectivity over an edge list. -/
def rconn (E : List (Node × Node × ℚ)) : Node → Node → Prop := ReqR (econn E)

/-- `rconn` is reflexive. -/
theorem rconn_refl (E : List (Node × Node × ℚ)) (a : Node) : rconn E a a :=
  Or.inl rfl

/-- `rconn` is symmetric. -/
theorem rconn_symm {E : List (Node × Node × ℚ)} {a b : Node}
    (h : rconn E a b) : rconn E b a := by
  rcases h with h | h
  · exact Or.inl h.symm
  · exact Or.inr (PGen.symm h)

/-- `rconn` is transitive. -/
theorem rconn_trans {E : List (Node × Node × ℚ)} {a b c : Node}
    (h1 : rconn E a b) (h2 : rconn E b c) : rconn E a c := by
  rcases h1 with h1 | h1
  · rw [h1]
    exact h2
  · rcases h2 with h2 | h2
    · rw [← h2]
      exact Or.inr h1
    · exact Or.inr (PGen.trans h1 h2)

/-- `rconn` is monotone in list membership. -/
theorem rconn_mono {E1 E2 : List (Node × Node × ℚ)} (h : ∀ e ∈ E1, e ∈ E2)
    {a b : Node} (hc : rconn E1 a b) : rconn E2 a b := by
  rcases hc with hc | hc
  · exact Or.inl hc
  · exact Or.inr (econn_mono h a b hc)

/-- Appending one edge merges the endpoint classes of the
with-equality connectivity. -/
theorem rconn_snoc (E : List (Node × Node × ℚ)) (e : Node × Node × ℚ)
    (a b : Node) :
    rconn (E ++ [e]) a b ↔ mergeR (rconn E) e.1 e.2.1 a b := by
  unfold rconn
  rw [← req_unionStep]
  unfold ReqR
  rw [econn_snoc E e a b]

/-- `mergeR` respects pointwise equivalence of its base relation. -/
theorem mergeR_congr {S S' : Node → Node → Prop} (h : ∀ a b, S a b ↔ S' a b)
    (x y a b : Node) : mergeR S x y a b ↔ mergeR S' x y a b := by
  unfold mergeR
  rw [h a b, h a x, h y b, h a y, h x b]

/-- Merging two already-related elements changes nothing. -/
theorem mergeR_collapse {S : Node → Node → Prop}
    (hsym : ∀ a b, S a b → S b a) (htr : ∀ a b c, S a b → S b c → S a c)
    {x y : Node} (hxy : S x y) (a b : Node) : mergeR S x y a b ↔ S a b := by
  constructor
  · rintro (h | ⟨h1, h2⟩ | ⟨h1, h2⟩)
    · exact h
    · exact htr _ _ _ (htr _ _ _ h1 hxy) h2
    · exact htr _ _ _ (htr _ _ _ h1 (hsym _ _ hxy)) h2
  · exact Or.inl

/-- A successful lookup's entry is in the list. -/
theorem dlookup_mem {α β : Type} [DecidableEq α] {l : List (α × β)} {x : α}
    {v : β} (h : dlookup l x = some v) : (x, v) ∈ l := by
  induction l with
  | nil => cases h
  | cons kv l ih =>
    obtain ⟨k, w⟩ := kv
    by_cases hx : x = k
    · subst hx
      simp [dlookup] at h
      rw [← h]
      exact List.mem_cons_self _ _
    · simp only [dlookup, if_neg hx] at h
      exact List.mem_cons_of_mem _ (ih h)

/-- Inserting a fresh key appends the pair at the end. -/
theorem dinsert_fresh_append {α β : Type} [DecidableEq α] (l : List (α × β))
    (x : α) (v : β) (h : dlookup l x = none) : dinsert l x v = l ++ [(x, v)] := by
  induction l with
  | nil => rfl
  | cons kv l ih =>
    obtain ⟨k, w⟩ := kv
    by_cases hx : x = k
    · rw [hx] at h
      simp [dlookup] at h
    · simp only [dlookup, if_neg hx] at h
      simp only [dinsert, if_neg hx, List.cons_append]
      rw [ih h]

/-- A present key splits the list, and `dmodify` rewrites exactly that
entry. -/
theorem dmodify_split {α β : Type} [DecidableEq α] :
    ∀ (l : List (α × β)) (x : α) (f : β → β) {inner : β},
    dlookup l x = some inner →
    ∃ l1 l2, l = l1 ++ (x, inner) :: l2 ∧ dmodify l x f = l1 ++ (x, f inner) :: l2 := by
  intro l
  induction l with
  | nil => intro x f inner h; cases h
  | cons kv l ih =>
    intro x f inner h
    obtain ⟨k, w⟩ := kv
    by_cases hx : x = k
    · subst hx
      simp [dlookup] at h
      refine ⟨[], l, ?_, ?_⟩
      · rw [h]
        rfl
      · simp [dmodify, h]
    · simp only [dlookup, if_neg hx] at h
      obtain ⟨l1, l2, he, hm⟩ := ih x f h
      refine ⟨(k, w) :: l1, l2, ?_, ?_⟩
      · rw [List.cons_append, ← he]
      · simp only [dmodify, if_neg hx, List.cons_append]
        rw [hm]

/-- A present key's lookup is unchanged by appending. -/
theorem dlookup_append_left {α β : Type} [DecidableEq α] {l : List (α × β)}
    {x : α} (h : (dlookup l x).isSome) (l2 : List (α × β)) :
    dlookup (l ++ l2) x = dlookup l x := by
  induction l with
  | nil => simp [dlookup] at h
  | cons kv l ih =>
    obtain ⟨k, w⟩ := kv
    by_cases hx : x = k
    · show dlookup ((k, w) :: (l ++ l2)) x = _
      simp only [dlookup, if_pos hx]
    · show dlookup ((k, w) :: (l ++ l2)) x = _
      simp only [dlookup, if_neg hx] at h ⊢
      exact ih h

/-- An absent key's lookup continues into the appended tail. -/
theorem dlookup_append_right {α β : Type} [DecidableEq α] {l : List (α × β)}
    {x : α} (h : dlookup l x = none) (l2 : List (α × β)) :
    dlookup (l ++ l2) x = dlookup l2 x := by
  induction l with
  | nil => rfl
  | cons kv l ih =>
    obtain ⟨k, w⟩ := kv
    by_cases hx : x = k
    · rw [hx] at h
      simp [dlookup] at h
    · show dlookup ((k, w) :: (l ++ l2)) x = _
      simp only [dlookup, if_neg hx] at h ⊢
      exact ih h

/-- A stored edge is visible in `get_edges`. -/
theorem has_edge_mem_edges {g : DirectedGraph Node} {src dst : Node}
    (h : g.has_edge src dst = true) : ∃ w, (src, dst, w) ∈ g.get_edges := by
  unfold DirectedGraph.has_edge at h
  rcases hl : dlookup g.adjs src with _ | inner
  · rw [hl] at h
    cases h
  · rw [hl] at h
    unfold dcontains at h
    obtain ⟨w, hw⟩ := Option.isSome_iff_exists.mp h
    refine ⟨w, ?_⟩
    unfold DirectedGraph.get_edges
    rw [List.mem_flatMap]
    exact ⟨(src, inner), dlookup_mem hl,
      List.mem_map.mpr ⟨(dst, w), dlookup_mem hw, rfl⟩⟩

/-- The core of `add_edge`: rewriting the stored inner dict of `src`
by inserting a fresh `dst` appends exactly one triple to the edge
list, up to permutation. -/
theorem dmodify_insert_edges_perm (a2 : List (Node × List (Node × ℚ)))
    (src dst : Node) (w : ℚ) {inner2 : List (Node × ℚ)}
    (hlook2 : dlookup a2 src = some inner2) (hdst2 : dlookup inner2 dst = none) :
    ((dmodify a2 src (fun inner => dinsert inner dst w)).flatMap
        (fun p => p.2.map (fun e => (p.1, e.1, e.2)))).Perm
      ((src, dst, w) ::
        a2.flatMap (fun p => p.2.map (fun e => (p.1, e.1, e.2)))) := by
  obtain ⟨l1, l2, hsplit, hmod⟩ :=
    dmodify_split a2 src (fun inner => dinsert inner dst w) hlook2
  rw [hmod, hsplit]
  rw [List.flatMap_append, List.flatMap_cons, List.flatMap_append, List.flatMap_cons]
  rw [dinsert_fresh_append _ _ _ hdst2]
  simp only [List.map_append, List.map_cons, List.map_nil]
  have h1 : l1.flatMap (fun p => p.2.map (fun e => (p.1, e.1, e.2))) ++
      ((inner2.map (fun e => (src, e.1, e.2)) ++ [(src, dst, w)]) ++
        l2.flatMap (fun p => p.2.map (fun e => (p.1, e.1, e.2)))) =
      (l1.flatMap (fun p => p.2.map (fun e => (p.1, e.1, e.2))) ++
        inner2.map (fun e => (src, e.1, e.2))) ++ (src, dst, w) ::
        l2.flatMap (fun p => p.2.map (fun e => (p.1, e.1, e.2))) := by
    simp [List.append_assoc]
  rw [h1]
  refine List.perm_middle.trans (List.Perm.cons _ ?_)
  simp [List.append_assoc]

/-- Adding a not-yet-present edge appends exactly one stored triple,
up to permutation. -/
theorem add_edge_edges_perm (g : DirectedGraph Node) (src dst : Node) (w : ℚ)
    (h : g.has_edge src dst = false) :
    (g.add_edge src dst w).get_edges.Perm ((src, dst, w) :: g.get_edges) := by
  obtain ⟨a2, hadd, inner2, hlook2, hdst2, hedges2⟩ :
      ∃ a2, g.add_edge src dst w =
          ⟨dmodify a2 src (fun inner => dinsert inner dst w)⟩ ∧
        ∃ inner2, dlookup a2 src = some inner2 ∧ dlookup inner2 dst = none ∧
          a2.flatMap (fun p => p.2.map (fun e => (p.1, e.1, e.2))) = g.get_edges := by
    unfold DirectedGraph.has_edge at h
    by_cases hc1 : dcontains g.adjs src = true
    · have hc1' : (dlookup g.adjs src).isSome := hc1
      obtain ⟨inner0, hl⟩ := Option.isSome_iff_exists.mp hc1'
      have hdst0 : dlookup inner0 dst = none := by
        have h2 : dcontains inner0 dst = false := by
          rw [hl] at h
          exact h
        unfold dcontains at h2
        exact Option.not_isSome_iff_eq_none.mp (fun hs => by rw [hs] at h2; cases h2)
      by_cases hc2 : dcontains (if dcontains g.adjs src then g.adjs
          else g.adjs ++ [(src, [])]) dst = true
      · refine ⟨g.adjs, ?_, inner0, hl, hdst0, rfl⟩
        simp only [DirectedGraph.add_edge]
        rw [if_pos hc1, if_pos (by rw [if_pos hc1] at hc2; exact hc2)]
      · refine ⟨g.adjs ++ [(dst, [])], ?_, inner0, ?_, hdst0, ?_⟩
        · simp only [DirectedGraph.add_edge]
          rw [if_pos hc1, if_neg (by rw [if_pos hc1] at hc2; exact hc2)]
        · rw [dlookup_append_left (by rw [hl]; rfl)]
          exact hl
        · rw [List.flatMap_append]
          simp [DirectedGraph.get_edges]
    · have hl : dlookup g.adjs src = none :=
        Option.not_isSome_iff_eq_none.mp (fun hs => hc1 hs)
      have ha1 : dlookup (g.adjs ++ [(src, [])]) src = some [] := by
        rw [dlookup_append_right hl]
        simp [dlookup]
      by_cases hc2 : dcontains (if dcontains g.adjs src then g.adjs
          else g.adjs ++ [(src, [])]) dst = true
      · refine ⟨g.adjs ++ [(src, [])], ?_, [], ha1, rfl, ?_⟩
        · simp only [DirectedGraph.add_edge]
          rw [if_neg hc1, if_pos (by rw [if_neg hc1] at hc2; exact hc2)]
        · rw [List.flatMap_append]
          simp [DirectedGraph.get_edges]
      · refine ⟨(g.adjs ++ [(src, [])]) ++ [(dst, [])], ?_, [], ?_, rfl, ?_⟩
        · simp only [DirectedGraph.add_edge]
          rw [if_neg hc1, if_neg (by rw [if_neg hc1] at hc2; exact hc2)]
        · rw [dlookup_append_left (by rw [ha1]; rfl)]
          exact ha1
        · rw [List.flatMap_append, List.flatMap_append]
          simp [DirectedGraph.get_edges]
  rw [hadd]
  show ((dmodify a2 src (fun inner => dinsert inner dst w)).flatMap
    (fun p => p.2.map (fun e => (p.1, e.1, e.2)))).Perm _
  rw [← hedges2]
  exact dmodify_insert_edges_perm a2 src dst w hlook2 hdst2

/-- An edge connects its own endpoints. -/
theorem edge_econn {E : List (Node × Node × ℚ)} {e : Node × Node × ℚ}
    (h : e ∈ E) : econn E e.1 e.2.1 :=
  PGen.base (Or.inl (List.mem_map.mpr ⟨e, h, rfl⟩))

/-- Appending an edge between two disconnected components keeps a
forest a forest. -/
theorem forestL_snoc {A : List (Node × Node × ℚ)} {e : Node × Node × ℚ}
    (hf : forestL A) (hne : e.1 ≠ e.2.1) (hnc : ¬ rconn A e.1 e.2.1) :
    forestL (A ++ [e]) := by
  intro pre f post hsplit
  rcases List.eq_nil_or_concat post with rfl | ⟨post0, lastp, rfl⟩
  · have hA : A = pre := by
      have := congrArg List.dropLast hsplit
      rwa [List.dropLast_concat, show (pre ++ [f]).dropLast = pre from
        List.dropLast_concat] at this
    have hef : e = f := by
      have := congrArg List.getLast? hsplit
      rw [List.getLast?_concat, show (pre ++ [f]).getLast? = some f from
        List.getLast?_concat _] at this
      exact Option.some.injEq .. ▸ this
    rw [← hef, List.append_nil, ← hA]
    exact ⟨hne, fun hc => hnc (Or.inr hc)⟩
  · have hsplit2 : A ++ [e] = (pre ++ f :: post0) ++ [lastp] := by
      rw [hsplit]
      simp
    have hA : A = pre ++ f :: post0 := by
      have := congrArg List.dropLast hsplit2
      rwa [List.dropLast_concat, List.dropLast_concat] at this
    have hel : e = lastp := by
      have h2 := congrArg List.getLast? hsplit2
      rw [List.getLast?_concat, List.getLast?_concat] at h2
      exact Option.some_inj.mp h2
    obtain ⟨hnef, hncf⟩ := hf pre f post0 hA
    refine ⟨hnef, fun hc => ?_⟩
    have hmemA : ∀ g ∈ pre ++ post0, g ∈ A := by
      intro g hg
      rw [hA]
      rcases List.mem_append.mp hg with hg | hg
      · exact List.mem_append_left _ hg
      · exact List.mem_append_right _ (List.mem_cons_of_mem _ hg)
    have hfA : f ∈ A := by
      rw [hA]
      exact List.mem_append_right _ (List.mem_cons_self _ _)
    have hc2 : rconn ((pre ++ post0) ++ [e]) f.1 f.2.1 := by
      refine Or.inr ?_
      refine (econn_perm ?_ _ _).mpr hc
      rw [← hel]
      simp [List.concat_eq_append]
    rcases (rconn_snoc (pre ++ post0) e f.1 f.2.1).mp hc2 with
      h | ⟨h1, h2⟩ | ⟨h1, h2⟩
    · rcases h with h | h
      · exact hnef h
      · exact hncf h
    · apply hnc
      have ha1 : rconn A f.1 e.1 := rconn_mono hmemA h1
      have ha2 : rconn A e.2.1 f.2.1 := rconn_mono hmemA h2
      exact rconn_trans (rconn_symm ha1)
        (rconn_trans (Or.inr (edge_econn hfA)) (rconn_symm ha2))
    · apply hnc
      have ha1 : rconn A f.1 e.2.1 := rconn_mono hmemA h1
      have ha2 : rconn A e.1 f.2.1 := rconn_mono hmemA h2
      exact rconn_trans ha2
        (rconn_trans (rconn_symm (Or.inr (edge_econn hfA))) ha1)

/-- The running invariant of the `kruskal` loop: the union-find mirrors
connectivity over the processed edges `P`, the accepted edges `A` (the
built `mst`'s edges, up to permutation) form a forest with the same
connectivity, class counting balances the accepted count, every
processed edge's endpoints are already connected among the accepted
edges of no larger weight, and everything stays weight-sorted. -/
theorem kruskalAux_spec :
    ∀ (es P A : List (Node × Node × ℚ)) (uf : UnionFind Node)
      (mst : DirectedGraph Node) (V : Finset Node),
      UFInv uf →
      (∀ a b, ufSame uf a b ↔ econn P a b) →
      (∀ a b, rconn P a b ↔ rconn A a b) →
      forestL A →
      (∀ e ∈ A, e ∈ P) →
      mst.get_edges.Perm A →
      (∀ e ∈ P, e.1 ∈ V ∧ e.2.1 ∈ V) →
      (∀ e ∈ es, e.1 ∈ V ∧ e.2.1 ∈ V) →
      classCount (rconn A) V + A.length = V.card →
      (∀ a ∈ A, ∀ e ∈ es, a.2.2 ≤ e.2.2) →
      (∀ e ∈ P, rconn (A.filter (fun a => decide (a.2.2 ≤ e.2.2))) e.1 e.2.1) →
      List.Pairwise (fun a b => a.2.2 ≤ b.2.2) es →
      List.Pairwise (fun a b => a.2.2 ≤ b.2.2) A →
      ∃ mst', kruskalAux uf mst es = some mst' ∧
        ∃ A2, mst'.get_edges.Perm A2 ∧ forestL A2 ∧
          (∀ e ∈ A2, e ∈ P ++ es) ∧
          (∀ a b, rconn (P ++ es) a b ↔ rconn A2 a b) ∧
          classCount (rconn A2) V + A2.length = V.card ∧
          (∀ e ∈ P ++ es,
            rconn (A2.filter (fun a => decide (a.2.2 ≤ e.2.2))) e.1 e.2.1) ∧
          List.Pairwise (fun a b => a.2.2 ≤ b.2.2) A2 := by
  intro es
  induction es with
  | nil =>
    intro P A uf mst V hinv hsame hconn hforest hAP hperm hVP hVes hcount hwb
      hrej hses hsA
    refine ⟨mst, rfl, A, hperm, hforest, ?_, ?_, hcount, ?_, hsA⟩
    · intro e he
      exact List.mem_append_left _ (hAP e he)
    · rw [List.append_nil]
      exact hconn
    · rw [List.append_nil]
      exact hrej
  | cons e es ih =>
    intro P A uf mst V hinv hsame hconn hforest hAP hperm hVP hVes hcount hwb
      hrej hses hsA
    obtain ⟨uf', ok, hrun, hinv', hkeys', hsame', hok⟩ := union_spec uf e.1 e.2.1 hinv
    have hsame2 : ∀ a b, ufSame uf' a b ↔ econn (P ++ [e]) a b := by
      intro a b
      rw [hsame' a b, unionStep_congr hsame e.1 e.2.1 a b]
      exact (econn_snoc P e a b).symm
    have hVP2 : ∀ f ∈ P ++ [e], f.1 ∈ V ∧ f.2.1 ∈ V := by
      intro f hf
      rcases List.mem_append.mp hf with hf | hf
      · exact hVP f hf
      · rw [List.mem_singleton.mp hf]
        exact hVes e (List.mem_cons_self e es)
    have hVes2 : ∀ f ∈ es, f.1 ∈ V ∧ f.2.1 ∈ V :=
      fun f hf => hVes f (List.mem_cons_of_mem e hf)
    have hses2 : List.Pairwise (fun a b => a.2.2 ≤ b.2.2) es :=
      (List.pairwise_cons.mp hses).2
    have hwhead : ∀ f ∈ es, e.2.2 ≤ f.2.2 := (List.pairwise_cons.mp hses).1
    have hassoc : (P ++ [e]) ++ es = P ++ e :: es := by simp
    cases ok with
    | false =>
      have hDP : rconn P e.1 e.2.1 := by
        rcases hok.mp rfl with h | h
        · exact Or.inl h
        · exact Or.inr ((hsame e.1 e.2.1).mp h)
      have hDA : rconn A e.1 e.2.1 := (hconn e.1 e.2.1).mp hDP
      have hconn2 : ∀ a b, rconn (P ++ [e]) a b ↔ rconn A a b := by
        intro a b
        rw [rconn_snoc P e a b]
        rw [@mergeR_collapse Node _ (rconn P) (fun _ _ h => rconn_symm h)
          (fun _ _ _ h1 h2 => rconn_trans h1 h2) e.1 e.2.1 hDP a b]
        exact hconn a b
      have hAP2 : ∀ f ∈ A, f ∈ P ++ [e] := fun f hf =>
        List.mem_append_left _ (hAP f hf)
      have hwb2 : ∀ a ∈ A, ∀ f ∈ es, a.2.2 ≤ f.2.2 :=
        fun a ha f hf => hwb a ha f (List.mem_cons_of_mem e hf)
      have hfilterA : A.filter (fun a => decide (a.2.2 ≤ e.2.2)) = A := by
        apply List.filter_eq_self.mpr
        intro a ha
        exact decide_eq_true (hwb a ha e (List.mem_cons_self e es))
      have hrej2 : ∀ f ∈ P ++ [e],
          rconn (A.filter (fun a => decide (a.2.2 ≤ f.2.2))) f.1 f.2.1 := by
        intro f hf
        rcases List.mem_append.mp hf with hf | hf
        · exact hrej f hf
        · rw [List.mem_singleton.mp hf, hfilterA]
          exact hDA
      obtain ⟨mst', hrun', A2, hperm', hforest', hmem', hconn', hcount', hrej', hsA'⟩ :=
        ih (P ++ [e]) A uf' mst V hinv' hsame2 hconn2 hforest hAP2 hperm hVP2 hVes2
          hcount hwb2 hrej2 hses2 hsA
      refine ⟨mst', ?_, A2, hperm', hforest', ?_, ?_, hcount', ?_, hsA'⟩
      · show kruskalAux uf mst (e :: es) = some mst'
        rw [kruskalAux]
        simp only [hrun]
        simp only [Bool.false_eq_true, if_false]
        exact hrun'
      · intro f hf
        rw [← hassoc]
        exact hmem' f hf
      · intro a b
        rw [← hassoc]
        exact hconn' a b
      · intro f hf
        rw [← hassoc] at hf
        exact hrej' f hf
    | true =>
      have hND : ¬(e.1 = e.2.1 ∨ ufSame uf e.1 e.2.1) := fun hD =>
        Bool.noConfusion (hok.mpr hD)
      have hne : e.1 ≠ e.2.1 := fun h => hND (Or.inl h)
      have hnsame : ¬ rconn P e.1 e.2.1 := by
        rintro (h | h)
        · exact hND (Or.inl h)
        · exact hND (Or.inr ((hsame e.1 e.2.1).mpr h))
      have hnA : ¬ rconn A e.1 e.2.1 := fun h => hnsame ((hconn e.1 e.2.1).mpr h)
      have hhe : mst.has_edge e.1 e.2.1 = false := by
        rcases Bool.eq_false_or_eq_true (mst.has_edge e.1 e.2.1) with h | h
        · exfalso
          obtain ⟨w', hw'⟩ := has_edge_mem_edges h
          have hmem : (e.1, e.2.1, w') ∈ A := hperm.mem_iff.mp hw'
          exact hnA (Or.inr (@edge_econn Node _ A (e.1, e.2.1, w') hmem))
        · exact h
      have hperm2 : (mst.add_edge e.1 e.2.1 e.2.2).get_edges.Perm (A ++ [e]) := by
        refine (add_edge_edges_perm mst e.1 e.2.1 e.2.2 hhe).trans ?_
        have hee : (e.1, e.2.1, e.2.2) = e := by simp
        rw [hee]
        exact (hperm.cons e).trans (List.perm_append_singleton e A).symm
      have hforest2 : forestL (A ++ [e]) := forestL_snoc hforest hne hnA
      have hconn2 : ∀ a b, rconn (P ++ [e]) a b ↔ rconn (A ++ [e]) a b := by
        intro a b
        rw [rconn_snoc P e a b, rconn_snoc A e a b]
        exact mergeR_congr hconn e.1 e.2.1 a b
      have hAP2 : ∀ f ∈ A ++ [e], f ∈ P ++ [e] := by
        intro f hf
        rcases List.mem_append.mp hf with hf | hf
        · exact List.mem_append_left _ (hAP f hf)
        · exact List.mem_append_right _ hf
      have hxV := (hVes e (List.mem_cons_self e es)).1
      have hyV := (hVes e (List.mem_cons_self e es)).2
      have hcount2 : classCount (rconn (A ++ [e])) V + (A ++ [e]).length = V.card := by
        have hcc : classCount (rconn (A ++ [e])) V =
            classCount (mergeR (rconn A) e.1 e.2.1) V :=
          classCount_congr (rconn_snoc A e) V
        have hm := classCount_merge (rconn_refl A) (fun _ _ h => rconn_symm h)
          (fun _ _ _ h1 h2 => rconn_trans h1 h2) hxV hyV hnA
        have hlen : (A ++ [e]).length = A.length + 1 := by simp
        rw [hcc, hlen]
        omega
      have hwb2 : ∀ a ∈ A ++ [e], ∀ f ∈ es, a.2.2 ≤ f.2.2 := by
        intro a ha f hf
        rcases List.mem_append.mp ha with ha | ha
        · exact hwb a ha f (List.mem_cons_of_mem e hf)
        · rw [List.mem_singleton.mp ha]
          exact hwhead f hf
      have hrej2 : ∀ f ∈ P ++ [e],
          rconn ((A ++ [e]).filter (fun a => decide (a.2.2 ≤ f.2.2))) f.1 f.2.1 := by
        intro f hf
        rcases List.mem_append.mp hf with hf | hf
        · refine rconn_mono ?_ (hrej f hf)
          intro g hg
          rw [List.mem_filter] at hg ⊢
          exact ⟨List.mem_append_left _ hg.1, hg.2⟩
        · rw [List.mem_singleton.mp hf]
          refine Or.inr (edge_econn ?_)
          rw [List.mem_filter]
          exact ⟨List.mem_append_right _ (List.mem_singleton.mpr rfl),
            decide_eq_true (le_refl _)⟩
      have hsA2 : List.Pairwise (fun a b => a.2.2 ≤ b.2.2) (A ++ [e]) := by
        rw [List.pairwise_append]
        refine ⟨hsA, List.pairwise_singleton _ _, ?_⟩
        intro a ha f hf
        rw [List.mem_singleton.mp hf]
        exact hwb a ha e (List.mem_cons_self e es)
      obtain ⟨mst', hrun', A2, hperm', hforest', hmem', hconn', hcount', hrej', hsA'⟩ :=
        ih (P ++ [e]) (A ++ [e]) uf' (mst.add_edge e.1 e.2.1 e.2.2) V hinv' hsame2
          hconn2 hforest2 hAP2 hperm2 hVP2 hVes2 hcount2 hwb2 hrej2 hses2 hsA2
      refine ⟨mst', ?_, A2, hperm', hforest', ?_, ?_, hcount', ?_, hsA'⟩
      · show kruskalAux uf mst (e :: es) = some mst'
        rw [kruskalAux]
        simp only [hrun]
        simpa using hrun'
      · intro f hf
        rw [← hassoc]
        exact hmem' f hf
      · intro a b
        rw [← hassoc]
        exact hconn' a b
      · intro f hf
        rw [← hassoc] at hf
        exact hrej' f hf

/-- With no edges, connectivity is equality. -/
theorem rconn_nil (a b : Node) : rconn ([] : List (Node × Node × ℚ)) a b ↔ a = b := by
  constructor
  · rintro (h | h)
    · exact h
    · exfalso
      refine PGen_false a b (PGen_mono (fun u v hp => ?_) a b h)
      simp [pairsRel] at hp
  · exact Or.inl

/-- Equality has one class per vertex. -/
theorem classCount_eq_card (V : Finset Node) :
    classCount (fun a b => a = b) V = V.card := by
  unfold classCount
  rw [Set.ncard_image_of_injOn, Set.ncard_coe_Finset]
  intro a _ b _ hab
  simp only [Set.ext_iff, Set.mem_setOf_eq] at hab
  exact ((hab a).mp rfl).symm

/-- Every forest on vertices from `V` satisfies the tree formula:
class count plus edge count equals vertex count. -/
theorem forest_count (V : Finset Node) :
    ∀ (F : List (Node × Node × ℚ)), forestL F →
      (∀ e ∈ F, e.1 ∈ V ∧ e.2.1 ∈ V) →
      classCount (rconn F) V + F.length = V.card := by
  intro F
  induction F using List.reverseRecOn with
  | nil =>
    intro _ _
    rw [classCount_congr rconn_nil V, classCount_eq_card]
    simp
  | append_singleton F e ih =>
    intro hforest hV
    have hforestF : forestL F := forestL_append_left hforest
    have hVF : ∀ f ∈ F, f.1 ∈ V ∧ f.2.1 ∈ V :=
      fun f hf => hV f (List.mem_append_left _ hf)
    obtain ⟨hne, hnc⟩ := hforest F e [] (by simp)
    have hnc2 : ¬ rconn F e.1 e.2.1 := by
      rintro (h | h)
      · exact hne h
      · rw [List.append_nil] at hnc
        exact hnc h
    have hxV := (hV e (List.mem_append_right _ (List.mem_singleton.mpr rfl))).1
    have hyV := (hV e (List.mem_append_right _ (List.mem_singleton.mpr rfl))).2
    have hcc : classCount (rconn (F ++ [e])) V =
        classCount (mergeR (rconn F) e.1 e.2.1) V :=
      classCount_congr (rconn_snoc F e) V
    have hm := classCount_merge (rconn_refl F) (fun _ _ h => rconn_symm h)
      (fun _ _ _ h1 h2 => rconn_trans h1 h2) hxV hyV hnc2
    have hlen : (F ++ [e]).length = F.length + 1 := by simp
    have hih := ih hforestF hVF
    rw [hcc, hlen]
    omega

/-- Greedy dominance: against any same-vertex-set forest whose edges
all have their endpoints already connected among the accepted edges of
no larger weight, the sorted accepted list is pointwise no heavier. -/
theorem sorted_forest_dominated (V : Finset Node) (A F : List (Node × Node × ℚ))
    (hsA : List.Pairwise (fun a b => a.2.2 ≤ b.2.2) A)
    (hsF : List.Pairwise (fun a b => a.2.2 ≤ b.2.2) F)
    (hAforest : forestL A) (hAV : ∀ e ∈ A, e.1 ∈ V ∧ e.2.1 ∈ V)
    (hFforest : forestL F) (hFV : ∀ e ∈ F, e.1 ∈ V ∧ e.2.1 ∈ V)
    (hgreedy : ∀ f ∈ F,
      rconn (A.filter (fun a => decide (a.2.2 ≤ f.2.2))) f.1 f.2.1)
    (i : ℕ) (hiA : i < A.length) (hiF : i < F.length) :
    (A.get ⟨i, hiA⟩).2.2 ≤ (F.get ⟨i, hiF⟩).2.2 := by
  by_contra hlt
  push_neg at hlt
  have hJforest : forestL (F.take (i + 1)) :=
    forestL_append_left (show forestL (F.take (i + 1) ++ F.drop (i + 1)) by
      rw [List.take_append_drop]; exact hFforest)
  have hJV : ∀ e ∈ F.take (i + 1), e.1 ∈ V ∧ e.2.1 ∈ V :=
    fun e he => hFV e (List.take_subset _ _ he)
  have hJlen : (F.take (i + 1)).length = i + 1 := by
    rw [List.length_take]
    omega
  have hJcount := forest_count V (F.take (i + 1)) hJforest hJV
  have hIforest : forestL (A.take i) :=
    forestL_append_left (show forestL (A.take i ++ A.drop i) by
      rw [List.take_append_drop]; exact hAforest)
  have hIV : ∀ e ∈ A.take i, e.1 ∈ V ∧ e.2.1 ∈ V :=
    fun e he => hAV e (List.take_subset _ _ he)
  have hIlen : (A.take i).length = i := by
    rw [List.length_take]
    omega
  have hIcount := forest_count V (A.take i) hIforest hIV
  by_cases hall : ∀ g ∈ F.take (i + 1), rconn (A.take i) g.1 g.2.1
  · have hsub : ∀ a b, rconn (F.take (i + 1)) a b → rconn (A.take i) a b := by
      intro a b h
      rcases h with h | h
      · exact Or.inl h
      · have hR : ∀ u v, pairsRel ((F.take (i + 1)).map epr) u v →
            rconn (A.take i) u v := by
          intro u v huv
          rcases huv with huv | huv
          · obtain ⟨g, hg, hge⟩ := List.mem_map.mp huv
            have hcg := hall g hg
            unfold epr at hge
            have h1 : g.1 = u := congrArg Prod.fst hge
            have h2 : g.2.1 = v := congrArg Prod.snd hge
            rw [h1, h2] at hcg
            exact hcg
          · obtain ⟨g, hg, hge⟩ := List.mem_map.mp huv
            have hcg := hall g hg
            unfold epr at hge
            have h1 : g.1 = v := congrArg Prod.fst hge
            have h2 : g.2.1 = u := congrArg Prod.snd hge
            rw [h1, h2] at hcg
            exact rconn_symm hcg
        exact @pgen_subset_equiv Node _ (rconn (A.take i))
          (fun _ _ hh => rconn_symm hh)
          (fun _ _ _ h1 h2 => rconn_trans h1 h2) _ hR a b h
    have hmono := classCount_mono (rconn_refl (F.take (i + 1))) hsub
      (fun _ _ h => rconn_symm h) (fun _ _ _ h1 h2 => rconn_trans h1 h2) V
    rw [hJlen] at hJcount
    rw [hIlen] at hIcount
    omega
  · push_neg at hall
    obtain ⟨g, hgJ, hgI⟩ := hall
    have hgF : g ∈ F := List.take_subset _ _ hgJ
    have hgr := hgreedy g hgF
    obtain ⟨j, hj, hgj⟩ := List.mem_take_iff_getElem.mp hgJ
    have hjF : j < F.length := by
      rw [lt_min_iff] at hj
      exact hj.2
    have hwgF : g.2.2 ≤ (F.get ⟨i, hiF⟩).2.2 := by
      rcases Nat.lt_or_ge j i with hji | hji
      · have hij := List.pairwise_iff_get.mp hsF ⟨j, hjF⟩ ⟨i, hiF⟩ hji
        rw [show F.get ⟨j, hjF⟩ = F[j] from rfl] at hij
        rw [hgj] at hij
        exact hij
      · have hji2 : j = i := by
          rw [lt_min_iff] at hj
          omega
        subst hji2
        rw [show F.get ⟨j, hiF⟩ = F[j] from rfl, hgj]
    have hsubI : ∀ a ∈ A.filter (fun a => decide (a.2.2 ≤ g.2.2)), a ∈ A.take i := by
      intro a ha
      rw [List.mem_filter] at ha
      obtain ⟨haA, haw⟩ := ha
      have haw2 : a.2.2 ≤ g.2.2 := of_decide_eq_true haw
      have hawlt : a.2.2 < (A.get ⟨i, hiA⟩).2.2 :=
        lt_of_le_of_lt (le_trans haw2 hwgF) hlt
      obtain ⟨⟨k, hk⟩, hak⟩ := List.mem_iff_get.mp haA
      rcases Nat.lt_or_ge k i with hki | hki
      · rw [List.mem_take_iff_getElem]
        exact ⟨k, by omega, hak⟩
      · exfalso
        rcases Nat.eq_or_lt_of_le hki with heq | hki2
        · have hfin : (⟨i, hiA⟩ : Fin A.length) = ⟨k, hk⟩ := Fin.ext heq
          have h2 : A.get ⟨i, hiA⟩ = a := by
            rw [hfin]
            exact hak
          rw [h2] at hawlt
          exact lt_irrefl _ hawlt
        · have hik := List.pairwise_iff_get.mp hsA ⟨i, hiA⟩ ⟨k, hk⟩ hki2
          rw [hak] at hik
          exact absurd hik (not_le.mpr hawlt)
    exact hgI (rconn_mono hsubI hgr)

/-- A pointwise weight bound between equal-length edge lists gives a
total-weight bound. -/
theorem weightL_dominated (A F : List (Node × Node × ℚ)) (hlen : A.length = F.length)
    (h : ∀ i (hiA : i < A.length) (hiF : i < F.length),
      (A.get ⟨i, hiA⟩).2.2 ≤ (F.get ⟨i, hiF⟩).2.2) :
    weightL A ≤ weightL F := by
  induction A generalizing F with
  | nil =>
    have hF : F = [] := List.length_eq_zero.mp hlen.symm
    subst hF
    exact le_refl _
  | cons a A ih =>
    cases F with
    | nil => simp at hlen
    | cons f F =>
      have h0 : a.2.2 ≤ f.2.2 := h 0 (by simp) (by simp)
      have hrest : ∀ i (hiA : i < A.length) (hiF : i < F.length),
          (A.get ⟨i, hiA⟩).2.2 ≤ (F.get ⟨i, hiF⟩).2.2 := by
        intro i hiA hiF
        exact h (i + 1) (by simp; omega) (by simp; omega)
      have hlen2 : A.length = F.length := by simpa using hlen
      have htail := ih F hlen2 hrest
      unfold weightL at htail ⊢
      simp only [List.map_cons, List.sum_cons]
      exact add_le_add h0 htail

/-- `rconn` only depends on the edge list up to permutation. -/
theorem rconn_perm {E1 E2 : List (Node × Node × ℚ)} (hp : E1.Perm E2) (a b : Node) :
    rconn E1 a b ↔ rconn E2 a b :=
  or_congr Iff.rfl (econn_perm hp a b)

/-- Sorting by weight yields a weight-nondecreasing list. -/
theorem mergeSort_weight_sorted (l : List (Node × Node × ℚ)) :
    List.Pairwise (fun a b => a.2.2 ≤ b.2.2)
      (l.mergeSort (fun a b => decide (a.2.2 ≤ b.2.2))) := by
  refine List.Pairwise.imp (fun h => of_decide_eq_true h) ?_
  refine List.sorted_mergeSort ?_ ?_ l
  · intro a b c hab hbc
    exact decide_eq_true (le_trans (of_decide_eq_true hab) (of_decide_eq_true hbc))
  · intro a b
    rcases le_total a.2.2 b.2.2 with h | h <;> simp [h]

/-- No connectivity over the empty edge list. -/
theorem econn_nil (a b : Node) : ¬ econn ([] : List (Node × Node × ℚ)) a b := by
  intro h
  refine PGen_false a b (PGen_mono (fun u v hp => ?_) a b h)
  simp [pairsRel] at hp

/-- The empty edge list is a forest. -/
theorem forestL_nil : forestL ([] : List (Node × Node × ℚ)) := by
  intro pre e post h
  exfalso
  cases pre <;> simp_all

/-- C7: for every input graph model (weights are finite rationals by
construction), `kruskal` succeeds and its output is a forest of input
edges with the same undirected connectivity as the input (hence a
spanning forest, a spanning tree when the input is connected), and its
total weight is least among all spanning forests built from input
edges: the minimum spanning forest weight. -/
theorem kruskal_minimum_spanning_forest (g : DirectedGraph Node) :
    ∃ mst', kruskal g = some mst' ∧
      (∀ e ∈ mst'.get_edges, e ∈ g.get_edges) ∧
      forestL mst'.get_edges ∧
      (∀ a b, rconn mst'.get_edges a b ↔ rconn g.get_edges a b) ∧
      ∀ F : List (Node × Node × ℚ),
        (∀ e ∈ F, e ∈ g.get_edges) →
        forestL F →
        (∀ a b, rconn F a b ↔ rconn g.get_edges a b) →
        weightL mst'.get_edges ≤ weightL F := by
  obtain ⟨es, hesdef⟩ : ∃ es,
      g.get_edges.mergeSort (fun a b => decide (a.2.2 ≤ b.2.2)) = es := ⟨_, rfl⟩
  have hperm_es : es.Perm g.get_edges := by
    rw [← hesdef]
    exact List.mergeSort_perm _ _
  have hsorted : List.Pairwise (fun a b => a.2.2 ≤ b.2.2) es := by
    rw [← hesdef]
    exact mergeSort_weight_sorted g.get_edges
  have hkr : kruskal g = kruskalAux UnionFind.empty DirectedGraph.empty es := by
    unfold kruskal
    rw [hesdef]
  obtain ⟨V, hVdef⟩ : ∃ V : Finset Node,
      (es.map (fun e => e.1) ++ es.map (fun e => e.2.1)).toFinset = V := ⟨_, rfl⟩
  have hVes : ∀ e ∈ es, e.1 ∈ V ∧ e.2.1 ∈ V := by
    intro e he
    constructor
    · rw [← hVdef]
      simp only [List.mem_toFinset, List.mem_append, List.mem_map]
      exact Or.inl ⟨e, he, rfl⟩
    · rw [← hVdef]
      simp only [List.mem_toFinset, List.mem_append, List.mem_map]
      exact Or.inr ⟨e, he, rfl⟩
  have hsame0 : ∀ a b : Node, ufSame (UnionFind.empty : UnionFind Node) a b ↔
      econn ([] : List (Node × Node × ℚ)) a b := by
    intro a b
    constructor
    · intro h
      exact absurd h (ufSame_empty a b)
    · intro h
      exact absurd h (econn_nil a b)
  have hcount0 : classCount (rconn ([] : List (Node × Node × ℚ))) V +
      ([] : List (Node × Node × ℚ)).length = V.card := by
    rw [classCount_congr rconn_nil V, classCount_eq_card]
    simp
  have hempty_edges :
      (DirectedGraph.empty : DirectedGraph Node).get_edges.Perm
        ([] : List (Node × Node × ℚ)) := by
    simp [DirectedGraph.empty, DirectedGraph.get_edges]
  obtain ⟨mst', hrun, A2, hpermA2, hA2forest, hA2mem, hA2conn, hA2count,
      hA2greedy, hA2sorted⟩ :=
    kruskalAux_spec es [] [] UnionFind.empty DirectedGraph.empty V
      UFInv_empty hsame0 (fun a b => Iff.rfl) forestL_nil
      (fun e he => absurd he (List.not_mem_nil e))
      hempty_edges
      (fun e he => absurd he (List.not_mem_nil e))
      hVes hcount0
      (fun a ha => absurd ha (List.not_mem_nil a))
      (fun e he => absurd he (List.not_mem_nil e))
      hsorted List.Pairwise.nil
  have hA2es : ∀ e ∈ A2, e ∈ es := hA2mem
  have hA2V : ∀ e ∈ A2, e.1 ∈ V ∧ e.2.1 ∈ V := fun e he => hVes e (hA2es e he)
  refine ⟨mst', by rw [hkr]; exact hrun, ?_, ?_, ?_, ?_⟩
  · intro e he
    exact hperm_es.mem_iff.mp (hA2es e (hpermA2.mem_iff.mp he))
  · exact forestL_perm hpermA2.symm hA2forest
  · intro a b
    calc rconn mst'.get_edges a b
        ↔ rconn A2 a b := rconn_perm hpermA2 a b
      _ ↔ rconn ([] ++ es) a b := (hA2conn a b).symm
      _ ↔ rconn es a b := by rw [List.nil_append]
      _ ↔ rconn g.get_edges a b := rconn_perm hperm_es a b
  · intro F hFsub hFforest hFconn
    obtain ⟨Fs, hFsdef⟩ : ∃ Fs,
        F.mergeSort (fun a b => decide (a.2.2 ≤ b.2.2)) = Fs := ⟨_, rfl⟩
    have hpermF : Fs.Perm F := by
      rw [← hFsdef]
      exact List.mergeSort_perm _ _
    have hsF : List.Pairwise (fun a b => a.2.2 ≤ b.2.2) Fs := by
      rw [← hFsdef]
      exact mergeSort_weight_sorted F
    have hFsforest : forestL Fs := forestL_perm hpermF.symm hFforest
    have hFsV : ∀ e ∈ Fs, e.1 ∈ V ∧ e.2.1 ∈ V := by
      intro e he
      exact hVes e (hperm_es.mem_iff.mpr (hFsub e (hpermF.mem_iff.mp he)))
    have hFscount := forest_count V Fs hFsforest hFsV
    have hccongr : classCount (rconn A2) V = classCount (rconn Fs) V := by
      refine classCount_congr (fun a b => ?_) V
      calc rconn A2 a b
          ↔ rconn ([] ++ es) a b := (hA2conn a b).symm
        _ ↔ rconn es a b := by rw [List.nil_append]
        _ ↔ rconn g.get_edges a b := rconn_perm hperm_es a b
        _ ↔ rconn F a b := (hFconn a b).symm
        _ ↔ rconn Fs a b := (rconn_perm hpermF a b).symm
    have hlen : A2.length = Fs.length := by
      rw [hccongr] at hA2count
      omega
    have hgr : ∀ f ∈ Fs,
        rconn (A2.filter (fun a => decide (a.2.2 ≤ f.2.2))) f.1 f.2.1 := by
      intro f hf
      have hfes : f ∈ es := hperm_es.mem_iff.mpr (hFsub f (hpermF.mem_iff.mp hf))
      exact hA2greedy f hfes
    have hdom : ∀ i (hiA : i < A2.length) (hiF : i < Fs.length),
        (A2.get ⟨i, hiA⟩).2.2 ≤ (Fs.get ⟨i, hiF⟩).2.2 := fun i hiA hiF =>
      sorted_forest_dominated V A2 Fs hA2sorted hsF hA2forest hA2V
        hFsforest hFsV hgr i hiA hiF
    calc weightL mst'.get_edges = weightL A2 := weightL_perm hpermA2
      _ ≤ weightL Fs := weightL_dominated A2 Fs hlen hdom
      _ = weightL F := weightL_perm hpermF
